import Mathlib

/-!
Verification development for the blocks_iterator pipeline.

The definitions below are a shallow embedding of the Rust sources:
bytes are `Nat` (values < 256 produced by all encoders), fallible code
returns `Option` or `Except Unit` (`Except.error ()` models a panic),
and the stateful stages are explicit state-passing functions.
-/

namespace BlocksIterator

/-! ## Little-endian integers (consensus encoding of u8/u16/u32/u64/i32) -/

/-- `w` little-endian bytes holding `n % 2^(8*w)`. -/
def natToLe : Nat → Nat → List Nat
  | 0, _ => []
  | w + 1, n => n % 256 :: natToLe w (n / 256)

/-- Read back a little-endian byte list as a `Nat`. -/
def leToNat : List Nat → Nat
  | [] => 0
  | b :: bs => b + 256 * leToNat bs

theorem natToLe_length (w n : Nat) : (natToLe w n).length = w := by
  induction w generalizing n with
  | zero => rfl
  | succ w ih => simp [natToLe, ih]

theorem leToNat_natToLe (w n : Nat) (h : n < 2 ^ (8 * w)) :
    leToNat (natToLe w n) = n := by
  induction w generalizing n with
  | zero =>
    simp only [Nat.mul_zero, pow_zero, Nat.lt_one_iff] at h
    simp [natToLe, leToNat, h]
  | succ w ih =>
    have hdiv : n / 256 < 2 ^ (8 * w) := by
      rw [Nat.div_lt_iff_lt_mul (by norm_num)]
      calc n < 2 ^ (8 * (w + 1)) := h
        _ = 2 ^ (8 * w) * 256 := by ring
    simp [natToLe, leToNat, ih _ hdiv, Nat.mod_add_div]

/-- Take exactly `n` bytes from the front, returning the rest. -/
def readN (n : Nat) (bs : List Nat) : Option (List Nat × List Nat) :=
  if n ≤ bs.length then some (bs.take n, bs.drop n) else none

theorem readN_append (xs rest : List Nat) :
    readN xs.length (xs ++ rest) = some (xs, rest) := by
  simp [readN]

/-- Decode a `w`-byte little-endian unsigned integer. -/
def decLe (w : Nat) (bs : List Nat) : Option (Nat × List Nat) :=
  (readN w bs).map fun p => (leToNat p.1, p.2)

theorem decLe_natToLe (w n : Nat) (h : n < 2 ^ (8 * w)) (rest : List Nat) :
    decLe w (natToLe w n ++ rest) = some (n, rest) := by
  have hl := natToLe_length w n
  simp [decLe, hl ▸ readN_append (natToLe w n) rest, leToNat_natToLe w n h]

/-! ## Bitcoin CompactSize (`VarInt`) -/

/-- Encoder of Bitcoin's CompactSize variable-length integer. -/
def encVarInt (n : Nat) : List Nat :=
  if n < 0xFD then [n]
  else if n < 0x10000 then 0xFD :: natToLe 2 n
  else if n < 0x100000000 then 0xFE :: natToLe 4 n
  else 0xFF :: natToLe 8 n

/-- Decoder of CompactSize, rejecting non-minimal encodings as the
consensus decoder does. -/
def decVarInt : List Nat → Option (Nat × List Nat)
  | [] => none
  | b :: bs =>
    if b = 0xFD then
      match decLe 2 bs with
      | some (n, rest) => if 0xFD ≤ n then some (n, rest) else none
      | none => none
    else if b = 0xFE then
      match decLe 4 bs with
      | some (n, rest) => if 0x10000 ≤ n then some (n, rest) else none
      | none => none
    else if b = 0xFF then
      match decLe 8 bs with
      | some (n, rest) => if 0x100000000 ≤ n then some (n, rest) else none
      | none => none
    else some (b, bs)

theorem decVarInt_encVarInt (n : Nat) (h : n < 2 ^ 64) (rest : List Nat) :
    decVarInt (encVarInt n ++ rest) = some (n, rest) := by
  unfold encVarInt
  by_cases h1 : n < 0xFD
  · rw [if_pos h1]
    show decVarInt (n :: rest) = some (n, rest)
    simp only [decVarInt]
    rw [if_neg (by omega : ¬ n = 0xFD), if_neg (by omega : ¬ n = 0xFE),
      if_neg (by omega : ¬ n = 0xFF)]
  · rw [if_neg h1]
    by_cases h2 : n < 0x10000
    · rw [if_pos h2]
      have := decLe_natToLe 2 n (by norm_num; omega) rest
      simp [decVarInt, this, (by omega : 0xFD ≤ n)]
    · rw [if_neg h2]
      by_cases h3 : n < 0x100000000
      · rw [if_pos h3]
        have := decLe_natToLe 4 n (by norm_num; omega) rest
        simp [decVarInt, this, (by omega : 0x10000 ≤ n)]
      · rw [if_neg h3]
        have := decLe_natToLe 8 n (by norm_num; omega) rest
        simp [decVarInt, this, (by omega : 0x100000000 ≤ n)]

/-! ## Variable-length byte strings (scripts) -/

/-- CompactSize length followed by the raw bytes. -/
def encVarBytes (s : List Nat) : List Nat :=
  encVarInt s.length ++ s

def decVarBytes (bs : List Nat) : Option (List Nat × List Nat) :=
  match decVarInt bs with
  | some (n, rest) => readN n rest
  | none => none

theorem decVarBytes_encVarBytes (s : List Nat) (h : s.length < 2 ^ 64)
    (rest : List Nat) : decVarBytes (encVarBytes s ++ rest) = some (s, rest) := by
  simp [encVarBytes, decVarBytes, decVarInt_encVarInt s.length h (s ++ rest),
    readN_append]

/-! ## Bitcoin data model and wire codec

The concrete wire codec for outpoints, outputs, transactions and blocks is
the library contract the pipeline consumes (rust-bitcoin / bitcoin_slices);
it is embedded here in its legacy (non-witness) form. -/

/-- Reference to a transaction output: `(txid, vout)`. The txid is kept as
its 32 raw bytes. -/
structure OutPoint where
  txid : List Nat
  vout : Nat
  deriving DecidableEq, Repr

/-- `OutPoint::default()`: all-zero txid, `vout = u32::MAX`. -/
def OutPoint.null : OutPoint :=
  ⟨List.replicate 32 0, 0xFFFFFFFF⟩

/-- A transaction output: value in satoshi and locking script bytes. -/
structure TxOut where
  value : Nat
  script_pubkey : List Nat
  deriving DecidableEq, Repr

/-- A transaction input (legacy fields). -/
structure TxIn where
  previous_output : OutPoint
  script_sig : List Nat
  sequence : Nat
  deriving DecidableEq, Repr

/-- A transaction (legacy serialization form). -/
structure Transaction where
  version : Nat
  input : List TxIn
  output : List TxOut
  lock_time : Nat
  deriving DecidableEq, Repr

/-- An 80-byte block header, in structured form. -/
structure Header where
  version : Nat
  prev_blockhash : List Nat
  merkle_root : List Nat
  time : Nat
  bits : Nat
  nonce : Nat
  deriving DecidableEq, Repr

/-- A block: header plus transactions. -/
structure Block where
  header : Header
  txdata : List Transaction
  deriving DecidableEq, Repr

def encList {α : Type} (enc : α → List Nat) (l : List α) : List Nat :=
  l.foldr (fun x acc => enc x ++ acc) []

def encOutPoint (o : OutPoint) : List Nat :=
  o.txid ++ natToLe 4 o.vout

def encTxOut (t : TxOut) : List Nat :=
  natToLe 8 t.value ++ encVarBytes t.script_pubkey

def encTxIn (i : TxIn) : List Nat :=
  encOutPoint i.previous_output ++ encVarBytes i.script_sig ++ natToLe 4 i.sequence

def encTx (t : Transaction) : List Nat :=
  natToLe 4 t.version ++ encVarInt t.input.length ++ encList encTxIn t.input ++
    encVarInt t.output.length ++ encList encTxOut t.output ++ natToLe 4 t.lock_time

def encHeader (h : Header) : List Nat :=
  natToLe 4 h.version ++ h.prev_blockhash ++ h.merkle_root ++
    natToLe 4 h.time ++ natToLe 4 h.bits ++ natToLe 4 h.nonce

def encBlock (b : Block) : List Nat :=
  encHeader b.header ++ encVarInt b.txdata.length ++ encList encTx b.txdata

def decOutPoint (bs : List Nat) : Option (OutPoint × List Nat) := do
  let (txid, bs) ← readN 32 bs
  let (vout, bs) ← decLe 4 bs
  pure (⟨txid, vout⟩, bs)

def decTxOut (bs : List Nat) : Option (TxOut × List Nat) := do
  let (value, bs) ← decLe 8 bs
  let (script, bs) ← decVarBytes bs
  pure (⟨value, script⟩, bs)

def decTxIn (bs : List Nat) : Option (TxIn × List Nat) := do
  let (prevout, bs) ← decOutPoint bs
  let (sig, bs) ← decVarBytes bs
  let (seqn, bs) ← decLe 4 bs
  pure (⟨prevout, sig, seqn⟩, bs)

/-- Decode `n` consecutive items with the item decoder `dec`. -/
def decCount {α : Type} (dec : List Nat → Option (α × List Nat)) :
    Nat → List Nat → Option (List α × List Nat)
  | 0, bs => some ([], bs)
  | n + 1, bs => do
    let (x, bs) ← dec bs
    let (xs, bs) ← decCount dec n bs
    pure (x :: xs, bs)

def decTx (bs : List Nat) : Option (Transaction × List Nat) := do
  let (version, bs) ← decLe 4 bs
  let (nin, bs) ← decVarInt bs
  let (input, bs) ← decCount decTxIn nin bs
  let (nout, bs) ← decVarInt bs
  let (output, bs) ← decCount decTxOut nout bs
  let (lock_time, bs) ← decLe 4 bs
  pure (⟨version, input, output, lock_time⟩, bs)

def decHeader (bs : List Nat) : Option (Header × List Nat) := do
  let (version, bs) ← decLe 4 bs
  let (prev, bs) ← readN 32 bs
  let (merkle, bs) ← readN 32 bs
  let (time, bs) ← decLe 4 bs
  let (bits, bs) ← decLe 4 bs
  let (nonce, bs) ← decLe 4 bs
  pure (⟨version, prev, merkle, time, bits, nonce⟩, bs)

def decBlock (bs : List Nat) : Option (Block × List Nat) := do
  let (header, bs) ← decHeader bs
  let (ntx, bs) ← decVarInt bs
  let (txdata, bs) ← decCount decTx ntx bs
  pure (⟨header, txdata⟩, bs)

/-! ### Well-formedness (field bounds under which the codec round-trips) -/

def WFOutPoint (o : OutPoint) : Prop :=
  o.txid.length = 32 ∧ o.vout < 2 ^ 32

def WFTxOut (t : TxOut) : Prop :=
  t.value < 2 ^ 64 ∧ t.script_pubkey.length < 2 ^ 64

def WFTxIn (i : TxIn) : Prop :=
  WFOutPoint i.previous_output ∧ i.script_sig.length < 2 ^ 64 ∧ i.sequence < 2 ^ 32

def WFTx (t : Transaction) : Prop :=
  t.version < 2 ^ 32 ∧ t.lock_time < 2 ^ 32 ∧
    t.input.length < 2 ^ 64 ∧ t.output.length < 2 ^ 64 ∧
    (∀ i ∈ t.input, WFTxIn i) ∧ (∀ o ∈ t.output, WFTxOut o)

def WFHeader (h : Header) : Prop :=
  h.version < 2 ^ 32 ∧ h.prev_blockhash.length = 32 ∧ h.merkle_root.length = 32 ∧
    h.time < 2 ^ 32 ∧ h.bits < 2 ^ 32 ∧ h.nonce < 2 ^ 32

def WFBlock (b : Block) : Prop :=
  WFHeader b.header ∧ b.txdata.length < 2 ^ 64 ∧ ∀ t ∈ b.txdata, WFTx t

instance (o : OutPoint) : Decidable (WFOutPoint o) := by unfold WFOutPoint; infer_instance
instance (t : TxOut) : Decidable (WFTxOut t) := by unfold WFTxOut; infer_instance
instance (i : TxIn) : Decidable (WFTxIn i) := by unfold WFTxIn; infer_instance
instance (t : Transaction) : Decidable (WFTx t) := by unfold WFTx; infer_instance
instance (h : Header) : Decidable (WFHeader h) := by unfold WFHeader; infer_instance
instance (b : Block) : Decidable (WFBlock b) := by unfold WFBlock; infer_instance

/-! ### Round-trip lemmas for the codec -/

theorem decOutPoint_encOutPoint (o : OutPoint) (h : WFOutPoint o) (rest : List Nat) :
    decOutPoint (encOutPoint o ++ rest) = some (o, rest) := by
  obtain ⟨h1, h2⟩ := h
  have := readN_append o.txid (natToLe 4 o.vout ++ rest)
  simp only [encOutPoint, decOutPoint, List.append_assoc, h1 ▸ this,
    Option.bind_eq_bind, Option.some_bind, decLe_natToLe 4 o.vout h2 rest]
  rfl

theorem decTxOut_encTxOut (t : TxOut) (h : WFTxOut t) (rest : List Nat) :
    decTxOut (encTxOut t ++ rest) = some (t, rest) := by
  obtain ⟨h1, h2⟩ := h
  simp only [encTxOut, decTxOut, List.append_assoc, decLe_natToLe 8 t.value h1,
    Option.bind_eq_bind, Option.some_bind,
    decVarBytes_encVarBytes t.script_pubkey h2 rest]
  rfl

theorem decTxIn_encTxIn (i : TxIn) (h : WFTxIn i) (rest : List Nat) :
    decTxIn (encTxIn i ++ rest) = some (i, rest) := by
  obtain ⟨h1, h2, h3⟩ := h
  simp only [encTxIn, decTxIn, List.append_assoc,
    decOutPoint_encOutPoint i.previous_output h1,
    Option.bind_eq_bind, Option.some_bind,
    decVarBytes_encVarBytes i.script_sig h2, decLe_natToLe 4 i.sequence h3 rest]
  rfl

theorem decCount_encList {α : Type} (dec : List Nat → Option (α × List Nat))
    (enc : α → List Nat) (l : List α) (P : α → Prop)
    (hrt : ∀ x, P x → ∀ r, dec (enc x ++ r) = some (x, r)) (hP : ∀ x ∈ l, P x)
    (rest : List Nat) :
    decCount dec l.length (encList enc l ++ rest) = some (l, rest) := by
  induction l with
  | nil => simp [encList, decCount]
  | cons x xs ih =>
    have hx := hrt x (hP x (by simp)) (encList enc xs ++ rest)
    simp only [encList, List.foldr_cons, List.length_cons, decCount,
      List.append_assoc] at *
    simp only [hx, Option.bind_eq_bind, Option.some_bind,
      ih (fun y hy => hP y (by simp [hy]))]
    rfl

theorem decTx_encTx (t : Transaction) (h : WFTx t) (rest : List Nat) :
    decTx (encTx t ++ rest) = some (t, rest) := by
  obtain ⟨h1, h2, h3, h4, h5, h6⟩ := h
  simp only [encTx, decTx, List.append_assoc, decLe_natToLe 4 t.version h1,
    Option.bind_eq_bind, Option.some_bind, decVarInt_encVarInt t.input.length h3,
    decCount_encList decTxIn encTxIn t.input WFTxIn decTxIn_encTxIn h5,
    decVarInt_encVarInt t.output.length h4,
    decCount_encList decTxOut encTxOut t.output WFTxOut decTxOut_encTxOut h6,
    decLe_natToLe 4 t.lock_time h2 rest]
  rfl

theorem decHeader_encHeader (h : Header) (hw : WFHeader h) (rest : List Nat) :
    decHeader (encHeader h ++ rest) = some (h, rest) := by
  obtain ⟨h1, h2, h3, h4, h5, h6⟩ := hw
  have hp := readN_append h.prev_blockhash
  have hm := readN_append h.merkle_root
  simp only [encHeader, decHeader, List.append_assoc, decLe_natToLe 4 h.version h1,
    Option.bind_eq_bind, Option.some_bind, h2 ▸ hp _, h3 ▸ hm _,
    decLe_natToLe 4 h.time h4, decLe_natToLe 4 h.bits h5,
    decLe_natToLe 4 h.nonce h6 rest]
  rfl

theorem decBlock_encBlock (b : Block) (h : WFBlock b) (rest : List Nat) :
    decBlock (encBlock b ++ rest) = some (b, rest) := by
  obtain ⟨h1, h2, h3⟩ := h
  simp only [encBlock, decBlock, List.append_assoc, decHeader_encHeader b.header h1,
    Option.bind_eq_bind, Option.some_bind, decVarInt_encVarInt b.txdata.length h2,
    decCount_encList decTx encTx b.txdata WFTx decTx_encTx h3 rest]
  rfl

theorem encHeader_length (h : Header) (hw : WFHeader h) : (encHeader h).length = 80 := by
  obtain ⟨_, h2, h3, _, _, _⟩ := hw
  simp [encHeader, natToLe_length, h2, h3]

/-! ## `BlockExtra`: the emitted enriched record and its wire format
(`src/lib/src/block_extra.rs`). The `outpoint_values` hash map is kept as
its underlying association list (encode iterates it in that order, decode
re-inserts in the same order). -/

structure BlockExtra where
  version : Nat
  block_bytes : List Nat
  block_hash : List Nat
  size : Nat
  next : List (List Nat)
  height : Nat
  outpoint_values : List (OutPoint × TxOut)
  block_total_inputs : Nat
  block_total_outputs : Nat
  txids : List (List Nat)
  block_total_txs : Nat
  deriving DecidableEq, Repr

/-- `BlockExtra::consensus_encode`. -/
def encBlockExtra (e : BlockExtra) : List Nat :=
  [e.version] ++
    (if e.version = 1 then natToLe 4 e.size else []) ++
    e.block_bytes ++
    e.block_hash ++
    (if e.version = 0 then natToLe 4 e.size else []) ++
    encVarInt e.next.length ++ encList id e.next ++
    natToLe 4 e.height ++
    natToLe 4 e.outpoint_values.length ++
    encList (fun p => encOutPoint p.1 ++ encTxOut p.2) e.outpoint_values ++
    natToLe 4 e.block_total_inputs ++
    natToLe 4 e.block_total_outputs ++
    natToLe 4 e.txids.length ++ encList id e.txids

def decOutPointTxOut (bs : List Nat) : Option ((OutPoint × TxOut) × List Nat) := do
  let (o, bs) ← decOutPoint bs
  let (t, bs) ← decTxOut bs
  pure ((o, t), bs)

/-- Decoding of the fields shared by both versions of the wire format,
after version, size, block bytes and hash have been read. -/
def decBlockExtraTail (version size : Nat) (block_bytes block_hash : List Nat)
    (bs : List Nat) : Option (BlockExtra × List Nat) := do
  let (nnext, bs) ← decVarInt bs
  let (next, bs) ← decCount (readN 32) nnext bs
  let (height, bs) ← decLe 4 bs
  let (nvals, bs) ← decLe 4 bs
  let (outpoint_values, bs) ← decCount decOutPointTxOut nvals bs
  let (block_total_inputs, bs) ← decLe 4 bs
  let (block_total_outputs, bs) ← decLe 4 bs
  let (ntxids, bs) ← decLe 4 bs
  let (txids, bs) ← decCount (readN 32) ntxids bs
  pure (⟨version, block_bytes, block_hash, size, next, height, outpoint_values,
    block_total_inputs, block_total_outputs, txids, txids.length⟩, bs)

/-- `BlockExtra::consensus_decode`. In the version-0 format the block is
parsed and re-serialized to recover its bytes; in version 1 the declared
size of raw bytes is read. -/
def decBlockExtra (bs : List Nat) : Option (BlockExtra × List Nat) := do
  let (version, bs) ← decLe 1 bs
  match version with
  | 0 => do
    let (block, bs) ← decBlock bs
    let (block_hash, bs) ← readN 32 bs
    let (size, bs) ← decLe 4 bs
    decBlockExtraTail 0 size (encBlock block) block_hash bs
  | 1 => do
    let (size, bs) ← decLe 4 bs
    let (block_bytes, bs) ← readN size bs
    let (block_hash, bs) ← readN 32 bs
    decBlockExtraTail 1 size block_bytes block_hash bs
  | _ => none

/-- The documented invariants of a `BlockExtra` record: version tag 0 or 1,
`size` is the byte length of the block, the cached hash and the listed
hashes are 32 bytes, counts fit in `u32`, `block_total_txs` is derived from
`txids`, and the block bytes are the serialization of a well-formed block. -/
def WFBlockExtra (e : BlockExtra) : Prop :=
  (e.version = 0 ∨ e.version = 1) ∧
    e.size = e.block_bytes.length ∧
    e.block_bytes.length < 2 ^ 32 ∧
    e.block_hash.length = 32 ∧
    e.next.length < 2 ^ 64 ∧ (∀ h ∈ e.next, h.length = 32) ∧
    e.height < 2 ^ 32 ∧
    e.outpoint_values.length < 2 ^ 32 ∧
    (∀ p ∈ e.outpoint_values, WFOutPoint p.1 ∧ WFTxOut p.2) ∧
    e.block_total_inputs < 2 ^ 32 ∧
    e.block_total_outputs < 2 ^ 32 ∧
    e.txids.length < 2 ^ 32 ∧ (∀ t ∈ e.txids, t.length = 32) ∧
    e.block_total_txs = e.txids.length ∧
    ∃ b, WFBlock b ∧ e.block_bytes = encBlock b

theorem decLe4_natToLe (n : Nat) (h : n < 2 ^ 32) (rest : List Nat) :
    decLe 4 (natToLe 4 n ++ rest) = some (n, rest) :=
  decLe_natToLe 4 n h rest

theorem decHashes_encHashes (l : List (List Nat)) (h : ∀ x ∈ l, x.length = 32)
    (rest : List Nat) :
    decCount (readN 32) l.length (encList id l ++ rest) = some (l, rest) := by
  refine decCount_encList (readN 32) id l (fun x => x.length = 32) ?_ h rest
  intro x hx r
  exact hx ▸ readN_append x r

theorem decOutPointTxOut_enc (p : OutPoint × TxOut) (h : WFOutPoint p.1 ∧ WFTxOut p.2)
    (rest : List Nat) :
    decOutPointTxOut ((encOutPoint p.1 ++ encTxOut p.2) ++ rest) = some (p, rest) := by
  simp only [decOutPointTxOut, List.append_assoc,
    decOutPoint_encOutPoint p.1 h.1, Option.bind_eq_bind, Option.some_bind,
    decTxOut_encTxOut p.2 h.2 rest]
  rfl

theorem decLe_one (b : Nat) (rest : List Nat) : decLe 1 (b :: rest) = some (b, rest) := by
  simp [decLe, readN, leToNat]

/-- The shared trailing fields of the encoding, after version/size/bytes/hash. -/
def encBlockExtraTail (e : BlockExtra) : List Nat :=
  encVarInt e.next.length ++ encList id e.next ++
    natToLe 4 e.height ++
    natToLe 4 e.outpoint_values.length ++
    encList (fun p => encOutPoint p.1 ++ encTxOut p.2) e.outpoint_values ++
    natToLe 4 e.block_total_inputs ++
    natToLe 4 e.block_total_outputs ++
    natToLe 4 e.txids.length ++ encList id e.txids

theorem encBlockExtra_split (e : BlockExtra) :
    encBlockExtra e = [e.version] ++
      (if e.version = 1 then natToLe 4 e.size else []) ++
      e.block_bytes ++ e.block_hash ++
      (if e.version = 0 then natToLe 4 e.size else []) ++ encBlockExtraTail e := by
  simp [encBlockExtra, encBlockExtraTail]

theorem decBlockExtraTail_enc (e : BlockExtra)
    (hnlen : e.next.length < 2 ^ 64) (hnall : ∀ h ∈ e.next, h.length = 32)
    (hht : e.height < 2 ^ 32) (hvlen : e.outpoint_values.length < 2 ^ 32)
    (hvall : ∀ p ∈ e.outpoint_values, WFOutPoint p.1 ∧ WFTxOut p.2)
    (hti : e.block_total_inputs < 2 ^ 32) (hto : e.block_total_outputs < 2 ^ 32)
    (htxlen : e.txids.length < 2 ^ 32) (htxall : ∀ t ∈ e.txids, t.length = 32)
    (httx : e.block_total_txs = e.txids.length) (rest : List Nat) :
    decBlockExtraTail e.version e.size e.block_bytes e.block_hash
      (encBlockExtraTail e ++ rest) = some (e, rest) := by
  have hlt : (2 : Nat) ^ 32 < 2 ^ 64 := by norm_num
  obtain ⟨v, bb, bh, sz, nx, hgt, ov, bti, bto, tx, tt⟩ := e
  simp only at hnlen hnall hht hvlen hvall hti hto htxlen htxall httx
  simp only [encBlockExtraTail, decBlockExtraTail, List.append_assoc,
    decVarInt_encVarInt nx.length hnlen,
    Option.bind_eq_bind, Option.some_bind, decHashes_encHashes nx hnall,
    decLe_natToLe 4 hgt hht,
    decLe4_natToLe ov.length hvlen,
    decCount_encList decOutPointTxOut (fun p => encOutPoint p.1 ++ encTxOut p.2)
      ov _ decOutPointTxOut_enc hvall,
    decLe_natToLe 4 bti hti,
    decLe_natToLe 4 bto hto,
    decLe4_natToLe tx.length htxlen,
    decHashes_encHashes tx htxall]
  simp [httx]

/-- C3: for every well-formed `BlockExtra` record with serialization version
0 or 1, decoding its encoding yields the record back (all fields equal),
leaving trailing bytes untouched. -/
theorem blockextra_roundtrip (e : BlockExtra) (h : WFBlockExtra e) (rest : List Nat) :
    decBlockExtra (encBlockExtra e ++ rest) = some (e, rest) := by
  obtain ⟨hv, hsz, hszlt, hh, hnlen, hnall, hht, hvlen, hvall, hti, hto, htxlen,
    htxall, httx, b, hwb, hbb⟩ := h
  have hsz32 : e.size < 2 ^ 32 := by rw [hsz]; exact hszlt
  have htail := decBlockExtraTail_enc e hnlen hnall hht hvlen hvall hti hto
    htxlen htxall httx rest
  rw [encBlockExtra_split e]
  rcases hv with hv | hv
  · rw [if_neg (by omega), if_pos hv]
    simp only [hv] at htail ⊢
    simp only [List.nil_append, List.append_assoc, List.cons_append,
      List.singleton_append, decBlockExtra, decLe_one, Option.bind_eq_bind,
      Option.some_bind, hbb, decBlock_encBlock b hwb,
      hh ▸ readN_append e.block_hash, decLe_natToLe 4 e.size hsz32]
    rw [← hbb]
    exact htail
  · rw [if_pos hv, if_neg (by omega)]
    simp only [hv] at htail ⊢
    have hbytes : readN e.size (e.block_bytes ++ (e.block_hash ++
        (encBlockExtraTail e ++ rest))) = some (e.block_bytes, e.block_hash ++
        (encBlockExtraTail e ++ rest)) := hsz ▸ readN_append e.block_bytes _
    simp only [List.nil_append, List.append_assoc, List.cons_append,
      List.singleton_append, decBlockExtra, decLe_one, Option.bind_eq_bind,
      Option.some_bind, decLe_natToLe 4 e.size hsz32, hbytes,
      hh ▸ readN_append e.block_hash]
    exact htail

/-- A concrete empty block (all-zero header, no transactions), mirroring
the source test fixture. -/
def exB : Block :=
  ⟨⟨0, List.replicate 32 0, List.replicate 32 0, 0, 0, 0⟩, []⟩

/-- A concrete version-0 record over `exB`. -/
def exE : BlockExtra :=
  ⟨0, encBlock exB, List.replicate 32 0, 81, [List.replicate 32 0], 0,
    [(OutPoint.null, ⟨0, []⟩)], 0, 0, [], 0⟩

/-- Closed witness for C3: the concrete record `exE` is well-formed and
round-trips. -/
theorem blockextra_roundtrip_witness :
    WFBlockExtra exE ∧ decBlockExtra (encBlockExtra exE ++ []) = some (exE, []) := by
  have hwf : WFBlockExtra exE :=
    ⟨Or.inl rfl, by decide, by decide, by decide, by decide, by decide,
      by decide, by decide, by decide, by decide, by decide, by decide,
      by decide, by decide, exB, by decide, rfl⟩
  exact ⟨hwf, blockextra_roundtrip exE hwf []⟩

/-! ## Association lists (the model of the `HashMap`s used by the stages) -/

def alookup {κ α : Type} [DecidableEq κ] : List (κ × α) → κ → Option α
  | [], _ => none
  | (k, v) :: t, q => if k = q then some v else alookup t q

/-- `HashMap::remove`: drop the binding of `k` if present. -/
def aerase {κ α : Type} [DecidableEq κ] : List (κ × α) → κ → List (κ × α)
  | [], _ => []
  | (k1, v1) :: t, k => if k1 = k then t else (k1, v1) :: aerase t k

/-- `HashMap::insert`: bind `k` to `v`, dropping any previous binding. -/
def ainsert {κ α : Type} [DecidableEq κ] (l : List (κ × α)) (k : κ) (v : α) :
    List (κ × α) :=
  (k, v) :: aerase l k

/-- Keys bound by the map are pairwise distinct (all maps below start empty
and are mutated only through `ainsert`/`aerase`, which preserve this). -/
def KeysNodup {κ α : Type} (l : List (κ × α)) : Prop :=
  (l.map Prod.fst).Nodup

theorem aerase_sublist {κ α : Type} [DecidableEq κ] (l : List (κ × α)) (k : κ) :
    List.Sublist (aerase l k) l := by
  induction l with
  | nil => simp [aerase]
  | cons p t ih =>
    obtain ⟨k1, v1⟩ := p
    by_cases h : k1 = k
    · simpa [aerase, h] using List.sublist_cons_self (k1, v1) t
    · simpa [aerase, h] using ih.cons₂ (k1, v1)

theorem alookup_eq_none {κ α : Type} [DecidableEq κ] (l : List (κ × α)) (k : κ)
    (h : k ∉ l.map Prod.fst) : alookup l k = none := by
  induction l with
  | nil => rfl
  | cons p t ih =>
    obtain ⟨k1, v1⟩ := p
    simp only [List.map_cons, List.mem_cons, not_or] at h
    simp only [alookup, if_neg (fun hq : k1 = k => h.1 hq.symm)]
    exact ih h.2

theorem not_mem_keys_aerase {κ α : Type} [DecidableEq κ] (l : List (κ × α))
    (k : κ) (hnd : KeysNodup l) : k ∉ (aerase l k).map Prod.fst := by
  induction l with
  | nil => simp [aerase]
  | cons p t ih =>
    obtain ⟨k1, v1⟩ := p
    simp only [KeysNodup, List.map_cons, List.nodup_cons] at hnd
    by_cases h : k1 = k
    · subst h
      simpa [aerase] using hnd.1
    · simp only [aerase, if_neg h, List.map_cons, List.mem_cons, not_or]
      exact ⟨fun hq => h hq.symm, ih hnd.2⟩

theorem keysNodup_aerase {κ α : Type} [DecidableEq κ] (l : List (κ × α)) (k : κ)
    (hnd : KeysNodup l) : KeysNodup (aerase l k) :=
  hnd.sublist ((aerase_sublist l k).map Prod.fst)

theorem keysNodup_ainsert {κ α : Type} [DecidableEq κ] (l : List (κ × α))
    (k : κ) (v : α) (hnd : KeysNodup l) : KeysNodup (ainsert l k v) := by
  simp only [KeysNodup, ainsert, List.map_cons, List.nodup_cons]
  exact ⟨not_mem_keys_aerase l k hnd, keysNodup_aerase l k hnd⟩

theorem alookup_ainsert_self {κ α : Type} [DecidableEq κ] (l : List (κ × α))
    (k : κ) (v : α) : alookup (ainsert l k v) k = some v := by
  simp [ainsert, alookup]

theorem alookup_aerase_ne {κ α : Type} [DecidableEq κ] (l : List (κ × α))
    (k q : κ) (h : k ≠ q) : alookup (aerase l k) q = alookup l q := by
  induction l with
  | nil => rfl
  | cons p t ih =>
    obtain ⟨k1, v1⟩ := p
    by_cases h1 : k1 = k
    · subst h1
      simp [aerase, alookup, h]
    · by_cases h2 : k1 = q
      · subst h2
        simp [aerase, alookup, h1]
      · simp [aerase, alookup, h1, h2, ih]

theorem alookup_ainsert_ne {κ α : Type} [DecidableEq κ] (l : List (κ × α))
    (k q : κ) (v : α) (h : k ≠ q) : alookup (ainsert l k v) q = alookup l q := by
  simp [ainsert, alookup, h, alookup_aerase_ne l k q h]

theorem alookup_aerase_self {κ α : Type} [DecidableEq κ] (l : List (κ × α))
    (k : κ) (hnd : KeysNodup l) : alookup (aerase l k) k = none :=
  alookup_eq_none _ _ (not_mem_keys_aerase l k hnd)

theorem aerase_length_le {κ α : Type} [DecidableEq κ] (l : List (κ × α)) (k : κ) :
    (aerase l k).length ≤ l.length :=
  (aerase_sublist l k).length_le

theorem aerase_length_lt {κ α : Type} [DecidableEq κ] (l : List (κ × α))
    (k : κ) (v : α) (h : alookup l k = some v) :
    (aerase l k).length < l.length := by
  induction l with
  | nil => simp [alookup] at h
  | cons p t ih =>
    obtain ⟨k1, v1⟩ := p
    by_cases h1 : k1 = k
    · simp [aerase, h1]
    · simp only [alookup, if_neg h1] at h
      simpa [aerase, h1] using ih h

theorem alookup_mem {κ α : Type} [DecidableEq κ] (l : List (κ × α)) (k : κ)
    (v : α) (h : alookup l k = some v) : (k, v) ∈ l := by
  induction l with
  | nil => simp [alookup] at h
  | cons p t ih =>
    obtain ⟨k1, v1⟩ := p
    by_cases h1 : k1 = k
    · subst h1
      simp [alookup] at h
      subst h
      exact List.mem_cons_self _ _
    · simp only [alookup, if_neg h1] at h
      exact List.mem_cons_of_mem _ (ih h)

/-! ## The Reorder stage (`src/lib/src/stages/reorder.rs`)

Block hashes are modelled as `Nat`. `Except.error ()` models a panic. -/

/-- A located block as handed to the Reorderer (the file handle and byte
range are irrelevant to the ordering logic; `hash`/`prev` come from the
parsed header, `next` starts empty). -/
structure FsBlock where
  hash : Nat
  prev : Nat
  next : List Nat
  deriving DecidableEq, Repr

/-- `OutOfOrderBlocks`: the DAG of buffered blocks. -/
structure OutOfOrderBlocks where
  blocks : List (Nat × FsBlock)
  follows : List (Nat × List Nat)
  max_reorg : Nat
  deriving Repr

/-- Step 1 of `OutOfOrderBlocks::add`: record the edge `prev -> hash` in
the child index (`follows.entry(prev_hash).and_modify(push).or_insert`). -/
def addFollows (follows : List (Nat × List Nat)) (raw : FsBlock) :
    List (Nat × List Nat) :=
  match alookup follows raw.prev with
  | some e => ainsert follows raw.prev (e ++ [raw.hash])
  | none => ainsert follows raw.prev [raw.hash]

/-- Steps 3-4 of `OutOfOrderBlocks::add`: append the new hash to the
parent's `next` list when the parent is buffered, then insert the block. -/
def addBlocks (blocks : List (Nat × FsBlock)) (raw2 : FsBlock) :
    List (Nat × FsBlock) :=
  let blocks1 :=
    match alookup blocks raw2.prev with
    | some prevb =>
      ainsert blocks raw2.prev { prevb with next := prevb.next ++ [raw2.hash] }
    | none => blocks
  ainsert blocks1 raw2.hash raw2

/-- `OutOfOrderBlocks::add`: record the child edge, adopt any children that
arrived earlier (step 2), link to the buffered parent, and insert. -/
def addOO (s : OutOfOrderBlocks) (raw : FsBlock) : OutOfOrderBlocks :=
  let follows1 := addFollows s.follows raw
  match alookup follows1 raw.hash with
  | some fl =>
    { s with blocks := addBlocks s.blocks { raw with next := raw.next ++ fl },
             follows := aerase follows1 raw.hash }
  | none =>
    { s with blocks := addBlocks s.blocks raw, follows := follows1 }

/-- Return the first `some` produced by `f` on the list, propagating panics. -/
def firstSomeE {α β : Type} (f : α → Except Unit (Option β)) :
    List α → Except Unit (Option β)
  | [] => Except.ok none
  | x :: xs =>
    match f x with
    | Except.error e => Except.error e
    | Except.ok (some y) => Except.ok (some y)
    | Except.ok none => firstSomeE f xs

/-- `return Some(path[0])` on a complete path: the indexing panics when the
path is empty. -/
def pathDone (path : List Nat) : Except Unit (Option Nat) :=
  match path.head? with
  | some x => Except.ok (some x)
  | none => Except.error ()

/-- `OutOfOrderBlocks::exist_and_has_followers`, with explicit fuel
(`max_reorg - path.length` at every reachable call, so the fuel never runs
out: the zero-fuel fallback is unreachable whenever `path` is shorter than
`max_reorg`). -/
def existFollowGo (s : OutOfOrderBlocks) :
    Nat → Nat → List Nat → Except Unit (Option Nat)
  | 0, _, path =>
    if path.length = s.max_reorg then pathDone path else Except.ok none
  | fuel + 1, hash, path =>
    if path.length = s.max_reorg then pathDone path
    else
      match alookup s.blocks hash with
      | none => Except.ok none
      | some block =>
        firstSomeE (fun nxt => existFollowGo s fuel nxt (path ++ [nxt])) block.next

def existAndHasFollowers (s : OutOfOrderBlocks) (hash : Nat) (path : List Nat) :
    Except Unit (Option Nat) :=
  existFollowGo s (s.max_reorg - path.length) hash path

/-- Return the first `some` produced by `f` on the list. -/
def firstSome {α β : Type} (f : α → Option β) : List α → Option β
  | [] => none
  | x :: xs =>
    match f x with
    | some y => some y
    | none => firstSome f xs

/-- Modelled from the spec: the first complete descendant path (of length
`max_reorg`) found by depth-first search over the `next` (children) lists,
children visited in insertion order. -/
def dfsFirstGo (s : OutOfOrderBlocks) :
    Nat → Nat → List Nat → Option (List Nat)
  | 0, _, path =>
    if path.length = s.max_reorg then some path else none
  | fuel + 1, hash, path =>
    if path.length = s.max_reorg then some path
    else
      match alookup s.blocks hash with
      | none => none
      | some block =>
        firstSome (fun nxt => dfsFirstGo s fuel nxt (path ++ [nxt])) block.next

/-- Modelled from the spec: the DFS-first complete path from `hash`. -/
def dfsFirstPath (s : OutOfOrderBlocks) (hash : Nat) : Option (List Nat) :=
  dfsFirstGo s s.max_reorg hash []

/-- `OutOfOrderBlocks::remove`: release the block only if it has a
`max_reorg`-deep descendant path, replacing its `next` list by the chosen
single successor. -/
def removeOO (s : OutOfOrderBlocks) (hash : Nat) :
    Except Unit (Option (FsBlock × OutOfOrderBlocks)) :=
  match existAndHasFollowers s hash [] with
  | Except.error e => Except.error e
  | Except.ok none => Except.ok none
  | Except.ok (some nxt) =>
    match alookup s.blocks hash with
    | none => Except.error ()
    | some value =>
      Except.ok (some ({ value with next := [nxt] },
        { s with blocks := aerase s.blocks hash }))

/-- A released block as seen by the downstream stages: its hash, the
header's previous-block hash, the chosen `next` list and the stamped
height. -/
structure Emitted where
  hash : Nat
  prev : Nat
  next : List Nat
  height : Nat
  deriving DecidableEq, Repr

/-- The release loop of the Reorderer (`while let Some(block_to_send) =
blocks.remove(&next)`); returns the emitted records, the new state, the new
expected hash and height, and whether `stop_at_height` fired. -/
def emitLoop (stop : Option Nat) :
    Nat → OutOfOrderBlocks → Nat → Nat →
    Except Unit (List Emitted × OutOfOrderBlocks × Nat × Nat × Bool)
  | 0, s, nextHash, height => Except.ok ([], s, nextHash, height, false)
  | fuel + 1, s, nextHash, height =>
    match removeOO s nextHash with
    | Except.error e => Except.error e
    | Except.ok none => Except.ok ([], s, nextHash, height, false)
    | Except.ok (some (value, s1)) =>
      match value.next with
      | [] => Except.error ()
      | nxt :: _ =>
        let emitted : Emitted := ⟨value.hash, value.prev, value.next, height⟩
        let s2 := { s1 with follows := aerase s1.follows value.hash }
        let s3 := { s2 with blocks := aerase s2.blocks value.prev }
        let height1 := height + 1
        let stopNow :=
          match stop with
          | some st => decide (height1 > st)
          | none => false
        if stopNow then Except.ok ([emitted], s3, nxt, height1, true)
        else
          match emitLoop stop fuel s3 nxt height1 with
          | Except.error e => Except.error e
          | Except.ok (es, s4, n4, h4, early) =>
            Except.ok (emitted :: es, s4, n4, h4, early)

/-- The Reorderer main loop over the incoming blocks: add each to the DAG
(panicking when it exceeds 10000 entries) and then release as many blocks
as possible.  Returns all emitted records and whether the run panicked. -/
def reorderGo (stop : Option Nat) :
    List FsBlock → OutOfOrderBlocks → Nat → Nat → List Emitted × Bool
  | [], _, _, _ => ([], false)
  | raw :: rest, s, nextHash, height =>
    if s.blocks.length > 10000 then ([], true)
    else
      let s1 := addOO s raw
      match emitLoop stop (s1.blocks.length + 1) s1 nextHash height with
      | Except.error _ => ([], true)
      | Except.ok (es, s2, nextHash2, height2, early) =>
        if early then (es, false)
        else
          let r := reorderGo stop rest s2 nextHash2 height2
          (es ++ r.1, r.2)

/-- `Reorder::new`: process the whole input stream starting from the
genesis hash at height 0 with an empty DAG. -/
def reorderRun (max_reorg : Nat) (genesis : Nat) (stop : Option Nat)
    (inputs : List FsBlock) : List Emitted × Bool :=
  reorderGo stop inputs ⟨[], [], max_reorg⟩ genesis 0

/-! ### Basic lemmas about the release check -/

theorem firstSomeE_ok {α β : Type} (f : α → Except Unit (Option β)) (l : List α)
    (h : ∀ x ∈ l, ∃ r, f x = Except.ok r) : ∃ r, firstSomeE f l = Except.ok r := by
  induction l with
  | nil => exact ⟨none, rfl⟩
  | cons x xs ih =>
    obtain ⟨r, hr⟩ := h x (by simp)
    cases r with
    | none =>
      obtain ⟨r2, hr2⟩ := ih fun y hy => h y (by simp [hy])
      exact ⟨r2, by simp [firstSomeE, hr, hr2]⟩
    | some y => exact ⟨some y, by simp [firstSomeE, hr]⟩

theorem pathDone_ne_nil (path : List Nat) (hp : path ≠ []) :
    pathDone path = Except.ok (some path.headI) := by
  obtain ⟨a, as, rfl⟩ := List.exists_cons_of_ne_nil hp
  simp [pathDone]

theorem existFollowGo_ok (s : OutOfOrderBlocks) (fuel hash : Nat)
    (path : List Nat) (hp : path ≠ []) :
    ∃ r, existFollowGo s fuel hash path = Except.ok r := by
  induction fuel generalizing hash path with
  | zero =>
    by_cases hl : path.length = s.max_reorg
    · exact ⟨some path.headI, by simp [existFollowGo, hl, pathDone_ne_nil path hp]⟩
    · exact ⟨none, by simp [existFollowGo, hl]⟩
  | succ fuel ih =>
    by_cases hl : path.length = s.max_reorg
    · exact ⟨some path.headI, by simp [existFollowGo, hl, pathDone_ne_nil path hp]⟩
    · simp only [existFollowGo, if_neg hl]
      match halk : alookup s.blocks hash with
      | none => exact ⟨none, rfl⟩
      | some block =>
        exact firstSomeE_ok _ _ fun c _ => ih c (path ++ [c]) (by simp)

/-- C10: the release check is only safe for `max_reorg ≥ 1`.  With
`max_reorg = 0` (a value the configuration type does not rule out) the very
first release attempt — `exist_and_has_followers` called with the empty
path — indexes `path[0]` on an empty vector and panics, whereas for every
`max_reorg ≥ 1` the call always returns without panicking. -/
theorem exist_and_has_followers_max_reorg_safety (s : OutOfOrderBlocks) (hash : Nat) :
    (s.max_reorg = 0 → existAndHasFollowers s hash [] = Except.error ()) ∧
    (1 ≤ s.max_reorg → ∃ r, existAndHasFollowers s hash [] = Except.ok r) := by
  constructor
  · intro h0
    simp [existAndHasFollowers, existFollowGo, h0, pathDone]
  · intro h1
    unfold existAndHasFollowers
    obtain ⟨fuel, hfuel⟩ : ∃ f, s.max_reorg - ([] : List Nat).length = f + 1 :=
      ⟨s.max_reorg - 1, by simp; omega⟩
    rw [hfuel]
    simp only [existFollowGo, List.length_nil, if_neg (by omega : ¬ 0 = s.max_reorg)]
    match halk : alookup s.blocks hash with
    | none => exact ⟨none, rfl⟩
    | some block =>
      exact firstSomeE_ok _ _ fun c _ => existFollowGo_ok s fuel c [c] (by simp)

/-- Closed witness for C10: a two-point evaluation of the release check at
`max_reorg = 0` (panic) and `max_reorg = 1` (no panic). -/
theorem exist_and_has_followers_max_reorg_safety_witness :
    existAndHasFollowers ⟨[], [], 0⟩ 7 [] = Except.error () ∧
    ∃ r, existAndHasFollowers ⟨[], [], 1⟩ 7 [] = Except.ok r :=
  ⟨(exist_and_has_followers_max_reorg_safety ⟨[], [], 0⟩ 7).1 rfl,
    (exist_and_has_followers_max_reorg_safety ⟨[], [], 1⟩ 7).2 (by norm_num)⟩

/-! ### C4: release condition and DFS tie-break -/

/-- A descendant path in the DAG: each hash in the list is a child (member
of the `next` list) of the previous node, starting at the given hash. -/
def DagPath (s : OutOfOrderBlocks) : Nat → List Nat → Prop
  | _, [] => True
  | h, c :: cs => ∃ b, alookup s.blocks h = some b ∧ c ∈ b.next ∧ DagPath s c cs

theorem firstSomeE_ok_some_mem {α β : Type} (f : α → Except Unit (Option β))
    (l : List α) (y : β) (h : firstSomeE f l = Except.ok (some y)) :
    ∃ c ∈ l, f c = Except.ok (some y) := by
  induction l with
  | nil => simp only [firstSomeE] at h; cases h
  | cons a as ih =>
    simp only [firstSomeE] at h
    rcases hf : f a with e | r
    · rw [hf] at h
      cases h
    · rw [hf] at h
      cases r with
      | some z =>
        simp only [Except.ok.injEq, Option.some.injEq] at h
        exact ⟨a, by simp, by rw [hf, h]⟩
      | none =>
        obtain ⟨c, hc, hfc⟩ := ih h
        exact ⟨c, by simp [hc], hfc⟩

theorem firstSomeE_found {α β : Type} (f : α → Except Unit (Option β))
    (l : List α) (c : α) (y : β) (hc : c ∈ l) (hfc : f c = Except.ok (some y))
    (hok : ∀ z ∈ l, ∃ r, f z = Except.ok r) :
    ∃ x, firstSomeE f l = Except.ok (some x) := by
  induction l with
  | nil => cases hc
  | cons a as ih =>
    obtain ⟨r, hr⟩ := hok a (by simp)
    cases r with
    | some z => exact ⟨z, by simp [firstSomeE, hr]⟩
    | none =>
      rcases List.mem_cons.mp hc with rfl | hc2
      · rw [hfc] at hr
        cases hr
      · obtain ⟨x, hx⟩ := ih hc2 fun z hz => hok z (by simp [hz])
        exact ⟨x, by simp [firstSomeE, hr, hx]⟩

theorem existFollowGo_len_eq (s : OutOfOrderBlocks) (fuel hash : Nat)
    (path : List Nat) (x : Nat) (hl : path.length = s.max_reorg)
    (h : existFollowGo s fuel hash path = Except.ok (some x)) :
    path.head? = some x := by
  have hpd : pathDone path = Except.ok (some x) := by
    cases fuel with
    | zero => simpa [existFollowGo, hl] using h
    | succ fuel => simpa [existFollowGo, hl] using h
  unfold pathDone at hpd
  cases hp : path.head? with
  | none => rw [hp] at hpd; cases hpd
  | some y =>
    rw [hp] at hpd
    simp only [Except.ok.injEq, Option.some.injEq] at hpd
    rw [hpd]

/-- Soundness of `exist_and_has_followers`: a successful check exhibits a
descendant path completing the given prefix to length `max_reorg`, whose
overall first element is the returned hash. -/
theorem existFollowGo_some_path (s : OutOfOrderBlocks) :
    ∀ fuel hash path x, existFollowGo s fuel hash path = Except.ok (some x) →
    ∃ ext, DagPath s hash ext ∧ path.length + ext.length = s.max_reorg ∧
      (path ++ ext).head? = some x := by
  intro fuel
  induction fuel with
  | zero =>
    intro hash path x h
    by_cases hl : path.length = s.max_reorg
    · exact ⟨[], trivial, by simpa using hl,
        by simpa using existFollowGo_len_eq s 0 hash path x hl h⟩
    · simp [existFollowGo, hl] at h
  | succ fuel ih =>
    intro hash path x h
    by_cases hl : path.length = s.max_reorg
    · exact ⟨[], trivial, by simpa using hl,
        by simpa using existFollowGo_len_eq s (fuel + 1) hash path x hl h⟩
    · simp only [existFollowGo, if_neg hl] at h
      rcases halk : alookup s.blocks hash with _ | block
      · rw [halk] at h
        cases h
      · rw [halk] at h
        obtain ⟨c, hc, hfc⟩ := firstSomeE_ok_some_mem _ _ _ h
        obtain ⟨ext, hd, hlen, hhead⟩ := ih c (path ++ [c]) x hfc
        refine ⟨c :: ext, ⟨block, halk, hc, hd⟩, ?_, ?_⟩
        · simp only [List.length_append, List.length_singleton] at hlen
          simp only [List.length_cons]
          omega
        · rw [List.append_cons]
          exact hhead

/-- Completeness: any descendant path completing the prefix to length
`max_reorg` makes the check succeed (with enough fuel and a nonempty
prefix). -/
theorem existFollowGo_complete (s : OutOfOrderBlocks) :
    ∀ ext fuel hash path, DagPath s hash ext →
    path.length + ext.length = s.max_reorg → ext.length ≤ fuel → path ≠ [] →
    ∃ x, existFollowGo s fuel hash path = Except.ok (some x) := by
  intro ext
  induction ext with
  | nil =>
    intro fuel hash path _ hlen _ hp
    simp only [List.length_nil, Nat.add_zero] at hlen
    cases fuel with
    | zero => exact ⟨path.headI, by simp [existFollowGo, hlen, pathDone_ne_nil path hp]⟩
    | succ fuel =>
      exact ⟨path.headI, by simp [existFollowGo, hlen, pathDone_ne_nil path hp]⟩
  | cons c cs ih =>
    intro fuel hash path hd hlen hfuel hp
    obtain ⟨b, halk, hc, hd2⟩ := hd
    simp only [List.length_cons] at hlen hfuel
    obtain ⟨fuel2, rfl⟩ : ∃ f2, fuel = f2 + 1 :=
      ⟨fuel - 1, by omega⟩
    have hne : ¬ path.length = s.max_reorg := by omega
    simp only [existFollowGo, if_neg hne, halk]
    obtain ⟨x, hx⟩ := ih fuel2 c (path ++ [c]) hd2
      (by simp only [List.length_append, List.length_singleton]; omega)
      (by omega) (by simp)
    exact firstSomeE_found _ _ c x hc hx
      fun z _ => existFollowGo_ok s fuel2 z (path ++ [z]) (by simp)

theorem firstSomeE_map_agree {α β γ : Type} (fe : α → Except Unit (Option β))
    (fd : α → Option γ) (g : γ → β) (l : List α)
    (h : ∀ x ∈ l, fe x = Except.ok ((fd x).map g)) :
    firstSomeE fe l = Except.ok ((firstSome fd l).map g) := by
  induction l with
  | nil => simp [firstSomeE, firstSome]
  | cons a as ih =>
    have ha := h a (by simp)
    cases hfd : fd a with
    | some p =>
      rw [hfd] at ha
      simp [firstSomeE, firstSome, ha, hfd]
    | none =>
      rw [hfd] at ha
      simp [firstSomeE, firstSome, ha, hfd, ih fun x hx => h x (by simp [hx])]

/-- The code DFS agrees with the spec-side DFS-first path: the returned
hash is the head of the first complete path found. -/
theorem existFollowGo_dfs (s : OutOfOrderBlocks) :
    ∀ fuel hash path, path ≠ [] →
    existFollowGo s fuel hash path =
      Except.ok ((dfsFirstGo s fuel hash path).map List.headI) := by
  intro fuel
  induction fuel with
  | zero =>
    intro hash path hp
    by_cases hl : path.length = s.max_reorg
    · simp [existFollowGo, dfsFirstGo, hl, pathDone_ne_nil path hp]
    · simp [existFollowGo, dfsFirstGo, hl]
  | succ fuel ih =>
    intro hash path hp
    by_cases hl : path.length = s.max_reorg
    · simp [existFollowGo, dfsFirstGo, hl, pathDone_ne_nil path hp]
    · simp only [existFollowGo, dfsFirstGo, if_neg hl]
      rcases halk : alookup s.blocks hash with _ | block
      · simp
      · exact firstSomeE_map_agree _ _ _ _ fun c _ => ih c (path ++ [c]) (by simp)

theorem existAndHasFollowers_eq_dfs (s : OutOfOrderBlocks) (hash : Nat)
    (h1 : 1 ≤ s.max_reorg) :
    existAndHasFollowers s hash [] =
      Except.ok ((dfsFirstPath s hash).map List.headI) := by
  unfold existAndHasFollowers dfsFirstPath
  obtain ⟨f2, hf⟩ : ∃ f2, s.max_reorg = f2 + 1 := ⟨s.max_reorg - 1, by omega⟩
  simp only [List.length_nil, Nat.sub_zero]
  rw [hf]
  simp only [existFollowGo, dfsFirstGo, List.length_nil,
    if_neg (by omega : ¬ (0 : Nat) = s.max_reorg)]
  rcases halk : alookup s.blocks hash with _ | block
  · simp
  · exact firstSomeE_map_agree _ _ _ _
      fun c _ => existFollowGo_dfs s f2 c [c] (by simp)

theorem firstSome_some_mem {α β : Type} (f : α → Option β) (l : List α) (y : β)
    (h : firstSome f l = some y) : ∃ c ∈ l, f c = some y := by
  induction l with
  | nil => simp only [firstSome] at h; cases h
  | cons a as ih =>
    simp only [firstSome] at h
    rcases hf : f a with _ | q
    · rw [hf] at h
      obtain ⟨c, hc, hfc⟩ := ih h
      exact ⟨c, by simp [hc], hfc⟩
    · rw [hf] at h
      simp only [Option.some.injEq] at h
      exact ⟨a, by simp, by rw [hf, h]⟩

/-- A successful spec-side DFS result is a genuine descendant path of
length `max_reorg` extending the prefix. -/
theorem dfsFirstGo_spec (s : OutOfOrderBlocks) :
    ∀ fuel hash path p, dfsFirstGo s fuel hash path = some p →
    ∃ ext, p = path ++ ext ∧ DagPath s hash ext ∧ p.length = s.max_reorg := by
  intro fuel
  induction fuel with
  | zero =>
    intro hash path p h
    by_cases hl : path.length = s.max_reorg
    · simp only [dfsFirstGo, if_pos hl, Option.some.injEq] at h
      exact ⟨[], by simp [← h], trivial, h ▸ hl⟩
    · simp [dfsFirstGo, hl] at h
  | succ fuel ih =>
    intro hash path p h
    by_cases hl : path.length = s.max_reorg
    · simp only [dfsFirstGo, if_pos hl, Option.some.injEq] at h
      exact ⟨[], by simp [← h], trivial, h ▸ hl⟩
    · simp only [dfsFirstGo, if_neg hl] at h
      rcases halk : alookup s.blocks hash with _ | block
      · rw [halk] at h
        cases h
      · rw [halk] at h
        obtain ⟨c, hc, hfc⟩ := firstSome_some_mem _ _ _ h
        obtain ⟨ext, hpe, hd, hlen⟩ := ih c (path ++ [c]) p hfc
        refine ⟨c :: ext, ?_, ⟨block, halk, hc, hd⟩, hlen⟩
        rw [List.append_cons]
        exact hpe


theorem existAndHasFollowers_complete (s : OutOfOrderBlocks) (hash : Nat)
    (p : List Nat) (hd : DagPath s hash p) (hlen : p.length = s.max_reorg)
    (h1 : 1 ≤ s.max_reorg) :
    ∃ x, existAndHasFollowers s hash [] = Except.ok (some x) := by
  obtain ⟨c, cs, rfl⟩ : ∃ c cs, p = c :: cs := by
    cases p with
    | nil => simp at hlen; omega
    | cons c cs => exact ⟨c, cs, rfl⟩
  obtain ⟨b, halk, hc, hd2⟩ := hd
  simp only [List.length_cons] at hlen
  unfold existAndHasFollowers
  obtain ⟨f2, hf⟩ : ∃ f2, s.max_reorg = f2 + 1 := ⟨s.max_reorg - 1, by omega⟩
  simp only [List.length_nil, Nat.sub_zero]
  rw [hf]
  simp only [existFollowGo, List.length_nil,
    if_neg (by omega : ¬ (0 : Nat) = s.max_reorg), halk]
  obtain ⟨x, hx⟩ := existFollowGo_complete s cs f2 c [c] hd2
    (by simp only [List.length_singleton]; omega) (by omega) (by simp)
  exact firstSomeE_found _ _ c x hc hx
    fun z _ => existFollowGo_ok s f2 z ([] ++ [z]) (by simp)

/-- C4: with the expected hash as candidate, `remove` releases the block if
and only if the DAG holds a descendant path of length exactly `max_reorg`
from it; on release the block's `next` list becomes the single head of the
first complete path found by depth-first search over the children lists
(children in insertion order), and the release loop uses that hash as the
new expected hash (third component of the returned tuple). -/
theorem reorder_release_iff_dfs (s : OutOfOrderBlocks) (hash : Nat)
    (h1 : 1 ≤ s.max_reorg) :
    ((∃ v s2, removeOO s hash = Except.ok (some (v, s2))) ↔
      ∃ p, DagPath s hash p ∧ p.length = s.max_reorg) ∧
    (∀ v s2, removeOO s hash = Except.ok (some (v, s2)) →
      ∃ p, dfsFirstPath s hash = some p ∧ DagPath s hash p ∧
        p.length = s.max_reorg ∧ v.next = [p.headI] ∧
        ∀ stop height, emitLoop stop 1 s hash height =
          Except.ok ([⟨v.hash, v.prev, v.next, height⟩],
            { s with blocks := aerase (aerase s.blocks hash) v.prev,
                     follows := aerase s.follows v.hash },
            p.headI, height + 1,
            (match stop with
             | some st => decide (height + 1 > st)
             | none => false))) := by
  have hdfseq := existAndHasFollowers_eq_dfs s hash h1
  constructor
  · constructor
    · rintro ⟨v, s2, hrm⟩
      unfold removeOO at hrm
      rw [hdfseq] at hrm
      cases hdfs : dfsFirstPath s hash with
      | none => rw [hdfs] at hrm; cases hrm
      | some p =>
        obtain ⟨ext, hpe, hd, hlen⟩ :=
          dfsFirstGo_spec s s.max_reorg hash [] p hdfs
        simp only [List.nil_append] at hpe
        exact ⟨p, hpe ▸ hd, hlen⟩
    · rintro ⟨p, hd, hlen⟩
      obtain ⟨x, hex⟩ := existAndHasFollowers_complete s hash p hd hlen h1
      obtain ⟨c, cs, rfl⟩ : ∃ c cs, p = c :: cs := by
        cases p with
        | nil => simp at hlen; omega
        | cons c cs => exact ⟨c, cs, rfl⟩
      obtain ⟨b, halk, -, -⟩ := hd
      unfold removeOO
      rw [hex, halk]
      exact ⟨_, _, rfl⟩
  · intro v s2 hrm
    have hrm0 := hrm
    unfold removeOO at hrm
    rw [hdfseq] at hrm
    cases hdfs : dfsFirstPath s hash with
    | none => rw [hdfs] at hrm; cases hrm
    | some p =>
      rw [hdfs] at hrm
      simp only [Option.map_some'] at hrm
      rcases halk : alookup s.blocks hash with _ | value
      · rw [halk] at hrm
        cases hrm
      · rw [halk] at hrm
        simp only [Except.ok.injEq, Option.some.injEq, Prod.mk.injEq] at hrm
        obtain ⟨hv, hs2⟩ := hrm
        obtain ⟨ext, hpe, hd, hlen⟩ :=
          dfsFirstGo_spec s s.max_reorg hash [] p hdfs
        simp only [List.nil_append] at hpe
        subst hs2
        subst hv
        refine ⟨p, rfl, hpe ▸ hd, hlen, by simp, ?_⟩
        intro stop height
        simp only [emitLoop, hrm0]
        cases stop with
        | none => simp [emitLoop]
        | some st =>
          by_cases hst : height + 1 > st
          · simp [emitLoop, hst]
          · simp [emitLoop, hst]

/-- A two-block DAG used to witness the release condition. -/
def exS : OutOfOrderBlocks :=
  ⟨[(1, ⟨1, 0, [2]⟩), (2, ⟨2, 1, []⟩)], [], 1⟩

/-- Closed witness for C4: in a concrete two-block DAG with
`max_reorg = 1`, the release of the candidate proves a descendant path of
length 1 exists. -/
theorem reorder_release_iff_dfs_witness :
    ∃ p, DagPath exS 1 p ∧ p.length = exS.max_reorg :=
  (reorder_release_iff_dfs exS 1 (by decide)).1.mp
    ⟨⟨1, 0, [2]⟩, ⟨[(2, ⟨2, 1, []⟩)], [], 1⟩, by rfl⟩

/-! ### C2: order and height of the emitted stream -/

/-- The unique `prev` hash an input block with the given hash declares
(hashes determine blocks, since the input hashes are distinct). -/
def prevOf (inputs : List FsBlock) (h : Nat) : Option Nat :=
  (inputs.find? fun b => b.hash == h).map FsBlock.prev

theorem prevOf_of_mem (inputs : List FsBlock) (raw : FsBlock)
    (hmem : raw ∈ inputs) (hnd : (inputs.map FsBlock.hash).Nodup) :
    prevOf inputs raw.hash = some raw.prev := by
  induction inputs with
  | nil => cases hmem
  | cons a t ih =>
    simp only [List.map_cons, List.nodup_cons] at hnd
    rcases List.mem_cons.mp hmem with rfl | hmem2
    · simp [prevOf, List.find?]
    · have hne : a.hash ≠ raw.hash := by
        intro he
        exact hnd.1 (he ▸ List.mem_map_of_mem FsBlock.hash hmem2)
      show (List.find? (fun b => b.hash == raw.hash) (a :: t)).map FsBlock.prev =
        some raw.prev
      rw [List.find?_cons_of_neg _ (by simp [hne])]
      exact ih hmem2 hnd.2

/-- The Reorderer state invariant relative to the whole input stream:
keys are distinct, every buffered block is keyed by its own hash and
declares the `prev` recorded for that hash, every child listed in a `next`
list is a block whose declared parent is that key, and likewise for the
`follows` index. -/
def ReorderInv (inputs : List FsBlock) (s : OutOfOrderBlocks) : Prop :=
  KeysNodup s.blocks ∧ KeysNodup s.follows ∧
    (∀ k v, alookup s.blocks k = some v →
      v.hash = k ∧ prevOf inputs k = some v.prev) ∧
    (∀ k v, alookup s.blocks k = some v → ∀ c ∈ v.next, prevOf inputs c = some k) ∧
    (∀ k l, alookup s.follows k = some l → ∀ c ∈ l, prevOf inputs c = some k)

theorem alookup_aerase_some {κ α : Type} [DecidableEq κ] (l : List (κ × α))
    (k q : κ) (v : α) (hnd : KeysNodup l) (h : alookup (aerase l k) q = some v) :
    alookup l q = some v := by
  by_cases hq : k = q
  · rw [← hq, alookup_aerase_self l k hnd] at h
    cases h
  · rwa [alookup_aerase_ne l k q hq] at h

theorem reorderInv_erase_blocks (inputs : List FsBlock) (s : OutOfOrderBlocks)
    (k : Nat) (hinv : ReorderInv inputs s) :
    ReorderInv inputs { s with blocks := aerase s.blocks k } := by
  obtain ⟨hk1, hk2, h1, h2, h3⟩ := hinv
  refine ⟨keysNodup_aerase _ _ hk1, hk2, ?_, ?_, h3⟩
  · intro q v hq
    exact h1 q v (alookup_aerase_some _ _ _ _ hk1 hq)
  · intro q v hq
    exact h2 q v (alookup_aerase_some _ _ _ _ hk1 hq)

theorem reorderInv_erase_follows (inputs : List FsBlock) (s : OutOfOrderBlocks)
    (k : Nat) (hinv : ReorderInv inputs s) :
    ReorderInv inputs { s with follows := aerase s.follows k } := by
  obtain ⟨hk1, hk2, h1, h2, h3⟩ := hinv
  refine ⟨hk1, keysNodup_aerase _ _ hk2, h1, h2, ?_⟩
  intro q l hq
  exact h3 q l (alookup_aerase_some _ _ _ _ hk2 hq)

theorem addFollows_inv (inputs : List FsBlock) (follows : List (Nat × List Nat))
    (raw : FsBlock) (hk : KeysNodup follows)
    (hinv : ∀ k l, alookup follows k = some l → ∀ c ∈ l, prevOf inputs c = some k)
    (hraw : prevOf inputs raw.hash = some raw.prev) :
    KeysNodup (addFollows follows raw) ∧
      ∀ k l, alookup (addFollows follows raw) k = some l →
        ∀ c ∈ l, prevOf inputs c = some k := by
  unfold addFollows
  rcases hf : alookup follows raw.prev with _ | e
  · refine ⟨keysNodup_ainsert _ _ _ hk, ?_⟩
    intro k l hkl c hc
    by_cases hq : raw.prev = k
    · subst hq
      rw [alookup_ainsert_self] at hkl
      cases hkl
      simp only [List.mem_singleton] at hc
      subst hc
      exact hraw
    · rw [alookup_ainsert_ne _ _ _ _ hq] at hkl
      exact hinv k l hkl c hc
  · refine ⟨keysNodup_ainsert _ _ _ hk, ?_⟩
    intro k l hkl c hc
    by_cases hq : raw.prev = k
    · subst hq
      rw [alookup_ainsert_self] at hkl
      cases hkl
      rcases List.mem_append.mp hc with hc2 | hc2
      · exact hinv raw.prev e hf c hc2
      · simp only [List.mem_singleton] at hc2
        subst hc2
        exact hraw
    · rw [alookup_ainsert_ne _ _ _ _ hq] at hkl
      exact hinv k l hkl c hc

theorem addBlocks_inv (inputs : List FsBlock) (blocks : List (Nat × FsBlock))
    (raw2 : FsBlock) (hk : KeysNodup blocks)
    (h1 : ∀ k v, alookup blocks k = some v →
      v.hash = k ∧ prevOf inputs k = some v.prev)
    (h2 : ∀ k v, alookup blocks k = some v → ∀ c ∈ v.next, prevOf inputs c = some k)
    (hraw : prevOf inputs raw2.hash = some raw2.prev)
    (hnext : ∀ c ∈ raw2.next, prevOf inputs c = some raw2.hash) :
    KeysNodup (addBlocks blocks raw2) ∧
      (∀ k v, alookup (addBlocks blocks raw2) k = some v →
        v.hash = k ∧ prevOf inputs k = some v.prev) ∧
      ∀ k v, alookup (addBlocks blocks raw2) k = some v →
        ∀ c ∈ v.next, prevOf inputs c = some k := by
  unfold addBlocks
  rcases hb : alookup blocks raw2.prev with _ | prevb
  · refine ⟨keysNodup_ainsert _ _ _ hk, ?_, ?_⟩
    · intro k v hkv
      by_cases hq : raw2.hash = k
      · subst hq
        rw [alookup_ainsert_self] at hkv
        cases hkv
        exact ⟨rfl, hraw⟩
      · rw [alookup_ainsert_ne _ _ _ _ hq] at hkv
        exact h1 k v hkv
    · intro k v hkv c hc
      by_cases hq : raw2.hash = k
      · subst hq
        rw [alookup_ainsert_self] at hkv
        cases hkv
        exact hnext c hc
      · rw [alookup_ainsert_ne _ _ _ _ hq] at hkv
        exact h2 k v hkv c hc
  · have hk1 : KeysNodup (ainsert blocks raw2.prev
        { prevb with next := prevb.next ++ [raw2.hash] }) :=
      keysNodup_ainsert _ _ _ hk
    have h1b : ∀ k v, alookup (ainsert blocks raw2.prev
        { prevb with next := prevb.next ++ [raw2.hash] }) k = some v →
        v.hash = k ∧ prevOf inputs k = some v.prev := by
      intro k v hkv
      by_cases hq : raw2.prev = k
      · subst hq
        rw [alookup_ainsert_self] at hkv
        cases hkv
        simpa using h1 raw2.prev prevb hb
      · rw [alookup_ainsert_ne _ _ _ _ hq] at hkv
        exact h1 k v hkv
    have h2b : ∀ k v, alookup (ainsert blocks raw2.prev
        { prevb with next := prevb.next ++ [raw2.hash] }) k = some v →
        ∀ c ∈ v.next, prevOf inputs c = some k := by
      intro k v hkv c hc
      by_cases hq : raw2.prev = k
      · subst hq
        rw [alookup_ainsert_self] at hkv
        cases hkv
        simp only at hc
        rcases List.mem_append.mp hc with hc2 | hc2
        · exact h2 raw2.prev prevb hb c hc2
        · simp only [List.mem_singleton] at hc2
          subst hc2
          exact hraw
      · rw [alookup_ainsert_ne _ _ _ _ hq] at hkv
        exact h2 k v hkv c hc
    refine ⟨keysNodup_ainsert _ _ _ hk1, ?_, ?_⟩
    · intro k v hkv
      by_cases hq : raw2.hash = k
      · subst hq
        rw [alookup_ainsert_self] at hkv
        cases hkv
        exact ⟨rfl, hraw⟩
      · rw [alookup_ainsert_ne _ _ _ _ hq] at hkv
        exact h1b k v hkv
    · intro k v hkv c hc
      by_cases hq : raw2.hash = k
      · subst hq
        rw [alookup_ainsert_self] at hkv
        cases hkv
        exact hnext c hc
      · rw [alookup_ainsert_ne _ _ _ _ hq] at hkv
        exact h2b k v hkv c hc

theorem reorderInv_add (inputs : List FsBlock) (s : OutOfOrderBlocks)
    (raw : FsBlock) (hinv : ReorderInv inputs s) (hmem : raw ∈ inputs)
    (hnx : raw.next = []) (hnd : (inputs.map FsBlock.hash).Nodup) :
    ReorderInv inputs (addOO s raw) := by
  obtain ⟨hk1, hk2, h1, h2, h3⟩ := hinv
  have hraw : prevOf inputs raw.hash = some raw.prev := prevOf_of_mem _ _ hmem hnd
  obtain ⟨hfk, hfinv⟩ := addFollows_inv inputs s.follows raw hk2 h3 hraw
  simp only [addOO]
  rcases hfl : alookup (addFollows s.follows raw) raw.hash with _ | fl
  · obtain ⟨hbk, hb1, hb2⟩ := addBlocks_inv inputs s.blocks raw hk1 h1 h2 hraw
      (by
        intro c hc
        rw [hnx] at hc
        cases hc)
    exact ⟨hbk, hfk, hb1, hb2, hfinv⟩
  · obtain ⟨hbk, hb1, hb2⟩ := addBlocks_inv inputs s.blocks
      { raw with next := raw.next ++ fl } hk1 h1 h2 hraw
      (by
        intro c hc
        simp only [hnx, List.nil_append] at hc
        exact hfinv raw.hash fl hfl c hc)
    exact ⟨hbk, keysNodup_aerase _ _ hfk, hb1, hb2, fun k l hkl =>
      hfinv k l (alookup_aerase_some _ _ _ _ hfk hkl)⟩

theorem existAndHasFollowers_some_lookup (s : OutOfOrderBlocks) (hash x : Nat)
    (h1 : 1 ≤ s.max_reorg)
    (h : existAndHasFollowers s hash [] = Except.ok (some x)) :
    ∃ b, alookup s.blocks hash = some b ∧ x ∈ b.next := by
  unfold existAndHasFollowers at h
  obtain ⟨f2, hf⟩ : ∃ f2, s.max_reorg = f2 + 1 := ⟨s.max_reorg - 1, by omega⟩
  rw [List.length_nil, Nat.sub_zero, hf] at h
  simp only [existFollowGo, List.length_nil,
    if_neg (by omega : ¬ (0 : Nat) = s.max_reorg)] at h
  rcases halk : alookup s.blocks hash with _ | b
  · rw [halk] at h
    cases h
  · rw [halk] at h
    obtain ⟨c, hc, hfc⟩ := firstSomeE_ok_some_mem _ _ _ h
    obtain ⟨ext, -, -, hhead⟩ := existFollowGo_some_path s f2 c [c] x hfc
    simp only [List.cons_append, List.head?_cons, Option.some.injEq] at hhead
    exact ⟨b, rfl, hhead ▸ hc⟩

theorem removeOO_cases (s : OutOfOrderBlocks) (hash : Nat) (h1 : 1 ≤ s.max_reorg) :
    removeOO s hash = Except.ok none ∨
      ∃ nxt value, alookup s.blocks hash = some value ∧ nxt ∈ value.next ∧
        removeOO s hash = Except.ok (some ({ value with next := [nxt] },
          { s with blocks := aerase s.blocks hash })) := by
  obtain ⟨r, hr⟩ := (exist_and_has_followers_max_reorg_safety s hash).2 h1
  cases r with
  | none =>
    left
    unfold removeOO
    rw [hr]
  | some x =>
    right
    obtain ⟨b, halk, hxb⟩ := existAndHasFollowers_some_lookup s hash x h1 hr
    refine ⟨x, b, halk, hxb, ?_⟩
    unfold removeOO
    rw [hr, halk]

/-- The emitted records chain from expected hash `n` at height `h` to
expected hash `n2` at height `h2`: each record is keyed by the expected
hash, carries the expected height, declares its recorded parent, and names
a single successor that declares it as parent. -/
def ChainedTo (inputs : List FsBlock) :
    Nat → Nat → List Emitted → Nat → Nat → Prop
  | n, h, [], n2, h2 => n2 = n ∧ h2 = h
  | n, h, e :: tl, n2, h2 =>
    e.hash = n ∧ e.height = h ∧ prevOf inputs e.hash = some e.prev ∧
      ∃ m, e.next = [m] ∧ prevOf inputs m = some e.hash ∧
        ChainedTo inputs m (h + 1) tl n2 h2

theorem chainedTo_append (inputs : List FsBlock) :
    ∀ es n h n1 h1 es2 n2 h2, ChainedTo inputs n h es n1 h1 →
    ChainedTo inputs n1 h1 es2 n2 h2 →
    ChainedTo inputs n h (es ++ es2) n2 h2 := by
  intro es
  induction es with
  | nil =>
    intro n h n1 h1 es2 n2 h2 hc1 hc2
    obtain ⟨rfl, rfl⟩ := hc1
    simpa using hc2
  | cons e tl ih =>
    intro n h n1 h1 es2 n2 h2 hc1 hc2
    obtain ⟨he1, he2, he3, m, hm1, hm2, hm3⟩ := hc1
    exact ⟨he1, he2, he3, m, hm1, hm2, ih _ _ _ _ _ _ _ hm3 hc2⟩

/-- The release loop emits a chained segment, preserves the invariant, and
threads the expected hash and height. -/
theorem emitLoop_spec (inputs : List FsBlock) (stop : Option Nat) :
    ∀ fuel s nextHash height, ReorderInv inputs s → 1 ≤ s.max_reorg →
    ∃ es s2 n2 h2 early,
      emitLoop stop fuel s nextHash height = Except.ok (es, s2, n2, h2, early) ∧
      ChainedTo inputs nextHash height es n2 h2 ∧ ReorderInv inputs s2 ∧
      s2.max_reorg = s.max_reorg := by
  intro fuel
  induction fuel with
  | zero =>
    intro s nextHash height hinv h1
    exact ⟨[], s, nextHash, height, false, rfl, ⟨rfl, rfl⟩, hinv, rfl⟩
  | succ fuel ih =>
    intro s nextHash height hinv h1
    rcases removeOO_cases s nextHash h1 with hrm | ⟨nxt, value, halk, hxv, hrm⟩
    · exact ⟨[], s, nextHash, height, false, by simp [emitLoop, hrm], ⟨rfl, rfl⟩,
        hinv, rfl⟩
    · obtain ⟨hvh, hvp⟩ := hinv.2.2.1 nextHash value halk
      have hnxt : prevOf inputs nxt = some nextHash :=
        hinv.2.2.2.1 nextHash value halk nxt hxv
      have hinv3 : ReorderInv inputs
          { blocks := aerase (aerase s.blocks nextHash) value.prev,
            follows := aerase s.follows value.hash,
            max_reorg := s.max_reorg } :=
        reorderInv_erase_blocks _ _ _
          (reorderInv_erase_follows _ _ _ (reorderInv_erase_blocks _ _ _ hinv))
      have hchain1 : ChainedTo inputs nextHash height
          [⟨value.hash, value.prev, [nxt], height⟩] nxt (height + 1) := by
        refine ⟨hvh, rfl, ?_, nxt, rfl, ?_, rfl, rfl⟩
        · simpa [hvh] using hvp
        · simpa [hvh] using hnxt
      cases stop with
      | none =>
        obtain ⟨es, s4, n4, h4, early, heq, hchain, hinv4, hmr⟩ :=
          ih { blocks := aerase (aerase s.blocks nextHash) value.prev,
               follows := aerase s.follows value.hash,
               max_reorg := s.max_reorg } nxt (height + 1) hinv3 h1
        refine ⟨⟨value.hash, value.prev, [nxt], height⟩ :: es, s4, n4, h4, early,
          ?_, ?_, hinv4, hmr⟩
        · simp only [emitLoop, hrm, heq]
          simp
        · exact chainedTo_append inputs _ _ _ _ _ _ _ _ hchain1 hchain
      | some st =>
        by_cases hst : height + 1 > st
        · refine ⟨[⟨value.hash, value.prev, [nxt], height⟩],
            { blocks := aerase (aerase s.blocks nextHash) value.prev,
              follows := aerase s.follows value.hash,
              max_reorg := s.max_reorg }, nxt, height + 1, true,
            ?_, hchain1, hinv3, rfl⟩
          simp only [emitLoop, hrm, hst]
          simp
        · obtain ⟨es, s4, n4, h4, early, heq, hchain, hinv4, hmr⟩ :=
            ih { blocks := aerase (aerase s.blocks nextHash) value.prev,
                 follows := aerase s.follows value.hash,
                 max_reorg := s.max_reorg } nxt (height + 1) hinv3 h1
          refine ⟨⟨value.hash, value.prev, [nxt], height⟩ :: es, s4, n4, h4, early,
            ?_, ?_, hinv4, hmr⟩
          · simp only [emitLoop, hrm, heq, hst]
            simp [heq]
          · exact chainedTo_append inputs _ _ _ _ _ _ _ _ hchain1 hchain
theorem addOO_max_reorg (s : OutOfOrderBlocks) (raw : FsBlock) :
    (addOO s raw).max_reorg = s.max_reorg := by
  simp only [addOO]
  rcases alookup (addFollows s.follows raw) raw.hash with _ | fl <;> rfl

/-- The Reorderer main loop emits one chained sequence of records. -/
theorem reorderGo_spec (inputs : List FsBlock) (stop : Option Nat)
    (hnd : (inputs.map FsBlock.hash).Nodup) :
    ∀ rest s nextHash height, ReorderInv inputs s → 1 ≤ s.max_reorg →
    (∀ b ∈ rest, b ∈ inputs) → (∀ b ∈ rest, b.next = []) →
    ∃ n2 h2, ChainedTo inputs nextHash height
      (reorderGo stop rest s nextHash height).1 n2 h2 := by
  intro rest
  induction rest with
  | nil =>
    intro s nextHash height _ _ _ _
    exact ⟨nextHash, height, rfl, rfl⟩
  | cons raw rest ih =>
    intro s nextHash height hinv h1 hmem hnx
    by_cases hbig : s.blocks.length > 10000
    · exact ⟨nextHash, height, by simp [reorderGo, hbig, ChainedTo]⟩
    · have hinv1 : ReorderInv inputs (addOO s raw) :=
        reorderInv_add inputs s raw hinv (hmem raw (by simp))
          (hnx raw (by simp)) hnd
      have h1b : 1 ≤ (addOO s raw).max_reorg := by
        rw [addOO_max_reorg]
        exact h1
      obtain ⟨es, s2, n2, h2, early, heq, hchain, hinv2, hmr⟩ :=
        emitLoop_spec inputs stop ((addOO s raw).blocks.length + 1) (addOO s raw)
          nextHash height hinv1 h1b
      simp only [reorderGo, if_neg hbig, heq]
      cases early with
      | true => exact ⟨n2, h2, by simpa using hchain⟩
      | false =>
        obtain ⟨n3, h3, hchain2⟩ := ih s2 n2 h2 hinv2
          (by
            rw [hmr, addOO_max_reorg]
            exact h1)
          (fun b hb => hmem b (by simp [hb])) fun b hb => hnx b (by simp [hb])
        exact ⟨n3, h3, by
          simpa using chainedTo_append inputs _ _ _ _ _ _ _ _ hchain hchain2⟩

theorem chainedTo_height (inputs : List FsBlock) :
    ∀ es n h n2 h2, ChainedTo inputs n h es n2 h2 →
    ∀ i, ∀ hi : i < es.length, (es.get ⟨i, hi⟩).height = h + i := by
  intro es
  induction es with
  | nil =>
    intro n h n2 h2 _ i hi
    cases hi
  | cons e tl ih =>
    intro n h n2 h2 hc i hi
    obtain ⟨-, he2, -, m, -, -, hm3⟩ := hc
    cases i with
    | zero => simpa using he2
    | succ i =>
      have := ih m (h + 1) n2 h2 hm3 i (by simpa using hi)
      simp only [List.get_cons_succ] at this ⊢
      omega

theorem chainedTo_pairs (inputs : List FsBlock) :
    ∀ es n h n2 h2, ChainedTo inputs n h es n2 h2 →
    ∀ i, ∀ hi : i + 1 < es.length,
      (es.get ⟨i, Nat.lt_of_succ_lt hi⟩).next = [(es.get ⟨i + 1, hi⟩).hash] ∧
      (es.get ⟨i + 1, hi⟩).prev = (es.get ⟨i, Nat.lt_of_succ_lt hi⟩).hash := by
  intro es
  induction es with
  | nil =>
    intro n h n2 h2 _ i hi
    cases hi
  | cons e tl ih =>
    intro n h n2 h2 hc i hi
    obtain ⟨he1, -, -, m, hm1, hm2, hm3⟩ := hc
    cases i with
    | zero =>
      cases tl with
      | nil => simp at hi
      | cons e2 tl2 =>
        obtain ⟨h21, -, h23, -⟩ := hm3
        constructor
        · simp only [List.get_cons_succ]
          simpa [hm1, h21] using rfl
        · rw [h21, hm2] at h23
          simp only [List.get_cons_succ]
          simpa [he1] using (Option.some.inj h23).symm
    | succ i =>
      have := ih m (h + 1) n2 h2 hm3 i (by simpa using hi)
      simpa using this

/-- C2: for every pair of consecutively emitted records A, B of a
Reorderer run over inputs with pairwise-distinct hashes (and its safe
`max_reorg ≥ 1`), `A.next = [B.hash]` and B's header previous-block hash
equals `A.hash`; emitted heights are exactly 0, 1, 2, ... in order. -/
theorem reorder_emitted_order (max_reorg genesis : Nat) (stop : Option Nat)
    (inputs : List FsBlock) (h1 : 1 ≤ max_reorg)
    (hnd : (inputs.map FsBlock.hash).Nodup)
    (hnx : ∀ b ∈ inputs, b.next = []) :
    (∀ i, ∀ hi : i + 1 < (reorderRun max_reorg genesis stop inputs).1.length,
      ((reorderRun max_reorg genesis stop inputs).1.get
          ⟨i, Nat.lt_of_succ_lt hi⟩).next =
        [((reorderRun max_reorg genesis stop inputs).1.get ⟨i + 1, hi⟩).hash] ∧
      ((reorderRun max_reorg genesis stop inputs).1.get ⟨i + 1, hi⟩).prev =
        ((reorderRun max_reorg genesis stop inputs).1.get
          ⟨i, Nat.lt_of_succ_lt hi⟩).hash) ∧
    ∀ i, ∀ hi : i < (reorderRun max_reorg genesis stop inputs).1.length,
      ((reorderRun max_reorg genesis stop inputs).1.get ⟨i, hi⟩).height = i := by
  have hinv0 : ReorderInv inputs ⟨[], [], max_reorg⟩ := by
    refine ⟨by simp [KeysNodup], by simp [KeysNodup], ?_, ?_, ?_⟩ <;>
      (intro k v h; cases h)
  obtain ⟨n2, h2, hchain⟩ := reorderGo_spec inputs stop hnd inputs
    ⟨[], [], max_reorg⟩ genesis 0 hinv0 h1 (fun b hb => hb) hnx
  constructor
  · intro i hi
    exact chainedTo_pairs inputs _ _ _ _ _ hchain i hi
  · intro i hi
    simpa using chainedTo_height inputs _ _ _ _ _ hchain i hi

/-- Concrete three-block chain used to witness the Reorderer run. -/
def exInputs : List FsBlock :=
  [⟨10, 99, []⟩, ⟨11, 10, []⟩, ⟨12, 11, []⟩]

/-- Closed witness for C2: a concrete run over three chained blocks with
`max_reorg = 1` emits two records whose links and heights check out. -/
theorem reorder_emitted_order_witness :
    ((reorderRun 1 10 none exInputs).1.get ⟨0, by decide⟩).next =
      [((reorderRun 1 10 none exInputs).1.get ⟨1, by decide⟩).hash] ∧
    ((reorderRun 1 10 none exInputs).1.get ⟨1, by decide⟩).prev =
      ((reorderRun 1 10 none exInputs).1.get ⟨0, by decide⟩).hash ∧
    ((reorderRun 1 10 none exInputs).1.get ⟨1, by decide⟩).height = 1 :=
  ⟨((reorder_emitted_order 1 10 none exInputs (by decide) (by decide)
      (by decide)).1 0 (by decide)).1,
    ((reorder_emitted_order 1 10 none exInputs (by decide) (by decide)
      (by decide)).1 0 (by decide)).2,
    (reorder_emitted_order 1 10 none exInputs (by decide) (by decide)
      (by decide)).2 1 (by decide)⟩

/-! ## The in-memory UTXO store: `TruncMap` (`src/lib/src/utxo/mem.rs`)

The 64-bit fingerprint of an outpoint (`OutPoint::hash64`, defined outside
the embedded sources) is a parameter of all operations. -/

/-- The script patterns rust-bitcoin recognizes (exact byte templates). -/
def isP2pkh (s : List Nat) : Bool :=
  s.length = 25 && s.take 3 = [0x76, 0xA9, 0x14] && s.drop 23 = [0x88, 0xAC]

def isP2sh (s : List Nat) : Bool :=
  s.length = 23 && s.take 2 = [0xA9, 0x14] && s.drop 22 = [0x87]

def isP2wpkh (s : List Nat) : Bool :=
  s.length = 22 && s.take 2 = [0x00, 0x14]

def newP2pkh (h : List Nat) : List Nat := [0x76, 0xA9, 0x14] ++ h ++ [0x88, 0xAC]

def newP2sh (h : List Nat) : List Nat := [0xA9, 0x14] ++ h ++ [0x87]

def newP2wpkh (h : List Nat) : List Nat := [0x00, 0x14] ++ h

/-- `StackScript`: the common script templates inlined as their 20-byte
hashes, with a fallback for everything else. -/
inductive StackScript where
  | P2Pkh (h : List Nat)
  | P2Sh (h : List Nat)
  | P2V0Wpkh (h : List Nat)
  | Other (s : List Nat)
  deriving DecidableEq, Repr

def StackScript.is_other : StackScript → Bool
  | StackScript.Other _ => true
  | _ => false

/-- `From<&ScriptBuf> for StackScript`: classify and extract the hash. -/
def stackScriptOfScript (s : List Nat) : StackScript :=
  if isP2pkh s then StackScript.P2Pkh ((s.drop 3).take 20)
  else if isP2sh s then StackScript.P2Sh ((s.drop 2).take 20)
  else if isP2wpkh s then StackScript.P2V0Wpkh ((s.drop 2).take 20)
  else StackScript.Other s

/-- `From<StackScript> for ScriptBuf`: rebuild the script template. -/
def scriptOfStackScript : StackScript → List Nat
  | StackScript.Other s => s
  | StackScript.P2Pkh h => newP2pkh h
  | StackScript.P2Sh h => newP2sh h
  | StackScript.P2V0Wpkh h => newP2wpkh h

theorem script_stack_roundtrip (s : List Nat) :
    scriptOfStackScript (stackScriptOfScript s) = s := by
  unfold stackScriptOfScript
  by_cases h1 : isP2pkh s
  · rw [if_pos h1]
    simp only [isP2pkh, Bool.and_eq_true, decide_eq_true_eq] at h1
    obtain ⟨⟨hlen, htake⟩, hdrop⟩ := h1
    simp only [scriptOfStackScript, newP2pkh]
    have hs1 : s.take 3 ++ s.drop 3 = s := List.take_append_drop 3 s
    have hs2 : (s.drop 3).take 20 ++ (s.drop 3).drop 20 = s.drop 3 :=
      List.take_append_drop 20 (s.drop 3)
    have hs3 : (s.drop 3).drop 20 = s.drop 23 := by
      rw [List.drop_drop]
    calc [0x76, 0xA9, 0x14] ++ ((s.drop 3).take 20 ++ [0x88, 0xAC])
        = s.take 3 ++ ((s.drop 3).take 20 ++ (s.drop 3).drop 20) := by
          rw [htake, hs3, hdrop]
      _ = s := by rw [hs2, hs1]
  · rw [if_neg h1]
    by_cases h2 : isP2sh s
    · rw [if_pos h2]
      simp only [isP2sh, Bool.and_eq_true, decide_eq_true_eq] at h2
      obtain ⟨⟨hlen, htake⟩, hdrop⟩ := h2
      simp only [scriptOfStackScript, newP2sh]
      have hs1 : s.take 2 ++ s.drop 2 = s := List.take_append_drop 2 s
      have hs2 : (s.drop 2).take 20 ++ (s.drop 2).drop 20 = s.drop 2 :=
        List.take_append_drop 20 (s.drop 2)
      have hs3 : (s.drop 2).drop 20 = s.drop 22 := by
        rw [List.drop_drop]
      calc [0xA9, 0x14] ++ ((s.drop 2).take 20 ++ [0x87])
          = s.take 2 ++ ((s.drop 2).take 20 ++ (s.drop 2).drop 20) := by
            rw [htake, hs3, hdrop]
        _ = s := by rw [hs2, hs1]
    · rw [if_neg h2]
      by_cases h3 : isP2wpkh s
      · rw [if_pos h3]
        simp only [isP2wpkh, Bool.and_eq_true, decide_eq_true_eq] at h3
        obtain ⟨hlen, htake⟩ := h3
        simp only [scriptOfStackScript, newP2wpkh]
        have hs1 : s.take 2 ++ s.drop 2 = s := List.take_append_drop 2 s
        have hs2 : (s.drop 2).take 20 = s.drop 2 := by
          apply List.take_of_length_le
          simp [hlen]
        rw [← htake, hs2, hs1]
      · rw [if_neg h3]
        rfl

/-- `TruncMap`: the truncated-key primary map plus the exact-key fallback
for fingerprint collisions. -/
structure TruncMap where
  trunc : List (Nat × (StackScript × Nat))
  full : List (OutPoint × TxOut)
  script_stack : Nat
  script_other : Nat
  deriving Repr

def TruncMap.empty : TruncMap := ⟨[], [], 0, 0⟩

/-- `TruncMap::insert`: optimistically insert under the fingerprint; on a
collision roll the old value back and store the new pair in the fallback. -/
def TruncMap.insert (hash64 : OutPoint → Nat) (m : TruncMap) (outpoint : OutPoint)
    (tx_out : TxOut) : TruncMap :=
  let tx_out_stack : StackScript × Nat :=
    (stackScriptOfScript tx_out.script_pubkey, tx_out.value)
  let m :=
    if tx_out_stack.1.is_other then { m with script_other := m.script_other + 1 }
    else { m with script_stack := m.script_stack + 1 }
  match alookup m.trunc (hash64 outpoint) with
  | some old =>
    { m with
      trunc := ainsert (ainsert m.trunc (hash64 outpoint) tx_out_stack)
        (hash64 outpoint) old,
      full := ainsert m.full outpoint tx_out }
  | none => { m with trunc := ainsert m.trunc (hash64 outpoint) tx_out_stack }

/-- `TruncMap::remove`: try the exact-key fallback first, then the
fingerprint map, rebuilding the `TxOut` from its compact form. -/
def TruncMap.remove (hash64 : OutPoint → Nat) (m : TruncMap) (outpoint : OutPoint) :
    Option TxOut × TruncMap :=
  match alookup m.full outpoint with
  | some val => (some val, { m with full := aerase m.full outpoint })
  | none =>
    match alookup m.trunc (hash64 outpoint) with
    | some val =>
      (some ⟨val.2, scriptOfStackScript val.1⟩,
        { m with trunc := aerase m.trunc (hash64 outpoint) })
    | none => (none, m)

def insertAll (hash64 : OutPoint → Nat) (l : List (OutPoint × TxOut)) : TruncMap :=
  l.foldl (fun m p => m.insert hash64 p.1 p.2) TruncMap.empty

/-- The state the inserted pairs leave behind: every pair is either an
exact entry of the fallback, or the (unique) compact entry under its
fingerprint; fallback keys all come from the inserted pairs. -/
def TruncInv (hash64 : OutPoint → Nat) (l : List (OutPoint × TxOut))
    (m : TruncMap) : Prop :=
  (∀ p ∈ l, alookup m.full p.1 = some p.2 ∨
    (alookup m.full p.1 = none ∧
      alookup m.trunc (hash64 p.1) =
        some (stackScriptOfScript p.2.script_pubkey, p.2.value))) ∧
  ∀ o v, alookup m.full o = some v → o ∈ l.map Prod.fst

theorem insert_parts_none (hash64 : OutPoint → Nat) (m : TruncMap)
    (o : OutPoint) (t : TxOut) (htr : alookup m.trunc (hash64 o) = none) :
    (m.insert hash64 o t).trunc =
      ainsert m.trunc (hash64 o) (stackScriptOfScript t.script_pubkey, t.value) ∧
    (m.insert hash64 o t).full = m.full := by
  simp only [TruncMap.insert]
  split_ifs <;> simp [htr]

theorem insert_parts_some (hash64 : OutPoint → Nat) (m : TruncMap)
    (o : OutPoint) (t : TxOut) (old : StackScript × Nat)
    (htr : alookup m.trunc (hash64 o) = some old) :
    (m.insert hash64 o t).trunc =
      ainsert (ainsert m.trunc (hash64 o)
        (stackScriptOfScript t.script_pubkey, t.value)) (hash64 o) old ∧
    (m.insert hash64 o t).full = ainsert m.full o t := by
  simp only [TruncMap.insert]
  split_ifs <;> simp [htr]

theorem truncInv_insert (hash64 : OutPoint → Nat) (l : List (OutPoint × TxOut))
    (m : TruncMap) (o2 : OutPoint) (t2 : TxOut) (hinv : TruncInv hash64 l m)
    (hfresh : o2 ∉ l.map Prod.fst) :
    TruncInv hash64 (l ++ [(o2, t2)]) (m.insert hash64 o2 t2) := by
  obtain ⟨h1, h2⟩ := hinv
  rcases htr : alookup m.trunc (hash64 o2) with _ | old
  · obtain ⟨htr2, hfu2⟩ := insert_parts_none hash64 m o2 t2 htr
    constructor
    · intro p hp
      rcases List.mem_append.mp hp with hp2 | hp2
      · rcases h1 p hp2 with hc | ⟨hc1, hc2⟩
        · rw [hfu2]
          exact Or.inl hc
        · refine Or.inr ⟨by rw [hfu2]; exact hc1, ?_⟩
          have hne : hash64 o2 ≠ hash64 p.1 := by
            intro he
            rw [he, hc2] at htr
            cases htr
          rw [htr2, alookup_ainsert_ne _ _ _ _ hne]
          exact hc2
      · simp only [List.mem_singleton] at hp2
        subst hp2
        refine Or.inr ⟨?_, by rw [htr2, alookup_ainsert_self]⟩
        rw [hfu2]
        rcases hfo : alookup m.full o2 with _ | v
        · rfl
        · exact absurd (h2 o2 v hfo) hfresh
    · intro o v hv
      rw [hfu2] at hv
      rw [List.map_append]
      exact List.mem_append_left _ (h2 o v hv)
  · obtain ⟨htr2, hfu2⟩ := insert_parts_some hash64 m o2 t2 old htr
    constructor
    · intro p hp
      rcases List.mem_append.mp hp with hp2 | hp2
      · have hpne : o2 ≠ p.1 := by
          intro he
          exact hfresh (he ▸ List.mem_map_of_mem Prod.fst hp2)
        rcases h1 p hp2 with hc | ⟨hc1, hc2⟩
        · rw [hfu2, alookup_ainsert_ne _ _ _ _ hpne]
          exact Or.inl hc
        · refine Or.inr ⟨by rw [hfu2, alookup_ainsert_ne _ _ _ _ hpne]; exact hc1, ?_⟩
          by_cases he : hash64 o2 = hash64 p.1
          · rw [he] at htr
            rw [htr] at hc2
            rw [htr2, ← he, alookup_ainsert_self]
            exact hc2.symm ▸ rfl
          · rw [htr2, alookup_ainsert_ne _ _ _ _ he,
              alookup_ainsert_ne _ _ _ _ he]
            exact hc2
      · simp only [List.mem_singleton] at hp2
        subst hp2
        rw [hfu2, alookup_ainsert_self]
        exact Or.inl rfl
    · intro o v hv
      rw [hfu2] at hv
      rw [List.map_append]
      by_cases he : o2 = o
      · subst he
        exact List.mem_append_right _ (by simp)
      · rw [alookup_ainsert_ne _ _ _ _ he] at hv
        exact List.mem_append_left _ (h2 o v hv)

theorem insertAll_inv (hash64 : OutPoint → Nat) :
    ∀ rest (m : TruncMap) (processed : List (OutPoint × TxOut)),
    TruncInv hash64 processed m → ((processed ++ rest).map Prod.fst).Nodup →
    TruncInv hash64 (processed ++ rest)
      (rest.foldl (fun m p => m.insert hash64 p.1 p.2) m) := by
  intro rest
  induction rest with
  | nil =>
    intro m processed hinv _
    simpa using hinv
  | cons p rest ih =>
    intro m processed hinv hnd
    have hfresh : p.1 ∉ processed.map Prod.fst := by
      intro hmem
      rw [List.map_append] at hnd
      exact (List.nodup_append.mp hnd).2.2 hmem (by simp)
    have hinv2 := truncInv_insert hash64 processed m p.1 p.2 hinv hfresh
    have hnd2 : (((processed ++ [p]) ++ rest).map Prod.fst).Nodup := by
      rw [← List.append_cons]
      exact hnd
    have := ih (m.insert hash64 p.1 p.2) (processed ++ [p]) hinv2 hnd2
    rw [List.append_cons]
    simpa using this

/-- C9: after inserting pairwise-distinct outpoints from empty, removing
any of them returns exactly the `TxOut` that was inserted for it (the
P2PKH/P2SH/P2WPKH scripts are rebuilt from their stored 20-byte hashes),
for any 64-bit fingerprint function — hence also when fingerprints
collide. -/
theorem truncmap_insert_remove (hash64 : OutPoint → Nat)
    (l : List (OutPoint × TxOut)) (hnd : (l.map Prod.fst).Nodup)
    (o : OutPoint) (t : TxOut) (hmem : (o, t) ∈ l) :
    ((insertAll hash64 l).remove hash64 o).1 = some t := by
  have hinv : TruncInv hash64 l (insertAll hash64 l) := by
    have := insertAll_inv hash64 l TruncMap.empty [] (by
      constructor
      · intro p hp
        cases hp
      · intro o v hv
        cases hv) (by simpa using hnd)
    simpa [insertAll] using this
  obtain ⟨h1, -⟩ := hinv
  rcases h1 (o, t) hmem with hc | ⟨hc1, hc2⟩
  · unfold TruncMap.remove
    rw [hc]
  · unfold TruncMap.remove
    rw [hc1, hc2]
    simp [script_stack_roundtrip]

/-- Concrete collision pair used in the C9 witness. -/
def exPairs : List (OutPoint × TxOut) :=
  [(⟨List.replicate 32 1, 0⟩, ⟨5000, newP2pkh (List.replicate 20 9)⟩),
   (⟨List.replicate 32 2, 0⟩, ⟨7000, [0x6A]⟩)]

/-- Closed witness for C9: with a constant fingerprint function (total
collision), both inserted outpoints are removed with their original
outputs, one of them a P2PKH script rebuilt from its 20-byte hash. -/
theorem truncmap_insert_remove_witness :
    ((insertAll (fun _ => 0) exPairs).remove (fun _ => 0)
      ⟨List.replicate 32 1, 0⟩).1 = some ⟨5000, newP2pkh (List.replicate 20 9)⟩ ∧
    ((insertAll (fun _ => 0) exPairs).remove (fun _ => 0)
      ⟨List.replicate 32 2, 0⟩).1 = some ⟨7000, [0x6A]⟩ :=
  ⟨truncmap_insert_remove (fun _ => 0) exPairs (by decide) _ _ (by simp [exPairs]),
   truncmap_insert_remove (fun _ => 0) exPairs (by decide) _ _ (by simp [exPairs])⟩

/-! ## The TxidComputer stage (`src/lib/src/stages/compute_txids.rs`)

The transaction-id function (double SHA-256 of the legacy serialization,
provided by the parsing library) is a parameter `txidFn`. -/

/-- `BlockExtra::compute_txids`: no-op when txids are already present,
otherwise parse the block bytes and collect one txid per transaction in
order (the parse failure is the visitor panic). -/
def BlockExtra.compute_txids (txidFn : Transaction → List Nat) (e : BlockExtra) :
    Option BlockExtra :=
  if e.txids.isEmpty then
    match decBlock e.block_bytes with
    | some (b, _) =>
      some { e with txids := b.txdata.map txidFn,
                    block_total_txs := (b.txdata.map txidFn).length }
    | none => none
  else some e

/-- One received block of the `ComputeTxids` worker: forwarded with txids
computed unless we are skipping prevouts and the block is below
`start_at_height`, in which case nothing is sent downstream. -/
def computeTxidsStep (txidFn : Transaction → List Nat) (skip_prevout : Bool)
    (start_at_height : Nat) (e : BlockExtra) : Except Unit (Option BlockExtra) :=
  if !skip_prevout || e.height ≥ start_at_height then
    match e.compute_txids txidFn with
    | some e2 => Except.ok (some e2)
    | none => Except.error ()
  else Except.ok none

/-- A small record below the start height, used to refute C6 as stated. -/
def exE6 : BlockExtra :=
  ⟨0, encBlock exB, List.replicate 32 0, 81, [], 0, [], 0, 0, [], 0⟩

/-- Counterexample for C6: with `skip_prevout` set and height 0 below
`start_at_height = 1`, the stage forwards nothing at all — not the
unchanged block the claim asserts. -/
theorem compute_txids_skip_counterexample :
    computeTxidsStep (fun _ => List.replicate 32 0) true 1 exE6 =
      Except.ok none ∧
    (Except.ok none : Except Unit (Option BlockExtra)) ≠
      Except.ok (some exE6) := by
  constructor
  · rfl
  · intro h
    cases h

/-- C6 (amended): when `skip_prevout` is set and the height is strictly
below `start_at_height` the stage drops the block (sends nothing
downstream) without computing txids; in every other case it computes the
txids — one per transaction of the parsed block, in the same order — and
forwards the block so enriched. -/
theorem compute_txids_step_spec (txidFn : Transaction → List Nat)
    (skip_prevout : Bool) (start_at_height : Nat) (e : BlockExtra)
    (b : Block) (rest : List Nat)
    (hdec : decBlock e.block_bytes = some (b, rest)) (hempty : e.txids = []) :
    (skip_prevout = true → e.height < start_at_height →
      computeTxidsStep txidFn skip_prevout start_at_height e = Except.ok none) ∧
    ((skip_prevout = false ∨ start_at_height ≤ e.height) →
      computeTxidsStep txidFn skip_prevout start_at_height e =
        Except.ok (some { e with
          txids := b.txdata.map txidFn,
          block_total_txs := (b.txdata.map txidFn).length }) ∧
      (b.txdata.map txidFn).length = b.txdata.length) := by
  constructor
  · intro hskip hlt
    unfold computeTxidsStep
    rw [if_neg]
    simp [hskip]
    omega
  · intro hcase
    have hcond : (!skip_prevout || e.height ≥ start_at_height) = true := by
      rcases hcase with hc | hc
      · simp [hc]
      · simp [hc]
    unfold computeTxidsStep
    rw [if_pos hcond]
    unfold BlockExtra.compute_txids
    rw [if_pos (by simp [hempty]), hdec]
    exact ⟨rfl, by simp⟩

/-- Closed witness for C6 (amended): both branches evaluated at a concrete
record — dropped below the window, enriched and forwarded at the window. -/
theorem compute_txids_step_spec_witness :
    computeTxidsStep (fun _ => List.replicate 32 0) true 1 exE6 =
      Except.ok none ∧
    computeTxidsStep (fun _ => List.replicate 32 0) false 1 exE6 =
      Except.ok (some { exE6 with
        txids := ([] : List Transaction).map (fun _ => List.replicate 32 0),
        block_total_txs := 0 }) :=
  ⟨(compute_txids_step_spec (fun _ => List.replicate 32 0) true 1 exE6
      ⟨⟨0, List.replicate 32 0, List.replicate 32 0, 0, 0, 0⟩, []⟩ []
      (by rfl) rfl).1 rfl (by decide),
    ((compute_txids_step_spec (fun _ => List.replicate 32 0) false 1 exE6
      ⟨⟨0, List.replicate 32 0, List.replicate 32 0, 0, 0, 0⟩, []⟩ []
      (by rfl) rfl).2 (Or.inl rfl)).1⟩

/-! ## The UtxoJoiner (Fee) stage (`src/lib/src/stages/fee.rs`)

`Fee::new` is generic over the UTXO store; the loop is modelled generically
over the store's `add_outputs_get_inputs` step. -/

def sumOutputValues (outs : List TxOut) : Nat :=
  (outs.map TxOut.value).sum

/-- All inputs of the non-coinbase transactions, in transaction order
(`txdata.iter().skip(1)` then `tx.input.iter()`). -/
def inputsAfterCoinbase (b : Block) : List TxIn :=
  ((b.txdata.drop 1).map Transaction.input).flatten

/-- The per-block body of the fee stage: pair every non-coinbase input
with the prevout the store returned for it (in order; a short prevout
vector is the `next().unwrap()` panic), and append the synthetic coinbase
entry (null outpoint, summed coinbase output value, empty script). -/
def feeStepBlock (prevouts : List TxOut) (b : Block) :
    Option (List (OutPoint × TxOut)) :=
  match b.txdata with
  | [] => none
  | coinbase :: _ =>
    let inputs := inputsAfterCoinbase b
    if inputs.length ≤ prevouts.length then
      some ((inputs.zip prevouts).map (fun p => (p.1.previous_output, p.2)) ++
        [(OutPoint.null, ⟨sumOutputValues coinbase.output, []⟩)])
    else none

/-- The `outpoint_values` pairs collected into a hash map (later inserts
shadow earlier ones, as for `HashMap::collect`). -/
def outpointValuesMap (l : List (OutPoint × TxOut)) : List (OutPoint × TxOut) :=
  l.foldl (fun m p => ainsert m p.1 p.2) []

theorem outpointValuesMap_last (l : List (OutPoint × TxOut)) (k : OutPoint)
    (v : TxOut) :
    alookup (outpointValuesMap (l ++ [(k, v)])) k = some v := by
  unfold outpointValuesMap
  rw [List.foldl_append]
  exact alookup_ainsert_self _ _ _

/-- The fee-stage worker loop: obtain the prevouts from the store for every
block, and for blocks at or above `start_at_height` attach the outpoint
pairs and forward `(block, pairs, height)`. -/
def feeRun {σ : Type}
    (aogi : σ → Block → List (List Nat) → Nat → Option (List TxOut × σ))
    (txidFn : Transaction → List Nat) (start_at_height : Nat) :
    List Block → σ → Nat → Option (List (Block × List (OutPoint × TxOut) × Nat))
  | [], _, _ => some []
  | b :: rest, store, height =>
    match aogi store b (b.txdata.map txidFn) height with
    | none => none
    | some (prevouts, store2) =>
      if start_at_height ≤ height then
        match feeStepBlock prevouts b with
        | none => none
        | some vec =>
          match feeRun aogi txidFn start_at_height rest store2 (height + 1) with
          | none => none
          | some out => some ((b, vec, height) :: out)
      else feeRun aogi txidFn start_at_height rest store2 (height + 1)

/-- C8: every block forwarded by the UtxoJoiner carries, in its
`outpoint_values` map, an entry keyed by the null outpoint (the coinbase
input's `previous_output`) whose value is a `TxOut` with empty script and
value the sum of the coinbase transaction's output values. -/
theorem fee_coinbase_synthetic {σ : Type}
    (aogi : σ → Block → List (List Nat) → Nat → Option (List TxOut × σ))
    (txidFn : Transaction → List Nat) (start_at_height : Nat) :
    ∀ blocks store height out,
    feeRun aogi txidFn start_at_height blocks store height = some out →
    ∀ e ∈ out, ∃ cb tl, e.1.txdata = cb :: tl ∧
      alookup (outpointValuesMap e.2.1) OutPoint.null =
        some ⟨sumOutputValues cb.output, []⟩ := by
  intro blocks
  induction blocks with
  | nil =>
    intro store height out h e he
    simp only [feeRun, Option.some.injEq] at h
    subst h
    cases he
  | cons b rest ih =>
    intro store height out h e he
    simp only [feeRun] at h
    rcases ha : aogi store b (b.txdata.map txidFn) height with _ | ⟨prevouts, store2⟩
    · rw [ha] at h
      cases h
    · simp only [ha] at h
      by_cases hst : start_at_height ≤ height
      · rw [if_pos hst] at h
        rcases hv : feeStepBlock prevouts b with _ | vec
        · rw [hv] at h
          cases h
        · rw [hv] at h
          rcases hr : feeRun aogi txidFn start_at_height rest store2 (height + 1)
            with _ | out2
          · rw [hr] at h
            cases h
          · rw [hr] at h
            simp only [Option.some.injEq] at h
            subst h
            rcases List.mem_cons.mp he with rfl | he2
            · unfold feeStepBlock at hv
              rcases hb : b.txdata with _ | ⟨cb, tl⟩
              · rw [hb] at hv
                cases hv
              · simp only [hb] at hv
                by_cases hlen : (inputsAfterCoinbase b).length ≤ prevouts.length
                · rw [if_pos hlen] at hv
                  simp only [Option.some.injEq] at hv
                  refine ⟨cb, tl, rfl, ?_⟩
                  rw [← hv]
                  exact outpointValuesMap_last _ _ _
                · rw [if_neg hlen] at hv
                  cases hv
            · exact ih store2 (height + 1) out2 hr e he2
      · rw [if_neg hst] at h
        exact ih store2 (height + 1) out h e he

/-- The single-block chain used in the C8 witness: one coinbase paying 50
satoshi to an empty script. -/
def exBlock8 : Block :=
  ⟨⟨0, List.replicate 32 0, List.replicate 32 0, 0, 0, 0⟩,
    [⟨1, [⟨OutPoint.null, [], 0⟩], [⟨50, []⟩], 0⟩]⟩

/-- Closed witness for C8: the forwarded record of a one-block run maps
the null outpoint to the 50-satoshi empty-script synthetic entry. -/
theorem fee_coinbase_synthetic_witness :
    alookup (outpointValuesMap [(OutPoint.null, ⟨50, []⟩)]) OutPoint.null =
      some ⟨50, []⟩ := by
  have h := fee_coinbase_synthetic (σ := Unit) (fun s _ _ _ => some ([], s))
    (fun _ => List.replicate 32 0) 0 [exBlock8] () 0
    [(exBlock8, [(OutPoint.null, ⟨50, []⟩)], 0)] (by rfl)
    (exBlock8, [(OutPoint.null, ⟨50, []⟩)], 0) (by simp)
  obtain ⟨cb, tl, h1, h2⟩ := h
  rw [show exBlock8.txdata =
    [⟨1, [⟨OutPoint.null, [], 0⟩], [⟨50, []⟩], 0⟩] from rfl] at h1
  injection h1 with hcb htl
  subst hcb
  exact h2

/-! ## Persistent UTXO stores (`src/lib/src/utxo/db.rs`, `redb.rs`) -/

/-- `Script::is_op_return`: first byte is `OP_RETURN` (0x6A). -/
def isOpReturn (s : List Nat) : Bool :=
  s.head? = some 0x6A

/-- `Script::is_provably_unspendable`: the first opcode classifies as
`ReturnOp` or `IllegalOp` in the legacy context (OP_RETURN, OP_VERIF,
OP_VERNOTIF, the reserved opcodes, and the 0xBA-0xFF range). -/
def isProvablyUnspendable (s : List Nat) : Bool :=
  match s.head? with
  | some b =>
    b = 0x6A || b = 0x65 || b = 0x66 || b = 0x50 || b = 0x62 || b = 0x89 ||
      b = 0x8A || (0xBA ≤ b && b ≤ 0xFF)
  | none => false

/-- rocksdb key of an unspent outpoint: `b'U'` then the 36 outpoint bytes. -/
def serializeOutpoint (o : OutPoint) : List Nat :=
  0x55 :: encOutPoint o

/-- rocksdb key of a per-height prevouts vector: `b'P'` then the height. -/
def serializePrevoutsHeight (h : Nat) : List Nat :=
  0x50 :: natToLe 4 h

/-- rocksdb key holding the processed-up-to height (`b'H'`). -/
def heightKey : List Nat := [0x48]

/-- `Vec<TxOut>` consensus serialization. -/
def encTxOuts (v : List TxOut) : List Nat :=
  encVarInt v.length ++ encList encTxOut v

/-- `deserialize::<TxOut>`: full-consumption decode. -/
def deserializeTxOut (bs : List Nat) : Option TxOut :=
  match decTxOut bs with
  | some (t, []) => some t
  | _ => none

/-- `deserialize::<Vec<TxOut>>`: full-consumption decode. -/
def deserializeTxOuts (bs : List Nat) : Option (List TxOut) :=
  match decVarInt bs with
  | some (n, r) =>
    match decCount decTxOut n r with
    | some (v, []) => some v
    | _ => none
  | none => none

theorem deserializeTxOut_enc (t : TxOut) (h : WFTxOut t) :
    deserializeTxOut (encTxOut t) = some t := by
  have := decTxOut_encTxOut t h []
  rw [List.append_nil] at this
  simp [deserializeTxOut, this]

theorem deserializeTxOuts_enc (v : List TxOut) (hwf : ∀ t ∈ v, WFTxOut t)
    (hlen : v.length < 2 ^ 64) : deserializeTxOuts (encTxOuts v) = some v := by
  have h1 := decVarInt_encVarInt v.length hlen (encList encTxOut v)
  have h2 := decCount_encList decTxOut encTxOut v WFTxOut decTxOut_encTxOut hwf []
  rw [List.append_nil] at h2
  simp [deserializeTxOuts, encTxOuts, h1, h2]

/-- The in-memory per-block output map (all non-unspendable outputs of the
block, keyed by outpoint), built from `iter_tx`. -/
def collectBlockOutputs (uns : List Nat → Bool) (txids : List (List Nat))
    (txdata : List Transaction) : List (OutPoint × TxOut) :=
  (txids.zip txdata).foldl (fun m p =>
    p.2.output.enum.foldl (fun m q =>
      if uns q.2.script_pubkey then m else ainsert m ⟨p.1, q.1⟩ q.2) m) []

/-- A rocksdb `WriteBatch` operation. -/
inductive BatchOp where
  | put (k v : List Nat)
  | delete (k : List Nat)
  deriving DecidableEq, Repr

def applyBatch (db : List (List Nat × List Nat)) (ops : List BatchOp) :
    List (List Nat × List Nat) :=
  ops.foldl (fun d op =>
    match op with
    | BatchOp.put k v => ainsert d k v
    | BatchOp.delete k => aerase d k) db

structure DbUtxo where
  db : List (List Nat × List Nat)
  updated_up_to_height : Int
  inserted_outputs : Nat
  deriving Repr

/-- The input loop of `DbUtxo::add_outputs_get_inputs`: spend from the
in-block map when possible, otherwise read (and batch-delete) from the
store; a missing entry is the `unwrap` panic. -/
def dbSpendLoop (db : List (List Nat × List Nat)) :
    List TxIn → List (OutPoint × TxOut) →
    Option (List TxOut × List (OutPoint × TxOut) × List BatchOp)
  | [], bo => some ([], bo, [])
  | i :: is, bo =>
    match alookup bo i.previous_output with
    | some tx_out =>
      (dbSpendLoop db is (aerase bo i.previous_output)).map fun r =>
        (tx_out :: r.1, r.2.1, r.2.2)
    | none =>
      match alookup db (serializeOutpoint i.previous_output) with
      | none => none
      | some bytes =>
        match deserializeTxOut bytes with
        | none => none
        | some tx_out =>
          (dbSpendLoop db is bo).map fun r =>
            (tx_out :: r.1, r.2.1,
              BatchOp.delete (serializeOutpoint i.previous_output) :: r.2.2)

/-- The puts of the remaining in-block outputs (both script-size branches
write the serialized `TxOut`). -/
def dbPuts (bo : List (OutPoint × TxOut)) : List BatchOp :=
  bo.map fun p => BatchOp.put (serializeOutpoint p.1) (encTxOut p.2)

/-- `DbUtxo::add_outputs_get_inputs`. -/
def DbUtxo.add_outputs_get_inputs (d : DbUtxo) (block : Block)
    (txids : List (List Nat)) (height : Nat) : Option (List TxOut × DbUtxo) :=
  if d.updated_up_to_height < (height : Int) then
    match dbSpendLoop d.db (inputsAfterCoinbase block)
        (collectBlockOutputs isOpReturn txids block.txdata) with
    | none => none
    | some (prevouts, bo, deletes) =>
      let batch := deletes ++ dbPuts bo ++
        (if prevouts.isEmpty then [] else
          [BatchOp.put (serializePrevoutsHeight height) (encTxOuts prevouts)]) ++
        [BatchOp.put heightKey (natToLe 4 height)]
      some (prevouts,
        { d with
          db := applyBatch d.db batch,
          inserted_outputs := d.inserted_outputs + bo.length })
  else if block.txdata.length = 1 then some ([], d)
  else
    match alookup d.db (serializePrevoutsHeight height) with
    | none => none
    | some bytes =>
      match deserializeTxOuts bytes with
      | none => none
      | some v => some (v, d)

structure RedbUtxo where
  utxos : List (List Nat × List Nat)
  prevouts : List (Int × List Nat)
  ints : Option Int
  updated_up_to_height : Int
  inserted_outputs : Nat
  deriving Repr

/-- The input loop of `RedbUtxo::add_outputs_get_inputs` (keys of the
utxos table are the 36 serialized outpoint bytes). -/
def redbSpendLoop (utxos : List (List Nat × List Nat)) :
    List TxIn → List (OutPoint × TxOut) →
    Option (List TxOut × List (OutPoint × TxOut) × List (List Nat))
  | [], bo => some ([], bo, [])
  | i :: is, bo =>
    match alookup bo i.previous_output with
    | some tx_out =>
      (redbSpendLoop utxos is (aerase bo i.previous_output)).map fun r =>
        (tx_out :: r.1, r.2.1, r.2.2)
    | none =>
      match alookup utxos (encOutPoint i.previous_output) with
      | none => none
      | some bytes =>
        match deserializeTxOut bytes with
        | none => none
        | some tx_out =>
          (redbSpendLoop utxos is bo).map fun r =>
            (tx_out :: r.1, r.2.1, encOutPoint i.previous_output :: r.2.2)

/-- `RedbUtxo::add_outputs_get_inputs`. -/
def RedbUtxo.add_outputs_get_inputs (r : RedbUtxo) (block : Block)
    (txids : List (List Nat)) (height : Nat) : Option (List TxOut × RedbUtxo) :=
  if r.updated_up_to_height < (height : Int) then
    match redbSpendLoop r.utxos (inputsAfterCoinbase block)
        (collectBlockOutputs isProvablyUnspendable txids block.txdata) with
    | none => none
    | some (prevouts, bo, to_delete) =>
      let utxos1 := to_delete.foldl aerase r.utxos
      let utxos2 := bo.foldl
        (fun u p => ainsert u (encOutPoint p.1) (encTxOut p.2)) utxos1
      let prevouts2 :=
        if prevouts.isEmpty then r.prevouts
        else ainsert r.prevouts (height : Int) (encTxOuts prevouts)
      some (prevouts,
        { r with
          utxos := utxos2,
          prevouts := prevouts2,
          ints := some (height : Int),
          inserted_outputs := r.inserted_outputs + bo.length })
  else if block.txdata.length = 1 then some ([], r)
  else
    match alookup r.prevouts (height : Int) with
    | none => none
    | some bytes =>
      match deserializeTxOuts bytes with
      | none => none
      | some v => some (v, r)

/-- C7: replay semantics of the persistent backends.  When a block arrives
at a height at or below the store's recorded processed height, a
coinbase-only block (one transaction) returns the empty vector with the
store untouched and without consulting the key-value data, and any other
block returns exactly the prevout vector stored for that height in the
prevouts key space, also without modifying the store. -/
theorem persistent_replay (d : DbUtxo) (r : RedbUtxo) (b : Block)
    (txids : List (List Nat)) (height : Nat) (v : List TxOut)
    (hd : (height : Int) ≤ d.updated_up_to_height)
    (hr : (height : Int) ≤ r.updated_up_to_height) :
    (b.txdata.length = 1 →
      DbUtxo.add_outputs_get_inputs d b txids height = some ([], d) ∧
      RedbUtxo.add_outputs_get_inputs r b txids height = some ([], r)) ∧
    (1 < b.txdata.length → (∀ t ∈ v, WFTxOut t) → v.length < 2 ^ 64 →
      (alookup d.db (serializePrevoutsHeight height) = some (encTxOuts v) →
        DbUtxo.add_outputs_get_inputs d b txids height = some (v, d)) ∧
      (alookup r.prevouts (height : Int) = some (encTxOuts v) →
        RedbUtxo.add_outputs_get_inputs r b txids height = some (v, r))) := by
  have hdn : ¬ d.updated_up_to_height < (height : Int) := by omega
  have hrn : ¬ r.updated_up_to_height < (height : Int) := by omega
  constructor
  · intro h1
    constructor
    · unfold DbUtxo.add_outputs_get_inputs
      rw [if_neg hdn, if_pos h1]
    · unfold RedbUtxo.add_outputs_get_inputs
      rw [if_neg hrn, if_pos h1]
  · intro h1 hwf hlen
    have hne : ¬ b.txdata.length = 1 := by omega
    constructor
    · intro hdb
      unfold DbUtxo.add_outputs_get_inputs
      rw [if_neg hdn, if_neg hne, hdb]
      simp [deserializeTxOuts_enc v hwf hlen]
    · intro hrdb
      unfold RedbUtxo.add_outputs_get_inputs
      rw [if_neg hrn, if_neg hne, hrdb]
      simp [deserializeTxOuts_enc v hwf hlen]

/-- Two-transaction block for the replay witness. -/
def exBlock7 : Block :=
  ⟨⟨0, List.replicate 32 0, List.replicate 32 0, 0, 0, 0⟩,
    [⟨1, [⟨OutPoint.null, [], 0⟩], [⟨50, []⟩], 0⟩,
     ⟨1, [⟨⟨List.replicate 32 3, 0⟩, [], 0⟩], [⟨7, []⟩], 0⟩]⟩

/-- Concrete replayed stores for the C7 witness. -/
def exDb : DbUtxo := ⟨[(serializePrevoutsHeight 3, encTxOuts [⟨7, []⟩])], 5, 0⟩

def exRedb : RedbUtxo := ⟨[], [((3 : Int), encTxOuts [⟨7, []⟩])], some 5, 5, 0⟩

/-- Closed witness for C7: at height 3 ≤ 5 both stores replay — the
coinbase-only block yields `[]`, the two-transaction block yields the
stored prevout vector — with both stores unchanged. -/
theorem persistent_replay_witness :
    (DbUtxo.add_outputs_get_inputs exDb exBlock8 [] 3 = some ([], exDb) ∧
      RedbUtxo.add_outputs_get_inputs exRedb exBlock8 [] 3 = some ([], exRedb)) ∧
    DbUtxo.add_outputs_get_inputs exDb exBlock7 [] 3 = some ([⟨7, []⟩], exDb) ∧
    RedbUtxo.add_outputs_get_inputs exRedb exBlock7 [] 3 =
      some ([⟨7, []⟩], exRedb) :=
  ⟨(persistent_replay exDb exRedb exBlock8 [] 3 [⟨7, []⟩] (by decide)
      (by decide)).1 (by decide),
    ((persistent_replay exDb exRedb exBlock7 [] 3 [⟨7, []⟩] (by decide)
      (by decide)).2 (by decide) (by decide) (by decide)).1 (by rfl),
    ((persistent_replay exDb exRedb exBlock7 [] 3 [⟨7, []⟩] (by decide)
      (by decide)).2 (by decide) (by decide) (by decide)).2 (by rfl)⟩

/-! ## Block detection (`src/lib/src/stages/read_detect.rs`) -/

/-- `RollingU32::push`: shift the window right by a byte and put the new
byte on top (the OR is an addition because the ranges are disjoint). -/
def rollingPush (r b : Nat) : Nat :=
  r / 2 ^ 8 + b % 2 ^ 8 * 2 ^ 24

/-- A `DetectedBlock` record; the source stores the block hash, the model
keeps the parsed block itself (the hash is a function of it).  `stop` is
the source's `end` field. -/
structure DetectedBlock where
  start : Nat
  stop : Nat
  block : Block
  prev : List Nat
  deriving DecidableEq, Repr

/-- The scan loop of `detect`.  `pointer` and `cur` are the two cursors the
source keeps; each iteration consumes at least one byte of `cur`, so fuel
equal to the buffer length always suffices.  A short `U32::parse` of the
declared size aborts the whole scan (the `?`).  On a block-parse failure
the source only rewinds `cur` (one byte past the magic), never `pointer`,
which is what this model reproduces. -/
def detectGo (magic : Nat) :
    Nat → Nat → Nat → List Nat → List DetectedBlock →
    Except Unit (List DetectedBlock)
  | 0, _, _, _, acc => Except.ok acc
  | _ + 1, _, _, [], acc => Except.ok acc
  | fuel + 1, pointer, rolling, b :: rest, acc =>
    let pointer := pointer + 1
    let rolling := rollingPush rolling b
    if magic ≠ rolling then detectGo magic fuel pointer rolling rest acc
    else
      match readN 4 rest with
      | none => Except.error ()
      | some (szb, remaining) =>
        let size := leToNat szb
        let pointer := pointer + 4
        let start := pointer
        match decBlock remaining with
        | some (blk, rem2) =>
          let consumed := remaining.length - rem2.length
          let pointer := pointer + consumed
          let stop := pointer
          if size ≠ stop - start then detectGo magic fuel pointer rolling rem2 acc
          else
            detectGo magic fuel pointer rolling rem2
              (acc ++ [⟨start, stop, blk, blk.header.prev_blockhash⟩])
        | none => detectGo magic fuel pointer rolling rest acc

/-- `detect(buffer, magic)`. -/
def detect (buffer magic4 : List Nat) : Except Unit (List DetectedBlock) :=
  detectGo (leToNat magic4) buffer.length 0 0 buffer []

/-- Mainnet magic bytes. -/
def exMagic : List Nat := [0xF9, 0xBE, 0xB4, 0xD9]

/-- An 81-byte serialized block: 80-byte header (bits = 1, nonce = 256,
everything else zero) followed by a zero transaction count. -/
def exB5bytes : List Nat :=
  List.replicate 72 0 ++ [1, 0, 0, 0, 0, 1, 0, 0] ++ [0]

/-- The block `exB5bytes` serializes. -/
def exBlk5 : Block :=
  ⟨⟨0, List.replicate 32 0, List.replicate 32 0, 0, 1, 256⟩, []⟩

/-- The 97-byte failing buffer: a real magic whose declared size is 0 and
whose payload starts with a second magic (the payload fails to parse as a
block: the spurious header is followed by transaction-count 1, input-count
1 and then too few bytes), then the second magic, the declared size 81 and
the genuine 81-byte block. -/
def exBuf5 : List Nat :=
  exMagic ++ [0, 0, 0, 0] ++ exMagic ++ [81, 0, 0, 0] ++ exB5bytes

/-- C5: after the failed parse at the first magic the byte cursor resumes
one byte past that magic but `pointer` has already been advanced 4 bytes
for the size field, so the one DetectedBlock of the scan records the range
[20, 101) although the genuine block occupies bytes [16, 97): the recorded
end exceeds the 97-byte buffer and the recorded range does not hold the
serialized block. -/
theorem detect_range_desync :
    detect exBuf5 exMagic =
      Except.ok [⟨20, 101, exBlk5, List.replicate 32 0⟩] ∧
    decBlock (List.drop 16 exBuf5) = some (exBlk5, []) ∧
    (encBlock exBlk5).length = 81 ∧
    exBuf5.length = 97 ∧
    List.take 81 (List.drop 20 exBuf5) ≠ encBlock exBlk5 := by
  refine ⟨by rfl, by rfl, by rfl, by rfl, ?_⟩
  intro h
  have := congrArg List.length h
  rw [List.length_take, List.length_drop] at this
  revert this
  decide

/-! ## Prevout completeness (`src/lib/src/stages/fee.rs` over the three
UTXO backends of `src/lib/src/utxo/`)

The reference store is a single association map of unspent outpoints; each
backend is proved to simulate it along a valid chain. -/

structure MemUtxo where
  map : TruncMap
  unspendable : Nat

/-- `MemUtxo::add_tx_outputs`: insert every output of the transaction,
counting (and skipping) the OP_RETURN ones. -/
def MemUtxo.add_tx_outputs (hash64 : OutPoint → Nat) (u : MemUtxo)
    (txid : List Nat) (tx : Transaction) : MemUtxo :=
  tx.output.enum.foldl (fun u q =>
    if isOpReturn q.2.script_pubkey then
      { u with unspendable := u.unspendable + 1 }
    else { u with map := u.map.insert hash64 ⟨txid, q.1⟩ q.2 }) u

/-- The input loop of `MemUtxo::add_outputs_get_inputs` (`remove` giving
`None` is the `unwrap` panic). -/
def memSpendLoop (hash64 : OutPoint → Nat) :
    TruncMap → List TxIn → Option (List TxOut × TruncMap)
  | m, [] => some ([], m)
  | m, i :: is =>
    match m.remove hash64 i.previous_output with
    | (some t, m2) => (memSpendLoop hash64 m2 is).map fun r => (t :: r.1, r.2)
    | (none, _) => none

/-- `MemUtxo::add_outputs_get_inputs`: put every output of every
transaction of the block in the map, then remove and collect the prevout
of every non-coinbase input. -/
def MemUtxo.add_outputs_get_inputs (hash64 : OutPoint → Nat) (u : MemUtxo)
    (b : Block) (txids : List (List Nat)) (_height : Nat) :
    Option (List TxOut × MemUtxo) :=
  let u2 := (txids.zip b.txdata).foldl
    (fun u p => u.add_tx_outputs hash64 p.1 p.2) u
  match memSpendLoop hash64 u2.map (inputsAfterCoinbase b) with
  | some (prevouts, m2) => some (prevouts, { u2 with map := m2 })
  | none => none

/-- First-defined option wins. -/
def oor {α : Type} (x y : Option α) : Option α :=
  match x with
  | some v => some v
  | none => y

theorem oor_none_right {α : Type} (x : Option α) : oor x none = x := by
  cases x <;> rfl

theorem oor_none_left {α : Type} (y : Option α) : oor none y = y := rfl

theorem alookup_append {κ α : Type} [DecidableEq κ] (l1 l2 : List (κ × α))
    (k : κ) : alookup (l1 ++ l2) k = oor (alookup l1 k) (alookup l2 k) := by
  induction l1 with
  | nil => rfl
  | cons p t ih =>
    obtain ⟨k1, v1⟩ := p
    by_cases h : k1 = k
    · simp [alookup, h, oor]
    · simp only [List.cons_append, alookup, if_neg h]
      exact ih

/-- The outputs of a block as (outpoint, output) pairs, transaction by
transaction, output index by output index. -/
def blockOutputPairs (txids : List (List Nat)) (txdata : List Transaction) :
    List (OutPoint × TxOut) :=
  ((txids.zip txdata).map fun p =>
    p.2.output.enum.map fun q => ((⟨p.1, q.1⟩ : OutPoint), q.2)).flatten

/-- Insert a list of pairs, skipping the unspendable ones. -/
def amapAddPairs (uns : List Nat → Bool) (u : List (OutPoint × TxOut))
    (ps : List (OutPoint × TxOut)) : List (OutPoint × TxOut) :=
  ps.foldl (fun u q =>
    if uns q.2.script_pubkey then u else ainsert u q.1 q.2) u

/-- Remove and collect the prevout of every input in order. -/
def amapSpend :
    List (OutPoint × TxOut) → List TxIn →
    Option (List TxOut × List (OutPoint × TxOut))
  | u, [] => some ([], u)
  | u, i :: is =>
    match alookup u i.previous_output with
    | some t =>
      (amapSpend (aerase u i.previous_output) is).map fun r => (t :: r.1, r.2)
    | none => none

/-- The reference store step: add every output of the block, then spend
the non-coinbase inputs. -/
def amapAogi (uns : List Nat → Bool) (u : List (OutPoint × TxOut)) (b : Block)
    (txids : List (List Nat)) (_height : Nat) :
    Option (List TxOut × List (OutPoint × TxOut)) :=
  amapSpend (amapAddPairs uns u (blockOutputPairs txids b.txdata))
    (inputsAfterCoinbase b)

/-- All outputs declared along the chain. -/
def chainOutputs (txidFn : Transaction → List Nat) (chain : List Block) :
    List (OutPoint × TxOut) :=
  (chain.map fun b => blockOutputPairs (b.txdata.map txidFn) b.txdata).flatten

/-- All outpoints spent by non-coinbase inputs along the chain. -/
def chainSpends (chain : List Block) : List OutPoint :=
  ((chain.map inputsAfterCoinbase).flatten).map TxIn.previous_output

/-- Key sanity of a created outpoint: a 32-byte txid and an output index
small enough to be distinct from the null-outpoint marker. -/
def WFKey (o : OutPoint) : Prop :=
  o.txid.length = 32 ∧ o.vout + 1 < 2 ^ 32

instance (o : OutPoint) : Decidable (WFKey o) := by
  unfold WFKey
  infer_instance

/-- A consensus-valid chain, as far as the UTXO bookkeeping observes it:
distinct created outpoints, distinct spends, every spend consumes an
outpoint created at or before its own block, no spend consumes an
`uns`-unspendable output, and blocks are nonempty with bounded,
well-formed outputs. -/
def ChainValid (uns : List Nat → Bool) (txidFn : Transaction → List Nat)
    (chain : List Block) : Prop :=
  ((chainOutputs txidFn chain).map Prod.fst).Nodup ∧
  (chainSpends chain).Nodup ∧
  (∀ k (hk : k < chain.length),
    ∀ inp ∈ inputsAfterCoinbase (chain.get ⟨k, hk⟩),
    inp.previous_output ∈
      (chainOutputs txidFn (chain.take (k + 1))).map Prod.fst) ∧
  (∀ p ∈ chainOutputs txidFn chain, p.1 ∈ chainSpends chain →
    uns p.2.script_pubkey = false) ∧
  (∀ b ∈ chain, b.txdata ≠ [] ∧ ∀ tx ∈ b.txdata,
    tx.output.length < 2 ^ 32 ∧ ∀ t ∈ tx.output, WFTxOut t)

/-- The reference store after `k` blocks holds exactly the outputs created
so far, minus the unspendable and the already-spent ones. -/
def AmapInv (uns : List Nat → Bool) (txidFn : Transaction → List Nat)
    (chain : List Block) (k : Nat) (u : List (OutPoint × TxOut)) : Prop :=
  KeysNodup u ∧
  ∀ o, alookup u o =
    (alookup (chainOutputs txidFn (chain.take k)) o).bind fun t =>
      if uns t.script_pubkey then none
      else if o ∈ chainSpends (chain.take k) then none else some t

theorem alookup_amapAddPairs (uns : List Nat → Bool) :
    ∀ (ps : List (OutPoint × TxOut)) (u : List (OutPoint × TxOut))
      (o : OutPoint),
    alookup (amapAddPairs uns u ps) o =
      oor (alookup (amapAddPairs uns [] ps) o) (alookup u o) := by
  intro ps
  induction ps with
  | nil => intro u o; rfl
  | cons p ps ih =>
    intro u o
    have hstep : ∀ w : List (OutPoint × TxOut), amapAddPairs uns w (p :: ps) =
        amapAddPairs uns
          (if uns p.2.script_pubkey then w else ainsert w p.1 p.2) ps :=
      fun w => rfl
    rw [hstep u, hstep []]
    rw [ih (if uns p.2.script_pubkey then u else ainsert u p.1 p.2) o]
    rw [ih (if uns p.2.script_pubkey then [] else ainsert [] p.1 p.2) o]
    rcases alookup (amapAddPairs uns [] ps) o with _ | v
    · rw [oor_none_left, oor_none_left]
      by_cases hu : uns p.2.script_pubkey
      · simp only [if_pos hu]
        rw [show alookup ([] : List (OutPoint × TxOut)) o = none from rfl,
          oor_none_left]
      · simp only [if_neg hu]
        by_cases ho : p.1 = o
        · subst ho
          rw [alookup_ainsert_self, alookup_ainsert_self]
          rfl
        · rw [alookup_ainsert_ne _ _ _ _ ho, alookup_ainsert_ne _ _ _ _ ho,
            show alookup ([] : List (OutPoint × TxOut)) o = none from rfl,
            oor_none_left]
    · rfl

theorem alookup_amapAddPairs_nomem (uns : List Nat → Bool) :
    ∀ (ps : List (OutPoint × TxOut)) (o : OutPoint),
    o ∉ ps.map Prod.fst → alookup (amapAddPairs uns [] ps) o = none := by
  intro ps
  induction ps with
  | nil => intro o _; rfl
  | cons p ps ih =>
    intro o ho
    simp only [List.map_cons, List.mem_cons, not_or] at ho
    have hstep : amapAddPairs uns [] (p :: ps) =
        amapAddPairs uns
          (if uns p.2.script_pubkey then [] else ainsert [] p.1 p.2) ps := rfl
    rw [hstep, alookup_amapAddPairs, ih o ho.2]
    by_cases hu : uns p.2.script_pubkey
    · simp [hu, oor, alookup]
    · simp only [if_neg hu]
      rw [alookup_ainsert_ne _ _ _ _ (fun he => ho.1 he.symm)]
      rfl

theorem alookup_amapAddPairs_base (uns : List Nat → Bool) :
    ∀ (ps : List (OutPoint × TxOut)), (ps.map Prod.fst).Nodup →
    ∀ o, alookup (amapAddPairs uns [] ps) o =
      (alookup ps o).bind fun t =>
        if uns t.script_pubkey then none else some t := by
  intro ps
  induction ps with
  | nil => intro _ o; rfl
  | cons p ps ih =>
    intro hnd o
    simp only [List.map_cons, List.nodup_cons] at hnd
    have hstep : amapAddPairs uns [] (p :: ps) =
        amapAddPairs uns
          (if uns p.2.script_pubkey then [] else ainsert [] p.1 p.2) ps := rfl
    rw [hstep, alookup_amapAddPairs]
    by_cases ho : p.1 = o
    · subst ho
      rw [alookup_amapAddPairs_nomem uns ps p.1 hnd.1]
      simp only [oor]
      by_cases hu : uns p.2.script_pubkey
      · simp [hu, alookup]
      · rw [if_neg hu, alookup_ainsert_self]
        simp [alookup, hu]
    · rw [ih hnd.2 o]
      have h2 : alookup (if uns p.2.script_pubkey then
          ([] : List (OutPoint × TxOut)) else ainsert [] p.1 p.2) o = none := by
        by_cases hu : uns p.2.script_pubkey
        · simp [hu, alookup]
        · rw [if_neg hu, alookup_ainsert_ne _ _ _ _ ho]
          rfl
      rw [h2, oor_none_right]
      simp only [alookup, if_neg ho]

theorem keysNodup_amapAddPairs (uns : List Nat → Bool) :
    ∀ (ps : List (OutPoint × TxOut)) (u : List (OutPoint × TxOut)),
    KeysNodup u → KeysNodup (amapAddPairs uns u ps) := by
  intro ps
  induction ps with
  | nil => intro u hu; exact hu
  | cons p ps ih =>
    intro u hu
    have hstep : amapAddPairs uns u (p :: ps) =
        amapAddPairs uns
          (if uns p.2.script_pubkey then u else ainsert u p.1 p.2) ps := rfl
    rw [hstep]
    apply ih
    by_cases hu2 : uns p.2.script_pubkey
    · simpa [hu2] using hu
    · simpa [hu2] using keysNodup_ainsert u p.1 p.2 hu

theorem amapSpend_run :
    ∀ (inputs : List TxIn) (u : List (OutPoint × TxOut)),
    KeysNodup u →
    (inputs.map fun i => i.previous_output).Nodup →
    (∀ i ∈ inputs, ∃ t, alookup u i.previous_output = some t) →
    ∃ pv u2, amapSpend u inputs = some (pv, u2) ∧
      pv.length = inputs.length ∧
      (∀ j (hj : j < inputs.length) (hp : j < pv.length),
        alookup u ((inputs.get ⟨j, hj⟩).previous_output) =
          some (pv.get ⟨j, hp⟩)) ∧
      (∀ o, alookup u2 o =
        if o ∈ inputs.map (fun i => i.previous_output) then none
        else alookup u o) ∧
      KeysNodup u2 := by
  intro inputs
  induction inputs with
  | nil =>
    intro u hnd _ _
    refine ⟨[], u, rfl, rfl, ?_, ?_, hnd⟩
    · intro j hj
      simp at hj
    · intro o
      simp
  | cons i is ih =>
    intro u hnd hins hpres
    obtain ⟨t, ht⟩ := hpres i (List.mem_cons_self i is)
    simp only [List.map_cons, List.nodup_cons] at hins
    have hpres2 : ∀ j ∈ is,
        ∃ t2, alookup (aerase u i.previous_output) j.previous_output =
          some t2 := by
      intro j hj
      obtain ⟨t2, ht2⟩ := hpres j (List.mem_cons_of_mem i hj)
      refine ⟨t2, ?_⟩
      rw [alookup_aerase_ne]
      · exact ht2
      · intro he
        apply hins.1
        rw [he]
        exact List.mem_map_of_mem _ hj
    obtain ⟨pv, u2, hrun, hlen, hget, hchar, hnd2⟩ :=
      ih (aerase u i.previous_output) (keysNodup_aerase u _ hnd) hins.2 hpres2
    refine ⟨t :: pv, u2, ?_, by simp [hlen], ?_, ?_, hnd2⟩
    · simp only [amapSpend, ht, hrun, Option.map_some']
    · intro j hj hp
      cases j with
      | zero => simpa using ht
      | succ j2 =>
        have hj2 : j2 < is.length := by simpa using hj
        have hp2 : j2 < pv.length := by simpa using hp
        have hne : i.previous_output ≠
            (is.get ⟨j2, hj2⟩).previous_output := by
          intro he
          apply hins.1
          rw [he]
          exact List.mem_map_of_mem _ (is.get_mem j2 hj2)
        have h2 := hget j2 hj2 hp2
        rw [alookup_aerase_ne u i.previous_output _ hne] at h2
        simpa using h2
    · intro o
      rw [hchar o]
      by_cases ho : o = i.previous_output
      · rw [ho]
        have h3 : (if i.previous_output ∈ is.map (fun i => i.previous_output)
            then none else alookup (aerase u i.previous_output)
              i.previous_output) = (none : Option TxOut) := by
          by_cases hm : i.previous_output ∈ is.map (fun i => i.previous_output)
          · rw [if_pos hm]
          · rw [if_neg hm, alookup_aerase_self u _ hnd]
        rw [h3, if_pos (by simp)]
      · simp only [List.map_cons, List.mem_cons]
        rw [alookup_aerase_ne u _ _ (fun he => ho he.symm)]
        by_cases hm : o ∈ is.map (fun i => i.previous_output)
        · rw [if_pos hm, if_pos (Or.inr hm)]
        · rw [if_neg hm, if_neg (by
            rintro (h | h)
            · exact ho h
            · exact hm h)]

theorem alookup_foldl_ainsert_nomem {κ α : Type} [DecidableEq κ] :
    ∀ (l : List (κ × α)) (u : List (κ × α)) (k : κ), k ∉ l.map Prod.fst →
    alookup (l.foldl (fun m p => ainsert m p.1 p.2) u) k = alookup u k := by
  intro l
  induction l with
  | nil => intro u k _; rfl
  | cons p l ih =>
    intro u k hk
    simp only [List.map_cons, List.mem_cons, not_or] at hk
    rw [List.foldl_cons, ih _ _ hk.2,
      alookup_ainsert_ne _ _ _ _ (fun he => hk.1 he.symm)]

theorem alookup_foldl_ainsert_mem {κ α : Type} [DecidableEq κ] :
    ∀ (l : List (κ × α)) (u : List (κ × α)) (k : κ) (v : α),
    (l.map Prod.fst).Nodup → (k, v) ∈ l →
    alookup (l.foldl (fun m p => ainsert m p.1 p.2) u) k = some v := by
  intro l
  induction l with
  | nil => intro u k v _ hm; cases hm
  | cons p l ih =>
    intro u k v hnd hm
    simp only [List.map_cons, List.nodup_cons] at hnd
    rcases List.mem_cons.mp hm with rfl | hm2
    · rw [List.foldl_cons,
        alookup_foldl_ainsert_nomem l _ k (by simpa using hnd.1),
        alookup_ainsert_self]
    · exact ih _ k v hnd.2 hm2

theorem chainOutputs_append (txidFn : Transaction → List Nat)
    (l1 l2 : List Block) :
    chainOutputs txidFn (l1 ++ l2) =
      chainOutputs txidFn l1 ++ chainOutputs txidFn l2 := by
  simp [chainOutputs]

theorem chainSpends_append (l1 l2 : List Block) :
    chainSpends (l1 ++ l2) = chainSpends l1 ++ chainSpends l2 := by
  simp [chainSpends]

theorem chainOutputs_take_succ (txidFn : Transaction → List Nat)
    (chain : List Block) (k : Nat) (hk : k < chain.length) :
    chainOutputs txidFn (chain.take (k + 1)) =
      chainOutputs txidFn (chain.take k) ++
        blockOutputPairs ((chain.get ⟨k, hk⟩).txdata.map txidFn)
          (chain.get ⟨k, hk⟩).txdata := by
  conv_lhs => rw [← List.take_concat_get chain k hk]
  rw [List.concat_eq_append, chainOutputs_append]
  simp [chainOutputs]

theorem chainSpends_take_succ (chain : List Block) (k : Nat)
    (hk : k < chain.length) :
    chainSpends (chain.take (k + 1)) =
      chainSpends (chain.take k) ++
        (inputsAfterCoinbase (chain.get ⟨k, hk⟩)).map TxIn.previous_output := by
  conv_lhs => rw [← List.take_concat_get chain k hk]
  rw [List.concat_eq_append, chainSpends_append]
  simp [chainSpends]

theorem chainOutputs_prefix_sub (txidFn : Transaction → List Nat)
    (chain : List Block) (m1 m2 : Nat) (h : m1 ≤ m2) (o : OutPoint)
    (hm : o ∈ (chainOutputs txidFn (chain.take m1)).map Prod.fst) :
    o ∈ (chainOutputs txidFn (chain.take m2)).map Prod.fst := by
  obtain ⟨t, ht⟩ := List.take_prefix_take_left chain h
  rw [← ht, chainOutputs_append, List.map_append]
  exact List.mem_append_left _ hm

theorem spends_sub_outputs (uns : List Nat → Bool)
    (txidFn : Transaction → List Nat) (chain : List Block)
    (hvalid : ChainValid uns txidFn chain) :
    ∀ m, m ≤ chain.length → ∀ o ∈ chainSpends (chain.take m),
      o ∈ (chainOutputs txidFn (chain.take m)).map Prod.fst := by
  intro m
  induction m with
  | zero =>
    intro _ o ho
    simp [chainSpends] at ho
  | succ m ih =>
    intro hm o ho
    have hmlt : m < chain.length := hm
    rw [chainSpends_take_succ chain m hmlt] at ho
    rcases List.mem_append.mp ho with h1 | h2
    · exact chainOutputs_prefix_sub txidFn chain m (m + 1) (Nat.le_succ m) o
        (ih (le_of_lt hmlt) o h1)
    · obtain ⟨-, -, h3, -, -⟩ := hvalid
      obtain ⟨i, hi, hio⟩ := List.mem_map.mp h2
      exact hio ▸ h3 m hmlt i hi

theorem chainOutputs_wf (uns : List Nat → Bool)
    (txidFn : Transaction → List Nat) (chain : List Block)
    (hvalid : ChainValid uns txidFn chain)
    (htxid : ∀ tx, (txidFn tx).length = 32) :
    ∀ p ∈ chainOutputs txidFn chain, WFKey p.1 ∧ WFTxOut p.2 := by
  obtain ⟨-, -, -, -, h5⟩ := hvalid
  intro p hp
  simp only [chainOutputs, List.mem_flatten, List.mem_map] at hp
  obtain ⟨l, ⟨b, hb, rfl⟩, hpl⟩ := hp
  simp only [blockOutputPairs, List.mem_flatten, List.mem_map] at hpl
  obtain ⟨l2, ⟨pr, hpr, rfl⟩, hpl2⟩ := hpl
  obtain ⟨q, hq, rfl⟩ := List.mem_map.mp hpl2
  have htx : pr.2 ∈ b.txdata := (List.of_mem_zip hpr).2
  have htid : pr.1 ∈ b.txdata.map txidFn := (List.of_mem_zip hpr).1
  obtain ⟨tx0, -, htid2⟩ := List.mem_map.mp htid
  obtain ⟨hcnt, hwf⟩ := (h5 b hb).2 pr.2 htx
  have hqlt := List.fst_lt_of_mem_enum hq
  have hqmem := List.snd_mem_of_mem_enum hq
  refine ⟨⟨?_, ?_⟩, hwf q.2 hqmem⟩
  · rw [← htid2]
    exact htxid tx0
  · show q.1 + 1 < 2 ^ 32
    omega

theorem collectBlockOutputs_eq (uns : List Nat → Bool)
    (txids : List (List Nat)) (txdata : List Transaction) :
    collectBlockOutputs uns txids txdata =
      amapAddPairs uns [] (blockOutputPairs txids txdata) := by
  unfold collectBlockOutputs amapAddPairs blockOutputPairs
  rw [List.foldl_flatten, List.foldl_map]
  congr 1
  funext m p
  rw [List.foldl_map]

theorem memAdd_eq (hash64 : OutPoint → Nat) (txids : List (List Nat))
    (txdata : List Transaction) (u : MemUtxo) :
    (txids.zip txdata).foldl
        (fun u p => MemUtxo.add_tx_outputs hash64 u p.1 p.2) u =
      (blockOutputPairs txids txdata).foldl (fun u q =>
        if isOpReturn q.2.script_pubkey then
          { u with unspendable := u.unspendable + 1 }
        else { u with map := u.map.insert hash64 q.1 q.2 }) u := by
  unfold MemUtxo.add_tx_outputs blockOutputPairs
  rw [List.foldl_flatten, List.foldl_map]
  congr 1
  funext w p
  rw [List.foldl_map]

theorem memAdd_map (hash64 : OutPoint → Nat) :
    ∀ (ps : List (OutPoint × TxOut)) (u : MemUtxo),
    (ps.foldl (fun u q =>
      if isOpReturn q.2.script_pubkey then
        { u with unspendable := u.unspendable + 1 }
      else { u with map := u.map.insert hash64 q.1 q.2 }) u).map =
      ps.foldl (fun m q =>
        if isOpReturn q.2.script_pubkey then m
        else m.insert hash64 q.1 q.2) u.map := by
  intro ps
  induction ps with
  | nil => intro u; rfl
  | cons q ps ih =>
    intro u
    rw [List.foldl_cons, List.foldl_cons, ih]
    by_cases h : isOpReturn q.2.script_pubkey
    · simp [h]
    · simp [h]

theorem alookup_mem_keys {κ α : Type} [DecidableEq κ] :
    ∀ (l : List (κ × α)) (k : κ), k ∈ l.map Prod.fst →
    ∃ v, alookup l k = some v := by
  intro l
  induction l with
  | nil => intro k hk; cases hk
  | cons p t ih =>
    intro k hk
    obtain ⟨k1, v1⟩ := p
    by_cases h : k1 = k
    · exact ⟨v1, by simp [alookup, h]⟩
    · simp only [List.map_cons, List.mem_cons] at hk
      rcases hk with hk | hk
      · exact absurd hk.symm h
      · obtain ⟨v, hv⟩ := ih k hk
        exact ⟨v, by simp [alookup, h, hv]⟩

theorem map_prev_eta (l : List TxIn) :
    (l.map fun i => i.previous_output) = l.map TxIn.previous_output := rfl

/-- The two decompositions of the chain around block `k`. -/
theorem chainOutputs_split (txidFn : Transaction → List Nat)
    (chain : List Block) (k : Nat) (hk : k < chain.length) :
    chainOutputs txidFn chain =
      (chainOutputs txidFn (chain.take k) ++
        blockOutputPairs ((chain.get ⟨k, hk⟩).txdata.map txidFn)
          (chain.get ⟨k, hk⟩).txdata) ++
        chainOutputs txidFn (chain.drop (k + 1)) := by
  have hx := congrArg (chainOutputs txidFn) (List.take_append_drop (k + 1) chain)
  rw [chainOutputs_append] at hx
  rw [← hx, chainOutputs_take_succ txidFn chain k hk]

theorem chainSpends_split (chain : List Block) (k : Nat)
    (hk : k < chain.length) :
    chainSpends chain =
      (chainSpends (chain.take k) ++
        (inputsAfterCoinbase (chain.get ⟨k, hk⟩)).map TxIn.previous_output) ++
        chainSpends (chain.drop (k + 1)) := by
  have hx := congrArg chainSpends (List.take_append_drop (k + 1) chain)
  rw [chainSpends_append] at hx
  rw [← hx, chainSpends_take_succ chain k hk]

/-- Keys of the prefix outputs and of block `k`'s outputs are disjoint and
separately duplicate-free. -/
theorem outputs_nodup_at (uns : List Nat → Bool)
    (txidFn : Transaction → List Nat) (chain : List Block)
    (hvalid : ChainValid uns txidFn chain) (k : Nat) (hk : k < chain.length) :
    ((blockOutputPairs ((chain.get ⟨k, hk⟩).txdata.map txidFn)
        (chain.get ⟨k, hk⟩).txdata).map Prod.fst).Nodup ∧
    List.Disjoint
      ((chainOutputs txidFn (chain.take k)).map Prod.fst)
      ((blockOutputPairs ((chain.get ⟨k, hk⟩).txdata.map txidFn)
        (chain.get ⟨k, hk⟩).txdata).map Prod.fst) := by
  have hsplit := chainOutputs_split txidFn chain k hk
  have hsub0 : (chainOutputs txidFn (chain.take k) ++
      blockOutputPairs ((chain.get ⟨k, hk⟩).txdata.map txidFn)
        (chain.get ⟨k, hk⟩).txdata).Sublist (chainOutputs txidFn chain) := by
    rw [hsplit]
    exact List.sublist_append_left _ _
  have hsub := hsub0.map Prod.fst
  have hnd := hvalid.1.sublist hsub
  rw [List.map_append] at hnd
  obtain ⟨-, h2, h3⟩ := List.nodup_append.mp hnd
  exact ⟨h2, h3⟩

/-- After adding block `k`'s outputs to the store, a lookup sees exactly
the outputs created in the first `k + 1` blocks, minus the unspendable
ones and the ones spent in the first `k` blocks. -/
theorem amap_u1_char (uns : List Nat → Bool)
    (txidFn : Transaction → List Nat) (chain : List Block)
    (hvalid : ChainValid uns txidFn chain) (k : Nat) (hk : k < chain.length)
    (a : List (OutPoint × TxOut)) (hinv : AmapInv uns txidFn chain k a)
    (o : OutPoint) :
    alookup (amapAddPairs uns a (blockOutputPairs
        ((chain.get ⟨k, hk⟩).txdata.map txidFn)
        (chain.get ⟨k, hk⟩).txdata)) o =
      (alookup (chainOutputs txidFn (chain.take (k + 1))) o).bind fun t =>
        if uns t.script_pubkey then none
        else if o ∈ chainSpends (chain.take k) then none else some t := by
  obtain ⟨hndbp, hdisj⟩ := outputs_nodup_at uns txidFn chain hvalid k hk
  rw [alookup_amapAddPairs uns _ a o, alookup_amapAddPairs_base uns _ hndbp o,
    hinv.2 o, chainOutputs_take_succ txidFn chain k hk, alookup_append]
  rcases hbo : alookup (blockOutputPairs
      ((chain.get ⟨k, hk⟩).txdata.map txidFn)
      (chain.get ⟨k, hk⟩).txdata) o with _ | t
  · rw [oor_none_right]
    show oor none _ = _
    rw [oor_none_left]
  · have hmem := alookup_mem _ _ _ hbo
    have hkey : o ∈ (blockOutputPairs
        ((chain.get ⟨k, hk⟩).txdata.map txidFn)
        (chain.get ⟨k, hk⟩).txdata).map Prod.fst :=
      List.mem_map_of_mem Prod.fst hmem
    have hnotpre : o ∉ (chainOutputs txidFn (chain.take k)).map Prod.fst :=
      fun hc => hdisj hc hkey
    have hnone : alookup (chainOutputs txidFn (chain.take k)) o = none :=
      alookup_eq_none _ _ hnotpre
    have hnospend : o ∉ chainSpends (chain.take k) := by
      intro hc
      exact hnotpre (spends_sub_outputs uns txidFn chain hvalid k
        (le_of_lt hk) o hc)
    rw [hnone]
    show oor (Option.bind (some t) _) (Option.bind none _) =
      Option.bind (oor none (some t)) _
    rw [oor_none_left]
    simp only [Option.some_bind, Option.none_bind, oor_none_right]
    by_cases hu : uns t.script_pubkey
    · rw [if_pos hu, if_pos hu]
    · rw [if_neg hu, if_neg hu, if_neg hnospend]

/-- Facts used by each backend's simulation step, all derived from the
invariant and chain validity: the new pairs are fresh and duplicate-free,
the spent outpoints are duplicate-free, and keys and outputs are
well-formed. -/
theorem amap_step_facts (uns : List Nat → Bool)
    (txidFn : Transaction → List Nat) (chain : List Block)
    (hvalid : ChainValid uns txidFn chain)
    (htxid : ∀ tx, (txidFn tx).length = 32) (k : Nat) (hk : k < chain.length)
    (a : List (OutPoint × TxOut)) (hinv : AmapInv uns txidFn chain k a) :
    (∀ p ∈ blockOutputPairs ((chain.get ⟨k, hk⟩).txdata.map txidFn)
        (chain.get ⟨k, hk⟩).txdata, alookup a p.1 = none) ∧
    ((blockOutputPairs ((chain.get ⟨k, hk⟩).txdata.map txidFn)
        (chain.get ⟨k, hk⟩).txdata).map Prod.fst).Nodup ∧
    ((inputsAfterCoinbase (chain.get ⟨k, hk⟩)).map fun i =>
        i.previous_output).Nodup ∧
    (∀ p ∈ blockOutputPairs ((chain.get ⟨k, hk⟩).txdata.map txidFn)
        (chain.get ⟨k, hk⟩).txdata, WFKey p.1 ∧ WFTxOut p.2) ∧
    (∀ i ∈ inputsAfterCoinbase (chain.get ⟨k, hk⟩),
      WFKey i.previous_output) := by
  obtain ⟨hndbp, hdisj⟩ := outputs_nodup_at uns txidFn chain hvalid k hk
  have hsplit := chainOutputs_split txidFn chain k hk
  have hbpfull : ∀ p ∈ blockOutputPairs
      ((chain.get ⟨k, hk⟩).txdata.map txidFn) (chain.get ⟨k, hk⟩).txdata,
      p ∈ chainOutputs txidFn chain := by
    intro p hp
    rw [hsplit]
    exact List.mem_append_left _ (List.mem_append_right _ hp)
  refine ⟨?_, hndbp, ?_, ?_, ?_⟩
  · intro p hp
    have hkey : p.1 ∈ (blockOutputPairs
        ((chain.get ⟨k, hk⟩).txdata.map txidFn)
        (chain.get ⟨k, hk⟩).txdata).map Prod.fst :=
      List.mem_map_of_mem Prod.fst hp
    have hnone : alookup (chainOutputs txidFn (chain.take k)) p.1 = none :=
      alookup_eq_none _ _ (fun hc => hdisj hc hkey)
    rw [hinv.2 p.1, hnone]
    rfl
  · rw [map_prev_eta]
    have hssplit := chainSpends_split chain k hk
    have hsub : ((inputsAfterCoinbase (chain.get ⟨k, hk⟩)).map
        TxIn.previous_output).Sublist (chainSpends chain) := by
      rw [hssplit]
      exact ((List.sublist_append_right _ _).trans
        (List.sublist_append_left _ _))
    exact hvalid.2.1.sublist hsub
  · intro p hp
    exact chainOutputs_wf uns txidFn chain hvalid htxid p (hbpfull p hp)
  · intro i hi
    have h3 := hvalid.2.2.1 k hk i hi
    have hfull : i.previous_output ∈
        (chainOutputs txidFn chain).map Prod.fst := by
      have := chainOutputs_prefix_sub txidFn chain (k + 1) chain.length
        (by omega) i.previous_output h3
      rwa [List.take_length] at this
    obtain ⟨p, hp, hpe⟩ := List.mem_map.mp hfull
    exact hpe ▸ (chainOutputs_wf uns txidFn chain hvalid htxid p hp).1

/-- The reference-store step at block `k` of a valid chain: it succeeds,
it preserves the invariant, and every returned prevout is exactly the
output the chain declared for the corresponding input. -/
theorem amap_step (uns : List Nat → Bool) (txidFn : Transaction → List Nat)
    (chain : List Block) (hvalid : ChainValid uns txidFn chain)
    (htxid : ∀ tx, (txidFn tx).length = 32)
    (k : Nat) (hk : k < chain.length) (a : List (OutPoint × TxOut))
    (hinv : AmapInv uns txidFn chain k a) :
    ∃ pv u2,
      amapAogi uns a (chain.get ⟨k, hk⟩)
        ((chain.get ⟨k, hk⟩).txdata.map txidFn) k = some (pv, u2) ∧
      AmapInv uns txidFn chain (k + 1) u2 ∧
      pv.length = (inputsAfterCoinbase (chain.get ⟨k, hk⟩)).length ∧
      ∀ j (hj : j < (inputsAfterCoinbase (chain.get ⟨k, hk⟩)).length)
        (hp : j < pv.length),
        alookup (chainOutputs txidFn chain)
          (((inputsAfterCoinbase (chain.get ⟨k, hk⟩)).get
            ⟨j, hj⟩).previous_output) = some (pv.get ⟨j, hp⟩) := by
  obtain ⟨hfresh, hndbp, hndins, hwfp, hwfi⟩ :=
    amap_step_facts uns txidFn chain hvalid htxid k hk a hinv
  have hchar := amap_u1_char uns txidFn chain hvalid k hk a hinv
  have hpres : ∀ i ∈ inputsAfterCoinbase (chain.get ⟨k, hk⟩),
      ∃ t, alookup (amapAddPairs uns a (blockOutputPairs
          ((chain.get ⟨k, hk⟩).txdata.map txidFn)
          (chain.get ⟨k, hk⟩).txdata)) i.previous_output = some t ∧
        alookup (chainOutputs txidFn chain) i.previous_output = some t := by
    intro i hi
    have h3 := hvalid.2.2.1 k hk i hi
    obtain ⟨t, ht⟩ := alookup_mem_keys _ _ h3
    have hmem := alookup_mem _ _ _ ht
    have hx := congrArg (chainOutputs txidFn)
      (List.take_append_drop (k + 1) chain)
    rw [chainOutputs_append] at hx
    have hmemfull : (i.previous_output, t) ∈ chainOutputs txidFn chain := by
      rw [← hx]
      exact List.mem_append_left _ hmem
    have hspendfull : i.previous_output ∈ chainSpends chain := by
      rw [chainSpends_split chain k hk]
      exact List.mem_append_left _ (List.mem_append_right _
        (List.mem_map_of_mem TxIn.previous_output hi))
    have huns : uns t.script_pubkey = false :=
      hvalid.2.2.2.1 (i.previous_output, t) hmemfull hspendfull
    have hnospend : i.previous_output ∉ chainSpends (chain.take k) := by
      intro hc
      have hnd := hvalid.2.1
      rw [chainSpends_split chain k hk] at hnd
      obtain ⟨hnd1, -, -⟩ := List.nodup_append.mp hnd
      obtain ⟨-, -, hdis⟩ := List.nodup_append.mp hnd1
      exact hdis hc (List.mem_map_of_mem TxIn.previous_output hi)
    have hfulllook : alookup (chainOutputs txidFn chain)
        i.previous_output = some t := by
      rw [← hx, alookup_append, ht]
      rfl
    refine ⟨t, ?_, hfulllook⟩
    rw [hchar i.previous_output, ht]
    simp [huns, hnospend]
  have hndu1 : KeysNodup (amapAddPairs uns a (blockOutputPairs
      ((chain.get ⟨k, hk⟩).txdata.map txidFn)
      (chain.get ⟨k, hk⟩).txdata)) :=
    keysNodup_amapAddPairs uns _ a hinv.1
  obtain ⟨pv, u2, hrun, hlen, hget, hchar2, hnd2⟩ :=
    amapSpend_run (inputsAfterCoinbase (chain.get ⟨k, hk⟩)) _ hndu1 hndins
      (fun i hi => ⟨(hpres i hi).choose, (hpres i hi).choose_spec.1⟩)
  refine ⟨pv, u2, hrun, ?_, hlen, ?_⟩
  · refine ⟨hnd2, ?_⟩
    intro o
    rw [hchar2 o]
    by_cases hm : o ∈ (inputsAfterCoinbase (chain.get ⟨k, hk⟩)).map
        fun i => i.previous_output
    · rw [if_pos hm]
      have hmem2 : o ∈ chainSpends (chain.take (k + 1)) := by
        rw [chainSpends_take_succ chain k hk]
        exact List.mem_append_right _ hm
      rcases hlook : alookup (chainOutputs txidFn (chain.take (k + 1))) o
        with _ | t
      · rfl
      · simp only [Option.some_bind]
        simp [hmem2]
    · rw [if_neg hm, hchar o]
      rcases hlook : alookup (chainOutputs txidFn (chain.take (k + 1))) o
        with _ | t
      · rfl
      · simp only [Option.some_bind]
        by_cases hu : uns t.script_pubkey
        · rw [if_pos hu, if_pos hu]
        · rw [if_neg hu, if_neg hu]
          have hmm : o ∈ chainSpends (chain.take (k + 1)) ↔
              o ∈ chainSpends (chain.take k) := by
            rw [chainSpends_take_succ chain k hk, List.mem_append]
            constructor
            · rintro (h | h)
              · exact h
              · exact absurd h hm
            · intro h
              exact Or.inl h
          by_cases hsp : o ∈ chainSpends (chain.take k)
          · rw [if_pos hsp, if_pos (hmm.mpr hsp)]
          · rw [if_neg hsp, if_neg (fun hc => hsp (hmm.mp hc))]
  · intro j hj hp
    have hg := hget j hj hp
    have hi := (inputsAfterCoinbase (chain.get ⟨k, hk⟩)).get_mem j hj
    obtain ⟨t, ht1, ht2⟩ := hpres _ hi
    rw [hg] at ht1
    injection ht1 with he
    rw [← he] at ht2
    exact ht2

/-- `TruncMap` faithfully represents an abstract map: every live pair is
in the exact fallback or stored compactly under its fingerprint, fallback
entries are live, fingerprint entries belong to live pairs outside the
fallback, at most one live pair outside the fallback owns each
fingerprint, and both underlying maps have distinct keys. -/
def TruncRel (hash64 : OutPoint → Nat) (a : List (OutPoint × TxOut))
    (m : TruncMap) : Prop :=
  (∀ o t, alookup a o = some t →
    alookup m.full o = some t ∨
      (alookup m.full o = none ∧
        alookup m.trunc (hash64 o) =
          some (stackScriptOfScript t.script_pubkey, t.value))) ∧
  (∀ o t, alookup m.full o = some t → alookup a o = some t) ∧
  (∀ h v, alookup m.trunc h = some v →
    ∃ o t, alookup a o = some t ∧ hash64 o = h ∧ alookup m.full o = none) ∧
  (∀ o1 o2 t1 t2, alookup a o1 = some t1 → alookup a o2 = some t2 →
    alookup m.full o1 = none → alookup m.full o2 = none →
    hash64 o1 = hash64 o2 → o1 = o2) ∧
  KeysNodup m.full ∧ KeysNodup m.trunc

theorem truncRel_insert (hash64 : OutPoint → Nat)
    (a : List (OutPoint × TxOut)) (m : TruncMap) (o : OutPoint) (t : TxOut)
    (hrel : TruncRel hash64 a m) (hfresh : alookup a o = none) :
    TruncRel hash64 (ainsert a o t) (m.insert hash64 o t) := by
  obtain ⟨r1, r2, r3, r4, rn1, rn2⟩ := hrel
  have hfnone : alookup m.full o = none := by
    rcases hf : alookup m.full o with _ | v
    · rfl
    · have h2 := r2 o v hf
      rw [hfresh] at h2
      cases h2
  rcases htr : alookup m.trunc (hash64 o) with _ | old
  · obtain ⟨htr2, hfu2⟩ := insert_parts_none hash64 m o t htr
    refine ⟨?_, ?_, ?_, ?_, ?_, ?_⟩
    · intro o2 t2 hl
      by_cases ho : o = o2
      · subst ho
        rw [alookup_ainsert_self] at hl
        injection hl with hte
        subst hte
        refine Or.inr ⟨by rw [hfu2]; exact hfnone, ?_⟩
        rw [htr2, alookup_ainsert_self]
      · rw [alookup_ainsert_ne _ _ _ _ ho] at hl
        rcases r1 o2 t2 hl with hc | ⟨hc1, hc2⟩
        · rw [hfu2]
          exact Or.inl hc
        · refine Or.inr ⟨by rw [hfu2]; exact hc1, ?_⟩
          have hne : hash64 o ≠ hash64 o2 := by
            intro he
            rw [he, hc2] at htr
            cases htr
          rw [htr2, alookup_ainsert_ne _ _ _ _ hne]
          exact hc2
    · intro o2 t2 hf2
      rw [hfu2] at hf2
      have ha2 := r2 o2 t2 hf2
      have ho : o ≠ o2 := by
        intro he
        rw [← he, hfresh] at ha2
        cases ha2
      rw [alookup_ainsert_ne _ _ _ _ ho]
      exact ha2
    · intro h v hv
      rw [htr2] at hv
      by_cases hh : hash64 o = h
      · subst hh
        exact ⟨o, t, alookup_ainsert_self _ _ _, rfl,
          by rw [hfu2]; exact hfnone⟩
      · rw [alookup_ainsert_ne _ _ _ _ hh] at hv
        obtain ⟨o3, t3, h3, h4, h5⟩ := r3 h v hv
        have ho3 : o ≠ o3 := by
          intro he
          rw [← he, hfresh] at h3
          cases h3
        exact ⟨o3, t3, by rw [alookup_ainsert_ne _ _ _ _ ho3]; exact h3, h4,
          by rw [hfu2]; exact h5⟩
    · intro o1 o2 t1 t2 h1 h2 hf1 hf2 hh
      rw [hfu2] at hf1
      rw [hfu2] at hf2
      by_cases e1 : o = o1
      · by_cases e2 : o = o2
        · rw [← e1, ← e2]
        · rw [alookup_ainsert_ne _ _ _ _ e2] at h2
          rcases r1 o2 t2 h2 with hc | ⟨-, hc2⟩
          · rw [hc] at hf2
            cases hf2
          · rw [e1, hh] at htr
            rw [htr] at hc2
            cases hc2
      · by_cases e2 : o = o2
        · rw [alookup_ainsert_ne _ _ _ _ e1] at h1
          rcases r1 o1 t1 h1 with hc | ⟨-, hc2⟩
          · rw [hc] at hf1
            cases hf1
          · rw [e2, ← hh] at htr
            rw [htr] at hc2
            cases hc2
        · rw [alookup_ainsert_ne _ _ _ _ e1] at h1
          rw [alookup_ainsert_ne _ _ _ _ e2] at h2
          exact r4 o1 o2 t1 t2 h1 h2 hf1 hf2 hh
    · rw [hfu2]
      exact rn1
    · rw [htr2]
      exact keysNodup_ainsert _ _ _ rn2
  · obtain ⟨htr2, hfu2⟩ := insert_parts_some hash64 m o t old htr
    have htr2look : ∀ h, alookup (m.insert hash64 o t).trunc h =
        if hash64 o = h then some old else alookup m.trunc h := by
      intro h
      by_cases hh : hash64 o = h
      · rw [htr2, if_pos hh, ← hh, alookup_ainsert_self]
      · rw [htr2, if_neg hh, alookup_ainsert_ne _ _ _ _ hh,
          alookup_ainsert_ne _ _ _ _ hh]
    refine ⟨?_, ?_, ?_, ?_, ?_, ?_⟩
    · intro o2 t2 hl
      by_cases ho : o = o2
      · subst ho
        rw [alookup_ainsert_self] at hl
        injection hl with hte
        subst hte
        rw [hfu2, alookup_ainsert_self]
        exact Or.inl rfl
      · rw [alookup_ainsert_ne _ _ _ _ ho] at hl
        rcases r1 o2 t2 hl with hc | ⟨hc1, hc2⟩
        · rw [hfu2, alookup_ainsert_ne _ _ _ _ ho]
          exact Or.inl hc
        · refine Or.inr
            ⟨by rw [hfu2, alookup_ainsert_ne _ _ _ _ ho]; exact hc1, ?_⟩
          rw [htr2look]
          by_cases hh : hash64 o = hash64 o2
          · rw [if_pos hh]
            rw [hh] at htr
            rw [htr] at hc2
            exact hc2
          · rw [if_neg hh]
            exact hc2
    · intro o2 t2 hf2
      rw [hfu2] at hf2
      by_cases ho : o = o2
      · rw [← ho, alookup_ainsert_self] at hf2
        rw [← ho, alookup_ainsert_self]
        exact hf2
      · rw [alookup_ainsert_ne _ _ _ _ ho] at hf2
        rw [alookup_ainsert_ne _ _ _ _ ho]
        exact r2 o2 t2 hf2
    · intro h v hv
      rw [htr2look] at hv
      by_cases hh : hash64 o = h
      · rw [if_pos hh] at hv
        obtain ⟨o3, t3, h3, h4, h5⟩ := r3 (hash64 o) old htr
        have ho3 : o ≠ o3 := by
          intro he
          rw [← he, hfresh] at h3
          cases h3
        refine ⟨o3, t3, by rw [alookup_ainsert_ne _ _ _ _ ho3]; exact h3,
          by rw [h4]; exact hh, ?_⟩
        rw [hfu2, alookup_ainsert_ne _ _ _ _ ho3]
        exact h5
      · rw [if_neg hh] at hv
        obtain ⟨o3, t3, h3, h4, h5⟩ := r3 h v hv
        have ho3 : o ≠ o3 := by
          intro he
          rw [← he, hfresh] at h3
          cases h3
        exact ⟨o3, t3, by rw [alookup_ainsert_ne _ _ _ _ ho3]; exact h3, h4,
          by rw [hfu2, alookup_ainsert_ne _ _ _ _ ho3]; exact h5⟩
    · intro o1 o2 t1 t2 h1 h2 hf1 hf2 hh
      rw [hfu2] at hf1
      rw [hfu2] at hf2
      have e1 : o ≠ o1 := by
        intro he
        rw [← he, alookup_ainsert_self] at hf1
        cases hf1
      have e2 : o ≠ o2 := by
        intro he
        rw [← he, alookup_ainsert_self] at hf2
        cases hf2
      rw [alookup_ainsert_ne _ _ _ _ e1] at h1
      rw [alookup_ainsert_ne _ _ _ _ e1] at hf1
      rw [alookup_ainsert_ne _ _ _ _ e2] at h2
      rw [alookup_ainsert_ne _ _ _ _ e2] at hf2
      exact r4 o1 o2 t1 t2 h1 h2 hf1 hf2 hh
    · rw [hfu2]
      exact keysNodup_ainsert _ _ _ rn1
    · rw [htr2]
      exact keysNodup_ainsert _ _ _ (keysNodup_ainsert _ _ _ rn2)

theorem truncRel_remove (hash64 : OutPoint → Nat)
    (a : List (OutPoint × TxOut)) (m : TruncMap) (o : OutPoint) (t : TxOut)
    (hrel : TruncRel hash64 a m) (hnda : KeysNodup a)
    (hsome : alookup a o = some t) :
    (m.remove hash64 o).1 = some t ∧
    TruncRel hash64 (aerase a o) (m.remove hash64 o).2 := by
  obtain ⟨r1, r2, r3, r4, rn1, rn2⟩ := hrel
  rcases hf : alookup m.full o with _ | v
  · rcases r1 o t hsome with hc | ⟨-, hc2⟩
    · rw [hc] at hf
      cases hf
    · have hrm : m.remove hash64 o =
          (some ⟨t.value, scriptOfStackScript
            (stackScriptOfScript t.script_pubkey)⟩,
            { m with trunc := aerase m.trunc (hash64 o) }) := by
        unfold TruncMap.remove
        rw [hf, hc2]
      rw [hrm]
      refine ⟨?_, ?_, ?_, ?_, ?_, rn1, keysNodup_aerase _ _ rn2⟩
      · show some (⟨t.value, scriptOfStackScript
          (stackScriptOfScript t.script_pubkey)⟩ : TxOut) = some t
        rw [script_stack_roundtrip]
      · intro o2 t2 hl
        have ho : o ≠ o2 := by
          intro he
          rw [← he, alookup_aerase_self a o hnda] at hl
          cases hl
        have hl2 := alookup_aerase_some a o o2 t2 hnda hl
        rcases r1 o2 t2 hl2 with hc3 | ⟨hd1, hd2⟩
        · exact Or.inl hc3
        · refine Or.inr ⟨hd1, ?_⟩
          have hne : hash64 o ≠ hash64 o2 := by
            intro he
            exact ho (r4 o o2 t t2 hsome hl2 hf hd1 he)
          show alookup (aerase m.trunc (hash64 o)) (hash64 o2) = _
          rw [alookup_aerase_ne _ _ _ hne]
          exact hd2
      · intro o2 t2 hf2
        have ho : o ≠ o2 := by
          intro he
          rw [← he] at hf2
          rw [hf] at hf2
          cases hf2
        rw [alookup_aerase_ne a o o2 ho]
        exact r2 o2 t2 hf2
      · intro h v2 hv2
        have hh : hash64 o ≠ h := by
          intro he
          rw [← he] at hv2
          have hz : alookup (aerase m.trunc (hash64 o)) (hash64 o) = none :=
            alookup_aerase_self m.trunc _ rn2
          rw [hz] at hv2
          cases hv2
        have hv3 : alookup m.trunc h = some v2 := by
          have := alookup_aerase_ne m.trunc (hash64 o) h hh
          rw [← this]
          exact hv2
        obtain ⟨o3, t3, h3, h4, h5⟩ := r3 h v2 hv3
        have ho3 : o ≠ o3 := by
          intro he
          rw [← he] at h4
          exact hh h4
        exact ⟨o3, t3, by rw [alookup_aerase_ne a o o3 ho3]; exact h3, h4, h5⟩
      · intro o1 o2 t1 t2 h1 h2 hf1 hf2 hh
        have g1 := alookup_aerase_some a o o1 t1 hnda h1
        have g2 := alookup_aerase_some a o o2 t2 hnda h2
        exact r4 o1 o2 t1 t2 g1 g2 hf1 hf2 hh
  · have hv : v = t := by
      have h2 := r2 o v hf
      rw [hsome] at h2
      injection h2 with he
      exact he.symm
    subst hv
    have hrm : m.remove hash64 o =
        (some v, { m with full := aerase m.full o }) := by
      unfold TruncMap.remove
      rw [hf]
    rw [hrm]
    refine ⟨rfl, ?_, ?_, ?_, ?_, keysNodup_aerase _ _ rn1, rn2⟩
    · intro o2 t2 hl
      have ho : o ≠ o2 := by
        intro he
        rw [← he, alookup_aerase_self a o hnda] at hl
        cases hl
      have hl2 := alookup_aerase_some a o o2 t2 hnda hl
      rcases r1 o2 t2 hl2 with hc | ⟨hd1, hd2⟩
      · refine Or.inl ?_
        show alookup (aerase m.full o) o2 = some t2
        rw [alookup_aerase_ne _ _ _ ho]
        exact hc
      · refine Or.inr ⟨?_, hd2⟩
        show alookup (aerase m.full o) o2 = none
        rw [alookup_aerase_ne _ _ _ ho]
        exact hd1
    · intro o2 t2 hf2
      have ho : o ≠ o2 := by
        intro he
        rw [← he, alookup_aerase_self m.full o rn1] at hf2
        cases hf2
      have hf3 := alookup_aerase_some m.full o o2 t2 rn1 hf2
      rw [alookup_aerase_ne a o o2 ho]
      exact r2 o2 t2 hf3
    · intro h v2 hv2
      obtain ⟨o3, t3, h3, h4, h5⟩ := r3 h v2 hv2
      have ho3 : o ≠ o3 := by
        intro he
        rw [← he] at h5
        rw [hf] at h5
        cases h5
      refine ⟨o3, t3, ?_, h4, ?_⟩
      · rw [alookup_aerase_ne a o o3 ho3]
        exact h3
      · show alookup (aerase m.full o) o3 = none
        rw [alookup_aerase_ne _ _ _ ho3]
        exact h5
    · intro o1 o2 t1 t2 h1 h2 hf1 hf2 hh
      have e1 : o ≠ o1 := by
        intro he
        rw [← he, alookup_aerase_self a o hnda] at h1
        cases h1
      have e2 : o ≠ o2 := by
        intro he
        rw [← he, alookup_aerase_self a o hnda] at h2
        cases h2
      have g1 := alookup_aerase_some a o o1 t1 hnda h1
      have g2 := alookup_aerase_some a o o2 t2 hnda h2
      rw [alookup_aerase_ne m.full o o1 e1] at hf1
      rw [alookup_aerase_ne m.full o o2 e2] at hf2
      exact r4 o1 o2 t1 t2 g1 g2 hf1 hf2 hh

theorem truncRel_addFold (hash64 : OutPoint → Nat) (uns : List Nat → Bool) :
    ∀ (ps : List (OutPoint × TxOut)) (a : List (OutPoint × TxOut))
      (m : TruncMap),
    TruncRel hash64 a m → (∀ p ∈ ps, alookup a p.1 = none) →
    (ps.map Prod.fst).Nodup →
    TruncRel hash64 (amapAddPairs uns a ps)
      (ps.foldl (fun m q =>
        if uns q.2.script_pubkey then m else m.insert hash64 q.1 q.2) m) := by
  intro ps
  induction ps with
  | nil => intro a m hrel _ _; exact hrel
  | cons p ps ih =>
    intro a m hrel hfresh hnd
    simp only [List.map_cons, List.nodup_cons] at hnd
    have hstep : amapAddPairs uns a (p :: ps) =
        amapAddPairs uns
          (if uns p.2.script_pubkey then a else ainsert a p.1 p.2) ps := rfl
    rw [hstep, List.foldl_cons]
    by_cases hu : uns p.2.script_pubkey
    · rw [if_pos hu, if_pos hu]
      exact ih a m hrel (fun q hq => hfresh q (List.mem_cons_of_mem p hq)) hnd.2
    · rw [if_neg hu, if_neg hu]
      apply ih
      · exact truncRel_insert hash64 a m p.1 p.2 hrel
          (hfresh p (List.mem_cons_self p ps))
      · intro q hq
        have hne : p.1 ≠ q.1 := by
          intro he
          exact hnd.1 (he ▸ List.mem_map_of_mem Prod.fst hq)
        rw [alookup_ainsert_ne _ _ _ _ hne]
        exact hfresh q (List.mem_cons_of_mem p hq)
      · exact hnd.2

theorem memSpendLoop_cons (hash64 : OutPoint → Nat) (m : TruncMap)
    (i : TxIn) (is : List TxIn) (t : TxOut) (mr : TruncMap)
    (h : m.remove hash64 i.previous_output = (some t, mr)) :
    memSpendLoop hash64 m (i :: is) =
      (memSpendLoop hash64 mr is).map fun r => (t :: r.1, r.2) := by
  simp only [memSpendLoop, h]

theorem memSpendLoop_sim (hash64 : OutPoint → Nat) :
    ∀ (inputs : List TxIn) (a : List (OutPoint × TxOut)) (m : TruncMap)
      (pv : List TxOut) (a2 : List (OutPoint × TxOut)),
    TruncRel hash64 a m → KeysNodup a → amapSpend a inputs = some (pv, a2) →
    ∃ m2, memSpendLoop hash64 m inputs = some (pv, m2) ∧
      TruncRel hash64 a2 m2 := by
  intro inputs
  induction inputs with
  | nil =>
    intro a m pv a2 hrel hnd habs
    simp only [amapSpend, Option.some.injEq, Prod.mk.injEq] at habs
    obtain ⟨hpv, ha2⟩ := habs
    subst hpv
    subst ha2
    exact ⟨m, rfl, hrel⟩
  | cons i is ih =>
    intro a m pv a2 hrel hnd habs
    simp only [amapSpend] at habs
    rcases hl : alookup a i.previous_output with _ | t
    · rw [hl] at habs
      cases habs
    · rw [hl] at habs
      rcases hrec : amapSpend (aerase a i.previous_output) is
        with _ | ⟨pv2, a3⟩
      · rw [hrec] at habs
        cases habs
      · rw [hrec] at habs
        simp only [Option.map_some', Option.some.injEq, Prod.mk.injEq] at habs
        obtain ⟨hpv, ha2⟩ := habs
        obtain ⟨ho1, hrel2⟩ := truncRel_remove hash64 a m
          i.previous_output t hrel hnd hl
        have hpair2 : m.remove hash64 i.previous_output =
            ((m.remove hash64 i.previous_output).1,
              (m.remove hash64 i.previous_output).2) := rfl
        rw [ho1] at hpair2
        obtain ⟨m2, hm2, hrel3⟩ := ih (aerase a i.previous_output)
          (m.remove hash64 i.previous_output).2 pv2 a3
          hrel2 (keysNodup_aerase a _ hnd) hrec
        refine ⟨m2, ?_, ?_⟩
        · rw [memSpendLoop_cons hash64 m i is t _ hpair2, hm2,
            Option.map_some', hpv]
        · rw [← ha2]
          exact hrel3

/-- The in-memory backend simulates the reference store step. -/
theorem mem_step_sim (hash64 : OutPoint → Nat)
    (txidFn : Transaction → List Nat) (chain : List Block)
    (hvalid : ChainValid isOpReturn txidFn chain)
    (htxid : ∀ tx, (txidFn tx).length = 32) (k : Nat) (hk : k < chain.length)
    (s : MemUtxo) (a : List (OutPoint × TxOut)) (pv : List TxOut)
    (a2 : List (OutPoint × TxOut))
    (hrel : TruncRel hash64 a s.map)
    (hinv : AmapInv isOpReturn txidFn chain k a)
    (habs : amapAogi isOpReturn a (chain.get ⟨k, hk⟩)
      ((chain.get ⟨k, hk⟩).txdata.map txidFn) k = some (pv, a2)) :
    ∃ s2, MemUtxo.add_outputs_get_inputs hash64 s (chain.get ⟨k, hk⟩)
        ((chain.get ⟨k, hk⟩).txdata.map txidFn) k = some (pv, s2) ∧
      TruncRel hash64 a2 s2.map := by
  obtain ⟨hfresh, hndbp, -, -, -⟩ :=
    amap_step_facts isOpReturn txidFn chain hvalid htxid k hk a hinv
  have hrel1 := truncRel_addFold hash64 isOpReturn
    (blockOutputPairs ((chain.get ⟨k, hk⟩).txdata.map txidFn)
      (chain.get ⟨k, hk⟩).txdata) a s.map hrel hfresh hndbp
  have hndu1 : KeysNodup (amapAddPairs isOpReturn a (blockOutputPairs
      ((chain.get ⟨k, hk⟩).txdata.map txidFn) (chain.get ⟨k, hk⟩).txdata)) :=
    keysNodup_amapAddPairs isOpReturn _ a hinv.1
  have habs2 : amapSpend (amapAddPairs isOpReturn a (blockOutputPairs
      ((chain.get ⟨k, hk⟩).txdata.map txidFn) (chain.get ⟨k, hk⟩).txdata))
      (inputsAfterCoinbase (chain.get ⟨k, hk⟩)) = some (pv, a2) := habs
  obtain ⟨m2, hm2, hrel2⟩ := memSpendLoop_sim hash64
    (inputsAfterCoinbase (chain.get ⟨k, hk⟩)) _ _ pv a2 hrel1 hndu1 habs2
  have hflat : ((((chain.get ⟨k, hk⟩).txdata.map txidFn).zip
      (chain.get ⟨k, hk⟩).txdata).foldl
        (fun u p => u.add_tx_outputs hash64 p.1 p.2) s).map =
      (blockOutputPairs ((chain.get ⟨k, hk⟩).txdata.map txidFn)
        (chain.get ⟨k, hk⟩).txdata).foldl (fun m q =>
          if isOpReturn q.2.script_pubkey then m
          else m.insert hash64 q.1 q.2) s.map := by
    rw [memAdd_eq hash64 _ _ s]
    exact memAdd_map hash64 _ s
  refine ⟨{ (((chain.get ⟨k, hk⟩).txdata.map txidFn).zip
      (chain.get ⟨k, hk⟩).txdata).foldl
        (fun u p => u.add_tx_outputs hash64 p.1 p.2) s with map := m2 },
    ?_, hrel2⟩
  simp only [MemUtxo.add_outputs_get_inputs]
  rw [hflat, hm2]

theorem encOutPoint_inj (o1 o2 : OutPoint) (h1 : WFKey o1) (h2 : WFKey o2)
    (he : encOutPoint o1 = encOutPoint o2) : o1 = o2 := by
  unfold encOutPoint at he
  have hlen : o1.txid.length = o2.txid.length := by
    rw [h1.1, h2.1]
  obtain ⟨ht, hv⟩ := List.append_inj he hlen
  have hb1 : o1.vout < 2 ^ (8 * 4) := by
    have := h1.2
    omega
  have hb2 : o2.vout < 2 ^ (8 * 4) := by
    have := h2.2
    omega
  have hvv : o1.vout = o2.vout := by
    have := congrArg leToNat hv
    rwa [leToNat_natToLe 4 o1.vout hb1, leToNat_natToLe 4 o2.vout hb2] at this
  obtain ⟨t1, v1⟩ := o1
  obtain ⟨t2, v2⟩ := o2
  simp only at ht hvv
  rw [ht, hvv]

theorem serializeOutpoint_inj (o1 o2 : OutPoint) (h1 : WFKey o1)
    (h2 : WFKey o2) (he : serializeOutpoint o1 = serializeOutpoint o2) :
    o1 = o2 := by
  unfold serializeOutpoint at he
  injection he with _ he2
  exact encOutPoint_inj o1 o2 h1 h2 he2

theorem prevKey_ne_serKey (h0 : Nat) (o : OutPoint) :
    serializePrevoutsHeight h0 ≠ serializeOutpoint o := by
  intro he
  unfold serializePrevoutsHeight serializeOutpoint at he
  injection he with hh _
  exact absurd hh (by decide)

theorem heightKey_ne_serKey (o : OutPoint) :
    heightKey ≠ serializeOutpoint o := by
  intro he
  unfold heightKey serializeOutpoint at he
  injection he with hh _
  exact absurd hh (by decide)

theorem alookup_of_mem_nodup {κ α : Type} [DecidableEq κ] :
    ∀ (l : List (κ × α)) (k : κ) (v : α), KeysNodup l → (k, v) ∈ l →
    alookup l k = some v := by
  intro l
  induction l with
  | nil => intro k v _ hm; cases hm
  | cons p t ih =>
    intro k v hnd hm
    simp only [KeysNodup, List.map_cons, List.nodup_cons] at hnd
    rcases List.mem_cons.mp hm with rfl | hm2
    · simp [alookup]
    · have hne : p.1 ≠ k := by
        intro he
        exact hnd.1 (he ▸ List.mem_map_of_mem Prod.fst hm2)
      simp only [alookup]
      rw [if_neg hne]
      exact ih k v hnd.2 hm2

theorem oor_map {α β : Type} (f : α → β) (x y : Option α) :
    Option.map f (oor x y) = oor (Option.map f x) (Option.map f y) := by
  cases x <;> rfl

/-- Erasing a list of well-formed keys through an injective key encoding. -/
theorem aeraseKeyFold_char (key : OutPoint → List Nat)
    (hinj : ∀ o1 o2, WFKey o1 → WFKey o2 → key o1 = key o2 → o1 = o2) :
    ∀ (sp : List OutPoint) (dbl : List (List Nat × List Nat)),
    KeysNodup dbl → (∀ o ∈ sp, WFKey o) →
    KeysNodup (sp.foldl (fun d o => aerase d (key o)) dbl) ∧
    ∀ o, WFKey o →
      alookup (sp.foldl (fun d o => aerase d (key o)) dbl) (key o) =
        if o ∈ sp then none else alookup dbl (key o) := by
  intro sp
  induction sp with
  | nil =>
    intro dbl hnd _
    refine ⟨hnd, ?_⟩
    intro o _
    simp
  | cons o0 sp ih =>
    intro dbl hnd hwf
    obtain ⟨ihnd, ichar⟩ := ih (aerase dbl (key o0))
      (keysNodup_aerase _ _ hnd) (fun o ho => hwf o (List.mem_cons_of_mem _ ho))
    refine ⟨ihnd, ?_⟩
    intro o hwo
    rw [List.foldl_cons, ichar o hwo]
    by_cases hm : o ∈ sp
    · rw [if_pos hm, if_pos (List.mem_cons_of_mem _ hm)]
    · rw [if_neg hm]
      by_cases ho : o = o0
      · rw [if_pos (by rw [ho]; exact List.mem_cons_self _ _)]
        rw [ho, alookup_aerase_self _ _ hnd]
      · have hk : key o0 ≠ key o := by
          intro he
          exact ho (hinj o0 o (hwf o0 (List.mem_cons_self _ _)) hwo he).symm
        rw [alookup_aerase_ne _ _ _ hk,
          if_neg (by
            intro hc
            rcases List.mem_cons.mp hc with hc1 | hc2
            · exact ho hc1
            · exact hm hc2)]

/-- Inserting the encoded pairs of an association list through an
injective key encoding. -/
theorem ainsertKeyFold_char (key : OutPoint → List Nat)
    (hinj : ∀ o1 o2, WFKey o1 → WFKey o2 → key o1 = key o2 → o1 = o2) :
    ∀ (ps : List (OutPoint × TxOut)) (dbl : List (List Nat × List Nat)),
    KeysNodup dbl → (∀ p ∈ ps, WFKey p.1) → KeysNodup ps →
    KeysNodup (ps.foldl
      (fun d p => ainsert d (key p.1) (encTxOut p.2)) dbl) ∧
    ∀ o, WFKey o →
      alookup (ps.foldl
          (fun d p => ainsert d (key p.1) (encTxOut p.2)) dbl) (key o) =
        oor (Option.map encTxOut (alookup ps o)) (alookup dbl (key o)) := by
  intro ps
  induction ps with
  | nil =>
    intro dbl hnd _ _
    refine ⟨hnd, ?_⟩
    intro o _
    rfl
  | cons p ps ih =>
    intro dbl hnd hwf hndp
    simp only [KeysNodup, List.map_cons, List.nodup_cons] at hndp
    obtain ⟨ihnd, ichar⟩ := ih (ainsert dbl (key p.1) (encTxOut p.2))
      (keysNodup_ainsert _ _ _ hnd)
      (fun q hq => hwf q (List.mem_cons_of_mem _ hq)) hndp.2
    refine ⟨ihnd, ?_⟩
    intro o hwo
    rw [List.foldl_cons, ichar o hwo]
    by_cases ho : o = p.1
    · have hnone : alookup ps o = none :=
        alookup_eq_none _ _ (by rw [ho]; exact hndp.1)
      have hcons : alookup (p :: ps) o = some p.2 := by
        rw [ho]
        simp [alookup]
      rw [hnone, hcons, ho, alookup_ainsert_self]
      rfl
    · have hk : key p.1 ≠ key o := by
        intro he
        exact ho (hinj p.1 o (hwf p (List.mem_cons_self _ _)) hwo he).symm
      have hcons : alookup (p :: ps) o = alookup ps o := by
        simp only [alookup]
        rw [if_neg (fun he => ho he.symm)]
      rw [alookup_ainsert_ne _ _ _ _ hk, hcons]

theorem applyBatch_append (dbl : List (List Nat × List Nat))
    (l1 l2 : List BatchOp) :
    applyBatch dbl (l1 ++ l2) = applyBatch (applyBatch dbl l1) l2 := by
  unfold applyBatch
  rw [List.foldl_append]

theorem applyBatch_deletes (dbl : List (List Nat × List Nat))
    (sp : List OutPoint) :
    applyBatch dbl (sp.map fun o => BatchOp.delete (serializeOutpoint o)) =
      sp.foldl (fun d o => aerase d (serializeOutpoint o)) dbl := by
  unfold applyBatch
  rw [List.foldl_map]

theorem applyBatch_puts (dbl : List (List Nat × List Nat))
    (ps : List (OutPoint × TxOut)) :
    applyBatch dbl (dbPuts ps) =
      ps.foldl
        (fun d p => ainsert d (serializeOutpoint p.1) (encTxOut p.2)) dbl := by
  unfold applyBatch dbPuts
  rw [List.foldl_map]

theorem dbSpendLoop_cons_bo (dbl : List (List Nat × List Nat)) (i : TxIn)
    (is : List TxIn) (bo : List (OutPoint × TxOut)) (v : TxOut)
    (h : alookup bo i.previous_output = some v) :
    dbSpendLoop dbl (i :: is) bo =
      (dbSpendLoop dbl is (aerase bo i.previous_output)).map
        fun r => (v :: r.1, r.2.1, r.2.2) := by
  simp only [dbSpendLoop, h]

theorem dbSpendLoop_cons_store (dbl : List (List Nat × List Nat)) (i : TxIn)
    (is : List TxIn) (bo : List (OutPoint × TxOut)) (bytes : List Nat)
    (t : TxOut) (h1 : alookup bo i.previous_output = none)
    (h2 : alookup dbl (serializeOutpoint i.previous_output) = some bytes)
    (h3 : deserializeTxOut bytes = some t) :
    dbSpendLoop dbl (i :: is) bo =
      (dbSpendLoop dbl is bo).map fun r =>
        (t :: r.1, r.2.1,
          BatchOp.delete (serializeOutpoint i.previous_output) :: r.2.2) := by
  simp only [dbSpendLoop, h1, h2, h3]

/-- The rocksdb input loop follows the reference spend loop: the in-block
map handles block-local spends, the store (with deferred deletes) handles
the rest. -/
theorem dbSpendLoop_sim (dbl : List (List Nat × List Nat))
    (a : List (OutPoint × TxOut))
    (hstore : ∀ o, WFKey o → alookup dbl (serializeOutpoint o) =
      Option.map encTxOut (alookup a o))
    (hwfa : ∀ o t, alookup a o = some t → WFTxOut t) :
    ∀ (inputs : List TxIn) (u bo : List (OutPoint × TxOut))
      (spent : List OutPoint) (pv : List TxOut)
      (u2 : List (OutPoint × TxOut)),
    KeysNodup u → KeysNodup bo →
    (∀ o, alookup u o = oor (alookup bo o)
      (if o ∈ spent then none else alookup a o)) →
    (∀ o v, alookup bo o = some v → alookup a o = none) →
    (∀ i ∈ inputs, WFKey i.previous_output) →
    amapSpend u inputs = some (pv, u2) →
    ∃ bo2 spentAdd,
      dbSpendLoop dbl inputs bo = some (pv, bo2,
        spentAdd.map fun o => BatchOp.delete (serializeOutpoint o)) ∧
      KeysNodup bo2 ∧
      (∀ o, alookup u2 o = oor (alookup bo2 o)
        (if o ∈ spent ++ spentAdd then none else alookup a o)) ∧
      (∀ o v, alookup bo2 o = some v → alookup bo o = some v) ∧
      (∀ o ∈ spentAdd, WFKey o) := by
  intro inputs
  induction inputs with
  | nil =>
    intro u bo spent pv u2 hndu hndbo hchar hboa _ habs
    simp only [amapSpend, Option.some.injEq, Prod.mk.injEq] at habs
    obtain ⟨hpv, hu2⟩ := habs
    subst hpv
    subst hu2
    refine ⟨bo, [], rfl, hndbo, ?_, fun o v h => h, fun o ho => absurd ho
      (List.not_mem_nil o)⟩
    intro o
    rw [List.append_nil]
    exact hchar o
  | cons i is ih =>
    intro u bo spent pv u2 hndu hndbo hchar hboa hwfin habs
    simp only [amapSpend] at habs
    rcases hl : alookup u i.previous_output with _ | t
    · rw [hl] at habs
      cases habs
    · rw [hl] at habs
      rcases hrec : amapSpend (aerase u i.previous_output) is
        with _ | ⟨pv2, u3⟩
      · rw [hrec] at habs
        cases habs
      · rw [hrec] at habs
        simp only [Option.map_some', Option.some.injEq, Prod.mk.injEq] at habs
        obtain ⟨hpv, hu2⟩ := habs
        have hcharI := hchar i.previous_output
        rw [hl] at hcharI
        rcases hbo : alookup bo i.previous_output with _ | v
        · rw [hbo, oor_none_left] at hcharI
          have hnsp : i.previous_output ∉ spent := by
            intro hc
            rw [if_pos hc] at hcharI
            cases hcharI
          rw [if_neg hnsp] at hcharI
          have ha : alookup a i.previous_output = some t := hcharI.symm
          have hwfi := hwfin i (List.mem_cons_self i is)
          have hstore2 : alookup dbl (serializeOutpoint i.previous_output) =
              some (encTxOut t) := by
            rw [hstore i.previous_output hwfi, ha]
            rfl
          have hdec : deserializeTxOut (encTxOut t) = some t :=
            deserializeTxOut_enc t (hwfa _ _ ha)
          have hchar2 : ∀ o, alookup (aerase u i.previous_output) o =
              oor (alookup bo o)
                (if o ∈ spent ++ [i.previous_output] then none
                  else alookup a o) := by
            intro o
            by_cases ho : o = i.previous_output
            · rw [ho, alookup_aerase_self u _ hndu, hbo, oor_none_left,
                if_pos (List.mem_append_right _ (List.mem_singleton.mpr rfl))]
            · rw [alookup_aerase_ne u _ _ (fun he => ho he.symm), hchar o]
              have hiff : o ∈ spent ++ [i.previous_output] ↔ o ∈ spent := by
                rw [List.mem_append, List.mem_singleton]
                constructor
                · rintro (h | h)
                  · exact h
                  · exact absurd h ho
                · intro h
                  exact Or.inl h
              by_cases hsp : o ∈ spent
              · rw [if_pos hsp, if_pos (hiff.mpr hsp)]
              · rw [if_neg hsp, if_neg (fun hc => hsp (hiff.mp hc))]
          obtain ⟨bo2, spentAdd, hrun2, hnd2, hchar3, hsub2, hwf2⟩ :=
            ih (aerase u i.previous_output) bo
              (spent ++ [i.previous_output]) pv2 u3
              (keysNodup_aerase u _ hndu) hndbo hchar2 hboa
              (fun j hj => hwfin j (List.mem_cons_of_mem i hj)) hrec
          refine ⟨bo2, i.previous_output :: spentAdd, ?_, hnd2, ?_, hsub2, ?_⟩
          · rw [dbSpendLoop_cons_store dbl i is bo _ t hbo hstore2 hdec,
              hrun2, Option.map_some', List.map_cons, hpv]
          · intro o
            rw [← hu2, hchar3 o]
            have heq : (spent ++ [i.previous_output]) ++ spentAdd =
                spent ++ i.previous_output :: spentAdd := by
              rw [List.append_assoc, List.singleton_append]
            rw [heq]
          · intro o ho
            rcases List.mem_cons.mp ho with rfl | ho2
            · exact hwfin i (List.mem_cons_self i is)
            · exact hwf2 o ho2
        · rw [hbo] at hcharI
          have htv : t = v := by
            injection hcharI
          subst htv
          have hchar2 : ∀ o, alookup (aerase u i.previous_output) o =
              oor (alookup (aerase bo i.previous_output) o)
                (if o ∈ spent then none else alookup a o) := by
            intro o
            by_cases ho : o = i.previous_output
            · rw [ho, alookup_aerase_self u _ hndu,
                alookup_aerase_self bo _ hndbo, oor_none_left,
                hboa i.previous_output t hbo]
              by_cases hsp : i.previous_output ∈ spent
              · rw [if_pos hsp]
              · rw [if_neg hsp]
            · rw [alookup_aerase_ne u _ _ (fun he => ho he.symm),
                alookup_aerase_ne bo _ _ (fun he => ho he.symm)]
              exact hchar o
          obtain ⟨bo2, spentAdd, hrun2, hnd2, hchar3, hsub2, hwf2⟩ :=
            ih (aerase u i.previous_output) (aerase bo i.previous_output)
              spent pv2 u3 (keysNodup_aerase u _ hndu)
              (keysNodup_aerase bo _ hndbo) hchar2
              (fun o v2 h => hboa o v2 (alookup_aerase_some bo _ o v2 hndbo h))
              (fun j hj => hwfin j (List.mem_cons_of_mem i hj)) hrec
          refine ⟨bo2, spentAdd, ?_, hnd2, ?_, ?_, hwf2⟩
          · rw [dbSpendLoop_cons_bo dbl i is bo t hbo, hrun2,
              Option.map_some', hpv]
          · intro o
            rw [← hu2]
            exact hchar3 o
          · intro o v2 h
            exact alookup_aerase_some bo _ o v2 hndbo (hsub2 o v2 h)

/-- The rocksdb store faithfully represents the abstract map: a fresh
store (its recorded processed height stays −1 while computing) holds one
serialized-output entry per live outpoint under its prefixed key, and all
live pairs are well-formed. -/
def DbRel (a : List (OutPoint × TxOut)) (d : DbUtxo) : Prop :=
  KeysNodup d.db ∧ d.updated_up_to_height = -1 ∧
  (∀ o, WFKey o → alookup d.db (serializeOutpoint o) =
    Option.map encTxOut (alookup a o)) ∧
  (∀ o t, alookup a o = some t → WFTxOut t ∧ WFKey o)

/-- The rocksdb backend simulates the reference store step. -/
theorem db_step_sim (txidFn : Transaction → List Nat) (chain : List Block)
    (hvalid : ChainValid isOpReturn txidFn chain)
    (htxid : ∀ tx, (txidFn tx).length = 32) (k : Nat) (hk : k < chain.length)
    (d : DbUtxo) (a : List (OutPoint × TxOut)) (pv : List TxOut)
    (a2 : List (OutPoint × TxOut))
    (hrel : DbRel a d) (hinv : AmapInv isOpReturn txidFn chain k a)
    (habs : amapAogi isOpReturn a (chain.get ⟨k, hk⟩)
      ((chain.get ⟨k, hk⟩).txdata.map txidFn) k = some (pv, a2)) :
    ∃ d2, DbUtxo.add_outputs_get_inputs d (chain.get ⟨k, hk⟩)
        ((chain.get ⟨k, hk⟩).txdata.map txidFn) k = some (pv, d2) ∧
      DbRel a2 d2 := by
  obtain ⟨hnddb, hupd, hstore, hwfa⟩ := hrel
  obtain ⟨hfresh, hndbp, -, hwfp, hwfi⟩ :=
    amap_step_facts isOpReturn txidFn chain hvalid htxid k hk a hinv
  have hlt : d.updated_up_to_height < ((k : Nat) : Int) := by
    rw [hupd]
    omega
  have hbo0eq := collectBlockOutputs_eq isOpReturn
    ((chain.get ⟨k, hk⟩).txdata.map txidFn) (chain.get ⟨k, hk⟩).txdata
  have hndbo : KeysNodup (collectBlockOutputs isOpReturn ((chain.get ⟨k, hk⟩).txdata.map txidFn) (chain.get ⟨k, hk⟩).txdata) := by
    rw [hbo0eq]
    exact keysNodup_amapAddPairs isOpReturn _ [] (by simp [KeysNodup])
  have hbolook : ∀ o v, alookup (collectBlockOutputs isOpReturn ((chain.get ⟨k, hk⟩).txdata.map txidFn) (chain.get ⟨k, hk⟩).txdata) o = some v → (o, v) ∈ (blockOutputPairs ((chain.get ⟨k, hk⟩).txdata.map txidFn) (chain.get ⟨k, hk⟩).txdata) := by
    intro o v h
    rw [hbo0eq, alookup_amapAddPairs_base isOpReturn _ hndbp o] at h
    rcases hbp : alookup (blockOutputPairs ((chain.get ⟨k, hk⟩).txdata.map txidFn) (chain.get ⟨k, hk⟩).txdata) o with _ | t
    · rw [hbp] at h
      cases h
    · rw [hbp] at h
      simp only [Option.some_bind] at h
      by_cases hu : isOpReturn t.script_pubkey
      · rw [if_pos hu] at h
        cases h
      · rw [if_neg hu] at h
        injection h with he
        rw [← he]
        exact alookup_mem _ _ _ hbp
  have hboa : ∀ o v, alookup (collectBlockOutputs isOpReturn ((chain.get ⟨k, hk⟩).txdata.map txidFn) (chain.get ⟨k, hk⟩).txdata) o = some v → alookup a o = none := by
    intro o v h
    exact hfresh (o, v) (hbolook o v h)
  have hchar0 : ∀ o, alookup (amapAddPairs isOpReturn a (blockOutputPairs ((chain.get ⟨k, hk⟩).txdata.map txidFn) (chain.get ⟨k, hk⟩).txdata)) o =
      oor (alookup (collectBlockOutputs isOpReturn ((chain.get ⟨k, hk⟩).txdata.map txidFn) (chain.get ⟨k, hk⟩).txdata) o)
        (if o ∈ ([] : List OutPoint) then none else alookup a o) := by
    intro o
    rw [if_neg (List.not_mem_nil o), alookup_amapAddPairs isOpReturn _ a o,
      ← hbo0eq]
  have hndu1 : KeysNodup (amapAddPairs isOpReturn a (blockOutputPairs ((chain.get ⟨k, hk⟩).txdata.map txidFn) (chain.get ⟨k, hk⟩).txdata)) :=
    keysNodup_amapAddPairs isOpReturn _ a hinv.1
  obtain ⟨bo2, spentAdd, hrun, hndbo2, hchar2, hsub2, hwfsp⟩ :=
    dbSpendLoop_sim d.db a hstore (fun o t h => (hwfa o t h).1)
      (inputsAfterCoinbase (chain.get ⟨k, hk⟩)) (amapAddPairs isOpReturn a (blockOutputPairs ((chain.get ⟨k, hk⟩).txdata.map txidFn) (chain.get ⟨k, hk⟩).txdata)) (collectBlockOutputs isOpReturn ((chain.get ⟨k, hk⟩).txdata.map txidFn) (chain.get ⟨k, hk⟩).txdata) [] pv a2 hndu1 hndbo hchar0 hboa hwfi habs
  have hbo2pair : ∀ o v, alookup bo2 o = some v → (o, v) ∈ (blockOutputPairs ((chain.get ⟨k, hk⟩).txdata.map txidFn) (chain.get ⟨k, hk⟩).txdata) :=
    fun o v h => hbolook o v (hsub2 o v h)
  have hwfbo2 : ∀ p ∈ bo2, WFKey p.1 := by
    intro p hp
    have hl := alookup_of_mem_nodup bo2 p.1 p.2 hndbo2 hp
    exact (hwfp _ (hbo2pair p.1 p.2 hl)).1
  obtain ⟨hndD, hcharD⟩ := aeraseKeyFold_char serializeOutpoint
    serializeOutpoint_inj spentAdd d.db hnddb hwfsp
  obtain ⟨hndP, hcharP⟩ := ainsertKeyFold_char serializeOutpoint
    serializeOutpoint_inj bo2 (spentAdd.foldl (fun d o => aerase d (serializeOutpoint o)) d.db) hndD hwfbo2 hndbo2
  have hcharF : ∀ o, WFKey o →
      alookup (applyBatch d.db (spentAdd.map (fun o => BatchOp.delete (serializeOutpoint o)) ++ dbPuts bo2 ++ (if pv.isEmpty then [] else [BatchOp.put (serializePrevoutsHeight k) (encTxOuts pv)]) ++ [BatchOp.put heightKey (natToLe 4 k)])) (serializeOutpoint o) =
        Option.map encTxOut (alookup a2 o) := by
    intro o hwo
    have hD : ∀ X : List (List Nat × List Nat),
        alookup (applyBatch X [BatchOp.put heightKey (natToLe 4 k)])
          (serializeOutpoint o) = alookup X (serializeOutpoint o) := by
      intro X
      show alookup (ainsert X heightKey (natToLe 4 k)) _ = _
      exact alookup_ainsert_ne _ _ _ _ (heightKey_ne_serKey o)
    have hC : ∀ X : List (List Nat × List Nat),
        alookup (applyBatch X (if pv.isEmpty then [] else
          [BatchOp.put (serializePrevoutsHeight k) (encTxOuts pv)]))
          (serializeOutpoint o) = alookup X (serializeOutpoint o) := by
      intro X
      by_cases hemp : pv.isEmpty
      · rw [if_pos hemp]
        rfl
      · rw [if_neg hemp]
        show alookup (ainsert X (serializePrevoutsHeight k) (encTxOuts pv))
          _ = _
        exact alookup_ainsert_ne _ _ _ _ (prevKey_ne_serKey k o)
    simp only [applyBatch_append]
    rw [applyBatch_deletes, applyBatch_puts, hD, hC, hcharP o hwo,
      hcharD o hwo, hstore o hwo, hchar2 o, List.nil_append, oor_map]
    have hmif : Option.map encTxOut
        (if o ∈ spentAdd then none else alookup a o) =
        (if o ∈ spentAdd then none
          else Option.map encTxOut (alookup a o)) := by
      by_cases hsp : o ∈ spentAdd
      · rw [if_pos hsp, if_pos hsp]
        rfl
      · rw [if_neg hsp, if_neg hsp]
    rw [hmif]
  have hndF : KeysNodup (applyBatch d.db (spentAdd.map (fun o => BatchOp.delete (serializeOutpoint o)) ++ dbPuts bo2 ++ (if pv.isEmpty then [] else [BatchOp.put (serializePrevoutsHeight k) (encTxOuts pv)]) ++ [BatchOp.put heightKey (natToLe 4 k)])) := by
    simp only [applyBatch_append]
    rw [applyBatch_deletes, applyBatch_puts]
    have h3 : KeysNodup (applyBatch (bo2.foldl (fun d p => ainsert d (serializeOutpoint p.1) (encTxOut p.2)) (spentAdd.foldl (fun d o => aerase d (serializeOutpoint o)) d.db))
        (if pv.isEmpty then [] else
          [BatchOp.put (serializePrevoutsHeight k) (encTxOuts pv)])) := by
      by_cases hemp : pv.isEmpty
      · rw [if_pos hemp]
        exact hndP
      · rw [if_neg hemp]
        exact keysNodup_ainsert _ _ _ hndP
    exact keysNodup_ainsert _ _ _ h3
  have hwfa2 : ∀ o t, alookup a2 o = some t → WFTxOut t ∧ WFKey o := by
    intro o t h
    rw [hchar2 o, List.nil_append] at h
    rcases hb2 : alookup bo2 o with _ | v
    · rw [hb2, oor_none_left] at h
      by_cases hsp : o ∈ spentAdd
      · rw [if_pos hsp] at h
        cases h
      · rw [if_neg hsp] at h
        exact hwfa o t h
    · rw [hb2] at h
      have htv : v = t := by injection h
      subst htv
      have hp := hwfp _ (hbo2pair o v hb2)
      exact ⟨hp.2, hp.1⟩
  refine ⟨{ d with
    db := applyBatch d.db (spentAdd.map (fun o => BatchOp.delete (serializeOutpoint o)) ++ dbPuts bo2 ++ (if pv.isEmpty then [] else [BatchOp.put (serializePrevoutsHeight k) (encTxOuts pv)]) ++ [BatchOp.put heightKey (natToLe 4 k)]),
    inserted_outputs := d.inserted_outputs + bo2.length }, ?_,
    hndF, hupd, hcharF, hwfa2⟩
  simp only [DbUtxo.add_outputs_get_inputs]
  rw [if_pos hlt, hrun]

theorem redbSpendLoop_cons_bo (utx : List (List Nat × List Nat)) (i : TxIn)
    (is : List TxIn) (bo : List (OutPoint × TxOut)) (v : TxOut)
    (h : alookup bo i.previous_output = some v) :
    redbSpendLoop utx (i :: is) bo =
      (redbSpendLoop utx is (aerase bo i.previous_output)).map
        fun r => (v :: r.1, r.2.1, r.2.2) := by
  simp only [redbSpendLoop, h]

theorem redbSpendLoop_cons_store (utx : List (List Nat × List Nat))
    (i : TxIn) (is : List TxIn) (bo : List (OutPoint × TxOut))
    (bytes : List Nat) (t : TxOut) (h1 : alookup bo i.previous_output = none)
    (h2 : alookup utx (encOutPoint i.previous_output) = some bytes)
    (h3 : deserializeTxOut bytes = some t) :
    redbSpendLoop utx (i :: is) bo =
      (redbSpendLoop utx is bo).map fun r =>
        (t :: r.1, r.2.1, encOutPoint i.previous_output :: r.2.2) := by
  simp only [redbSpendLoop, h1, h2, h3]

/-- The redb input loop follows the reference spend loop. -/
theorem redbSpendLoop_sim (utx : List (List Nat × List Nat))
    (a : List (OutPoint × TxOut))
    (hstore : ∀ o, WFKey o → alookup utx (encOutPoint o) =
      Option.map encTxOut (alookup a o))
    (hwfa : ∀ o t, alookup a o = some t → WFTxOut t) :
    ∀ (inputs : List TxIn) (u bo : List (OutPoint × TxOut))
      (spent : List OutPoint) (pv : List TxOut)
      (u2 : List (OutPoint × TxOut)),
    KeysNodup u → KeysNodup bo →
    (∀ o, alookup u o = oor (alookup bo o)
      (if o ∈ spent then none else alookup a o)) →
    (∀ o v, alookup bo o = some v → alookup a o = none) →
    (∀ i ∈ inputs, WFKey i.previous_output) →
    amapSpend u inputs = some (pv, u2) →
    ∃ bo2 spentAdd,
      redbSpendLoop utx inputs bo = some (pv, bo2,
        spentAdd.map encOutPoint) ∧
      KeysNodup bo2 ∧
      (∀ o, alookup u2 o = oor (alookup bo2 o)
        (if o ∈ spent ++ spentAdd then none else alookup a o)) ∧
      (∀ o v, alookup bo2 o = some v → alookup bo o = some v) ∧
      (∀ o ∈ spentAdd, WFKey o) := by
  intro inputs
  induction inputs with
  | nil =>
    intro u bo spent pv u2 hndu hndbo hchar hboa _ habs
    simp only [amapSpend, Option.some.injEq, Prod.mk.injEq] at habs
    obtain ⟨hpv, hu2⟩ := habs
    subst hpv
    subst hu2
    refine ⟨bo, [], rfl, hndbo, ?_, fun o v h => h, fun o ho => absurd ho
      (List.not_mem_nil o)⟩
    intro o
    rw [List.append_nil]
    exact hchar o
  | cons i is ih =>
    intro u bo spent pv u2 hndu hndbo hchar hboa hwfin habs
    simp only [amapSpend] at habs
    rcases hl : alookup u i.previous_output with _ | t
    · rw [hl] at habs
      cases habs
    · rw [hl] at habs
      rcases hrec : amapSpend (aerase u i.previous_output) is
        with _ | ⟨pv2, u3⟩
      · rw [hrec] at habs
        cases habs
      · rw [hrec] at habs
        simp only [Option.map_some', Option.some.injEq, Prod.mk.injEq] at habs
        obtain ⟨hpv, hu2⟩ := habs
        have hcharI := hchar i.previous_output
        rw [hl] at hcharI
        rcases hbo : alookup bo i.previous_output with _ | v
        · rw [hbo, oor_none_left] at hcharI
          have hnsp : i.previous_output ∉ spent := by
            intro hc
            rw [if_pos hc] at hcharI
            cases hcharI
          rw [if_neg hnsp] at hcharI
          have ha : alookup a i.previous_output = some t := hcharI.symm
          have hwfi := hwfin i (List.mem_cons_self i is)
          have hstore2 : alookup utx (encOutPoint i.previous_output) =
              some (encTxOut t) := by
            rw [hstore i.previous_output hwfi, ha]
            rfl
          have hdec : deserializeTxOut (encTxOut t) = some t :=
            deserializeTxOut_enc t (hwfa _ _ ha)
          have hchar2 : ∀ o, alookup (aerase u i.previous_output) o =
              oor (alookup bo o)
                (if o ∈ spent ++ [i.previous_output] then none
                  else alookup a o) := by
            intro o
            by_cases ho : o = i.previous_output
            · rw [ho, alookup_aerase_self u _ hndu, hbo, oor_none_left,
                if_pos (List.mem_append_right _ (List.mem_singleton.mpr rfl))]
            · rw [alookup_aerase_ne u _ _ (fun he => ho he.symm), hchar o]
              have hiff : o ∈ spent ++ [i.previous_output] ↔ o ∈ spent := by
                rw [List.mem_append, List.mem_singleton]
                constructor
                · rintro (h | h)
                  · exact h
                  · exact absurd h ho
                · intro h
                  exact Or.inl h
              by_cases hsp : o ∈ spent
              · rw [if_pos hsp, if_pos (hiff.mpr hsp)]
              · rw [if_neg hsp, if_neg (fun hc => hsp (hiff.mp hc))]
          obtain ⟨bo2, spentAdd, hrun2, hnd2, hchar3, hsub2, hwf2⟩ :=
            ih (aerase u i.previous_output) bo
              (spent ++ [i.previous_output]) pv2 u3
              (keysNodup_aerase u _ hndu) hndbo hchar2 hboa
              (fun j hj => hwfin j (List.mem_cons_of_mem i hj)) hrec
          refine ⟨bo2, i.previous_output :: spentAdd, ?_, hnd2, ?_, hsub2, ?_⟩
          · rw [redbSpendLoop_cons_store utx i is bo _ t hbo hstore2 hdec,
              hrun2, Option.map_some', List.map_cons, hpv]
          · intro o
            rw [← hu2, hchar3 o]
            have heq : (spent ++ [i.previous_output]) ++ spentAdd =
                spent ++ i.previous_output :: spentAdd := by
              rw [List.append_assoc, List.singleton_append]
            rw [heq]
          · intro o ho
            rcases List.mem_cons.mp ho with rfl | ho2
            · exact hwfin i (List.mem_cons_self i is)
            · exact hwf2 o ho2
        · rw [hbo] at hcharI
          have htv : t = v := by
            injection hcharI
          subst htv
          have hchar2 : ∀ o, alookup (aerase u i.previous_output) o =
              oor (alookup (aerase bo i.previous_output) o)
                (if o ∈ spent then none else alookup a o) := by
            intro o
            by_cases ho : o = i.previous_output
            · rw [ho, alookup_aerase_self u _ hndu,
                alookup_aerase_self bo _ hndbo, oor_none_left,
                hboa i.previous_output t hbo]
              by_cases hsp : i.previous_output ∈ spent
              · rw [if_pos hsp]
              · rw [if_neg hsp]
            · rw [alookup_aerase_ne u _ _ (fun he => ho he.symm),
                alookup_aerase_ne bo _ _ (fun he => ho he.symm)]
              exact hchar o
          obtain ⟨bo2, spentAdd, hrun2, hnd2, hchar3, hsub2, hwf2⟩ :=
            ih (aerase u i.previous_output) (aerase bo i.previous_output)
              spent pv2 u3 (keysNodup_aerase u _ hndu)
              (keysNodup_aerase bo _ hndbo) hchar2
              (fun o v2 h => hboa o v2 (alookup_aerase_some bo _ o v2 hndbo h))
              (fun j hj => hwfin j (List.mem_cons_of_mem i hj)) hrec
          refine ⟨bo2, spentAdd, ?_, hnd2, ?_, ?_, hwf2⟩
          · rw [redbSpendLoop_cons_bo utx i is bo t hbo, hrun2,
              Option.map_some', hpv]
          · intro o
            rw [← hu2]
            exact hchar3 o
          · intro o v2 h
            exact alookup_aerase_some bo _ o v2 hndbo (hsub2 o v2 h)

/-- The redb store faithfully represents the abstract map. -/
def RedbRel (a : List (OutPoint × TxOut)) (r : RedbUtxo) : Prop :=
  KeysNodup r.utxos ∧ r.updated_up_to_height = -1 ∧
  (∀ o, WFKey o → alookup r.utxos (encOutPoint o) =
    Option.map encTxOut (alookup a o)) ∧
  (∀ o t, alookup a o = some t → WFTxOut t ∧ WFKey o)

/-- The redb backend simulates the reference store step. -/
theorem redb_step_sim (txidFn : Transaction → List Nat) (chain : List Block)
    (hvalid : ChainValid isProvablyUnspendable txidFn chain)
    (htxid : ∀ tx, (txidFn tx).length = 32) (k : Nat) (hk : k < chain.length)
    (r : RedbUtxo) (a : List (OutPoint × TxOut)) (pv : List TxOut)
    (a2 : List (OutPoint × TxOut))
    (hrel : RedbRel a r)
    (hinv : AmapInv isProvablyUnspendable txidFn chain k a)
    (habs : amapAogi isProvablyUnspendable a (chain.get ⟨k, hk⟩)
      ((chain.get ⟨k, hk⟩).txdata.map txidFn) k = some (pv, a2)) :
    ∃ r2, RedbUtxo.add_outputs_get_inputs r (chain.get ⟨k, hk⟩)
        ((chain.get ⟨k, hk⟩).txdata.map txidFn) k = some (pv, r2) ∧
      RedbRel a2 r2 := by
  obtain ⟨hnddb, hupd, hstore, hwfa⟩ := hrel
  obtain ⟨hfresh, hndbp, -, hwfp, hwfi⟩ :=
    amap_step_facts isProvablyUnspendable txidFn chain hvalid htxid k hk a hinv
  have hlt : r.updated_up_to_height < ((k : Nat) : Int) := by
    rw [hupd]
    omega
  have hbo0eq := collectBlockOutputs_eq isProvablyUnspendable
    ((chain.get ⟨k, hk⟩).txdata.map txidFn) (chain.get ⟨k, hk⟩).txdata
  have hndbo : KeysNodup (collectBlockOutputs isProvablyUnspendable ((chain.get ⟨k, hk⟩).txdata.map txidFn) (chain.get ⟨k, hk⟩).txdata) := by
    rw [hbo0eq]
    exact keysNodup_amapAddPairs isProvablyUnspendable _ [] (by simp [KeysNodup])
  have hbolook : ∀ o v, alookup (collectBlockOutputs isProvablyUnspendable ((chain.get ⟨k, hk⟩).txdata.map txidFn) (chain.get ⟨k, hk⟩).txdata) o = some v → (o, v) ∈ (blockOutputPairs ((chain.get ⟨k, hk⟩).txdata.map txidFn) (chain.get ⟨k, hk⟩).txdata) := by
    intro o v h
    rw [hbo0eq, alookup_amapAddPairs_base isProvablyUnspendable _ hndbp o] at h
    rcases hbp : alookup (blockOutputPairs ((chain.get ⟨k, hk⟩).txdata.map txidFn) (chain.get ⟨k, hk⟩).txdata) o with _ | t
    · rw [hbp] at h
      cases h
    · rw [hbp] at h
      simp only [Option.some_bind] at h
      by_cases hu : isProvablyUnspendable t.script_pubkey
      · rw [if_pos hu] at h
        cases h
      · rw [if_neg hu] at h
        injection h with he
        rw [← he]
        exact alookup_mem _ _ _ hbp
  have hboa : ∀ o v, alookup (collectBlockOutputs isProvablyUnspendable ((chain.get ⟨k, hk⟩).txdata.map txidFn) (chain.get ⟨k, hk⟩).txdata) o = some v → alookup a o = none := by
    intro o v h
    exact hfresh (o, v) (hbolook o v h)
  have hchar0 : ∀ o, alookup (amapAddPairs isProvablyUnspendable a (blockOutputPairs ((chain.get ⟨k, hk⟩).txdata.map txidFn) (chain.get ⟨k, hk⟩).txdata)) o =
      oor (alookup (collectBlockOutputs isProvablyUnspendable ((chain.get ⟨k, hk⟩).txdata.map txidFn) (chain.get ⟨k, hk⟩).txdata) o)
        (if o ∈ ([] : List OutPoint) then none else alookup a o) := by
    intro o
    rw [if_neg (List.not_mem_nil o),
      alookup_amapAddPairs isProvablyUnspendable _ a o, ← hbo0eq]
  have hndu1 : KeysNodup (amapAddPairs isProvablyUnspendable a (blockOutputPairs ((chain.get ⟨k, hk⟩).txdata.map txidFn) (chain.get ⟨k, hk⟩).txdata)) :=
    keysNodup_amapAddPairs isProvablyUnspendable _ a hinv.1
  obtain ⟨bo2, spentAdd, hrun, hndbo2, hchar2, hsub2, hwfsp⟩ :=
    redbSpendLoop_sim r.utxos a hstore (fun o t h => (hwfa o t h).1)
      (inputsAfterCoinbase (chain.get ⟨k, hk⟩)) (amapAddPairs isProvablyUnspendable a (blockOutputPairs ((chain.get ⟨k, hk⟩).txdata.map txidFn) (chain.get ⟨k, hk⟩).txdata)) (collectBlockOutputs isProvablyUnspendable ((chain.get ⟨k, hk⟩).txdata.map txidFn) (chain.get ⟨k, hk⟩).txdata) [] pv a2 hndu1 hndbo hchar0 hboa hwfi habs
  have hbo2pair : ∀ o v, alookup bo2 o = some v → (o, v) ∈ (blockOutputPairs ((chain.get ⟨k, hk⟩).txdata.map txidFn) (chain.get ⟨k, hk⟩).txdata) :=
    fun o v h => hbolook o v (hsub2 o v h)
  have hwfbo2 : ∀ p ∈ bo2, WFKey p.1 := by
    intro p hp
    have hl := alookup_of_mem_nodup bo2 p.1 p.2 hndbo2 hp
    exact (hwfp _ (hbo2pair p.1 p.2 hl)).1
  have hfold : ((spentAdd.map encOutPoint).foldl aerase r.utxos) = (spentAdd.foldl (fun d o => aerase d (encOutPoint o)) r.utxos) :=
    List.foldl_map encOutPoint aerase spentAdd r.utxos
  obtain ⟨hndD, hcharD⟩ := aeraseKeyFold_char encOutPoint
    encOutPoint_inj spentAdd r.utxos hnddb hwfsp
  obtain ⟨hndP, hcharP⟩ := ainsertKeyFold_char encOutPoint
    encOutPoint_inj bo2 (spentAdd.foldl (fun d o => aerase d (encOutPoint o)) r.utxos) hndD hwfbo2 hndbo2
  have hcharF : ∀ o, WFKey o →
      alookup (bo2.foldl (fun u p => ainsert u (encOutPoint p.1) (encTxOut p.2)) ((spentAdd.map encOutPoint).foldl aerase r.utxos)) (encOutPoint o) =
        Option.map encTxOut (alookup a2 o) := by
    intro o hwo
    rw [hfold, hcharP o hwo, hcharD o hwo, hstore o hwo, hchar2 o,
      List.nil_append, oor_map]
    have hmif : Option.map encTxOut
        (if o ∈ spentAdd then none else alookup a o) =
        (if o ∈ spentAdd then none
          else Option.map encTxOut (alookup a o)) := by
      by_cases hsp : o ∈ spentAdd
      · rw [if_pos hsp, if_pos hsp]
        rfl
      · rw [if_neg hsp, if_neg hsp]
    rw [hmif]
  have hndF : KeysNodup (bo2.foldl (fun u p => ainsert u (encOutPoint p.1) (encTxOut p.2)) ((spentAdd.map encOutPoint).foldl aerase r.utxos)) := by
    rw [hfold]
    exact hndP
  have hwfa2 : ∀ o t, alookup a2 o = some t → WFTxOut t ∧ WFKey o := by
    intro o t h
    rw [hchar2 o, List.nil_append] at h
    rcases hb2 : alookup bo2 o with _ | v
    · rw [hb2, oor_none_left] at h
      by_cases hsp : o ∈ spentAdd
      · rw [if_pos hsp] at h
        cases h
      · rw [if_neg hsp] at h
        exact hwfa o t h
    · rw [hb2] at h
      have htv : v = t := by injection h
      subst htv
      have hp := hwfp _ (hbo2pair o v hb2)
      exact ⟨hp.2, hp.1⟩
  refine ⟨{ r with
    utxos := (bo2.foldl (fun u p => ainsert u (encOutPoint p.1) (encTxOut p.2)) ((spentAdd.map encOutPoint).foldl aerase r.utxos)),
    prevouts := if pv.isEmpty then r.prevouts
      else ainsert r.prevouts ((k : Nat) : Int) (encTxOuts pv),
    ints := some ((k : Nat) : Int),
    inserted_outputs := r.inserted_outputs + bo2.length }, ?_,
    hndF, hupd, hcharF, hwfa2⟩
  simp only [RedbUtxo.add_outputs_get_inputs]
  rw [if_pos hlt, hrun]

/-- Any backend that simulates the reference store step produces, for
every emitted block, an `outpoint_values` map sending each non-coinbase
input to exactly the output the chain declared for it. -/
theorem feeRunSim {σ : Type} (uns : List Nat → Bool)
    (txidFn : Transaction → List Nat) (chain : List Block)
    (hvalid : ChainValid uns txidFn chain)
    (htxid : ∀ tx, (txidFn tx).length = 32) (sah : Nat)
    (aogi : σ → Block → List (List Nat) → Nat → Option (List TxOut × σ))
    (R : σ → List (OutPoint × TxOut) → Prop)
    (hstep : ∀ k (hk : k < chain.length) (s : σ) a pv a2,
      R s a → AmapInv uns txidFn chain k a →
      amapAogi uns a (chain.get ⟨k, hk⟩)
        ((chain.get ⟨k, hk⟩).txdata.map txidFn) k = some (pv, a2) →
      ∃ s2, aogi s (chain.get ⟨k, hk⟩)
        ((chain.get ⟨k, hk⟩).txdata.map txidFn) k = some (pv, s2) ∧ R s2 a2) :
    ∀ (n k : Nat), chain.length - k = n → ∀ (s : σ) a,
    R s a → AmapInv uns txidFn chain k a →
    ∃ out, feeRun aogi txidFn sah (chain.drop k) s k = some out ∧
      ∀ e ∈ out, ∀ inp ∈ inputsAfterCoinbase e.1,
        ∃ t, alookup (outpointValuesMap e.2.1) inp.previous_output = some t ∧
          alookup (chainOutputs txidFn chain) inp.previous_output = some t := by
  intro n
  induction n with
  | zero =>
    intro k hnk s a _ _
    have hdrop : chain.drop k = [] := List.drop_eq_nil_of_le (by omega)
    refine ⟨[], by rw [hdrop]; rfl, ?_⟩
    intro e he
    exact absurd he (List.not_mem_nil e)
  | succ n ih =>
    intro k hnk s a hrel hinv
    have hk : k < chain.length := by omega
    have hdrop := List.drop_eq_get_cons hk
    obtain ⟨pv, a2, habs, hinv2, hlen, hdecl⟩ :=
      amap_step uns txidFn chain hvalid htxid k hk a hinv
    obtain ⟨s2, hback, hrel2⟩ := hstep k hk s a pv a2 hrel hinv habs
    obtain ⟨-, -, hndins, -, hwfi⟩ :=
      amap_step_facts uns txidFn chain hvalid htxid k hk a hinv
    obtain ⟨out2, hout2, hprop2⟩ := ih (k + 1) (by omega) s2 a2 hrel2 hinv2
    by_cases hsah : sah ≤ k
    · have hne := (hvalid.2.2.2.2 (chain.get ⟨k, hk⟩) (chain.get_mem k hk)).1
      rcases hbtx : (chain.get ⟨k, hk⟩).txdata with _ | ⟨cb, tl⟩
      · exact absurd hbtx hne
      · have hle : ((inputsAfterCoinbase (chain.get ⟨k, hk⟩))).length ≤ pv.length := by omega
        have hstepB : feeStepBlock pv (chain.get ⟨k, hk⟩) = some
            ((((inputsAfterCoinbase (chain.get ⟨k, hk⟩))).zip pv).map (fun p => (p.1.previous_output, p.2)) ++
              [(OutPoint.null, ⟨sumOutputValues cb.output, []⟩)]) := by
          simp only [feeStepBlock, hbtx]
          rw [if_pos hle]
        refine ⟨((chain.get ⟨k, hk⟩),
          (((inputsAfterCoinbase (chain.get ⟨k, hk⟩))).zip pv).map (fun p => (p.1.previous_output, p.2)) ++
            [(OutPoint.null, ⟨sumOutputValues cb.output, []⟩)], k) :: out2,
          ?_, ?_⟩
        · rw [hdrop]
          simp only [feeRun, hback]
          rw [if_pos hsah]
          simp only [hstepB, hout2]
        · intro e he
          rcases List.mem_cons.mp he with rfl | he2
          · intro inp hinp
            have hinp2 : inp ∈ inputsAfterCoinbase (chain.get ⟨k, hk⟩) := hinp
            show ∃ t, alookup (outpointValuesMap
              ((((inputsAfterCoinbase (chain.get ⟨k, hk⟩))).zip pv).map (fun p => (p.1.previous_output, p.2)) ++
                [(OutPoint.null, ⟨sumOutputValues cb.output, []⟩)]))
                inp.previous_output = some t ∧
              alookup (chainOutputs txidFn chain) inp.previous_output = some t
            obtain ⟨⟨j, hj⟩, hjget⟩ := List.mem_iff_get.mp hinp2
            have hpj : j < pv.length := by omega
            refine ⟨pv.get ⟨j, hpj⟩, ?_, ?_⟩
            · have hsplit : outpointValuesMap
                  ((((inputsAfterCoinbase (chain.get ⟨k, hk⟩))).zip pv).map
                    (fun p => (p.1.previous_output, p.2)) ++
                    [(OutPoint.null, ⟨sumOutputValues cb.output, []⟩)]) =
                  ainsert (outpointValuesMap ((((inputsAfterCoinbase (chain.get ⟨k, hk⟩))).zip pv).map
                    (fun p => (p.1.previous_output, p.2))))
                    OutPoint.null ⟨sumOutputValues cb.output, []⟩ := by
                unfold outpointValuesMap
                rw [List.foldl_append]
                rfl
              have hwfinp : WFKey inp.previous_output := hwfi inp hinp2
              have hnen : OutPoint.null ≠ inp.previous_output := by
                intro he2
                have hv := congrArg OutPoint.vout he2
                have hb := hwfinp.2
                simp only [OutPoint.null] at hv
                omega
              rw [hsplit, alookup_ainsert_ne _ _ _ _ hnen]
              have hmapfst : ((((inputsAfterCoinbase (chain.get ⟨k, hk⟩))).zip pv).map
                  (fun p => (p.1.previous_output, p.2))).map Prod.fst =
                  ((inputsAfterCoinbase (chain.get ⟨k, hk⟩))).map (fun i => i.previous_output) := by
                rw [List.map_map]
                have hzf := List.map_fst_zip (inputsAfterCoinbase (chain.get ⟨k, hk⟩)) pv (by omega)
                have hcomp : (((inputsAfterCoinbase (chain.get ⟨k, hk⟩))).zip pv).map
                    ((fun i => i.previous_output) ∘ Prod.fst) =
                    ((((inputsAfterCoinbase (chain.get ⟨k, hk⟩))).zip pv).map Prod.fst).map
                      (fun i => i.previous_output) := by
                  rw [List.map_map]
                rw [show (Prod.fst ∘ fun p : TxIn × TxOut =>
                    (p.1.previous_output, p.2)) =
                    ((fun i => i.previous_output) ∘ Prod.fst) from rfl,
                  hcomp, hzf]
              have hndpairs : (((((inputsAfterCoinbase (chain.get ⟨k, hk⟩))).zip pv).map
                  (fun p => (p.1.previous_output, p.2))).map
                    Prod.fst).Nodup := by
                rw [hmapfst]
                exact hndins
              have hjzip : j < (((inputsAfterCoinbase (chain.get ⟨k, hk⟩))).zip pv).length := by
                rw [List.length_zip]
                omega
              have hpmem : (inp.previous_output, pv.get ⟨j, hpj⟩) ∈
                  (((inputsAfterCoinbase (chain.get ⟨k, hk⟩))).zip pv).map
                    (fun p => (p.1.previous_output, p.2)) := by
                have hg : ((((inputsAfterCoinbase (chain.get ⟨k, hk⟩))).zip pv).map
                    (fun p => (p.1.previous_output, p.2))).get
                    ⟨j, by rw [List.length_map]; exact hjzip⟩ =
                    (inp.previous_output, pv.get ⟨j, hpj⟩) := by
                  have hjget2 : (inputsAfterCoinbase chain[k])[j] = inp := by
                    simp only [List.get_eq_getElem] at hjget
                    exact hjget
                  simp only [List.get_eq_getElem, List.getElem_map,
                    List.getElem_zip, hjget2]
                rw [← hg]
                exact List.get_mem _ _ _
              show alookup (((((inputsAfterCoinbase (chain.get ⟨k, hk⟩))).zip pv).map
                (fun p => (p.1.previous_output, p.2))).foldl
                  (fun m p => ainsert m p.1 p.2) []) inp.previous_output = _
              exact alookup_foldl_ainsert_mem _ [] _ _ hndpairs hpmem
            · have hd := hdecl j hj hpj
              rw [hjget] at hd
              exact hd
          · exact hprop2 e he2
    · refine ⟨out2, ?_, hprop2⟩
      rw [hdrop]
      simp only [feeRun, hback]
      rw [if_neg hsah]
      exact hout2

theorem opreturn_unspendable (s : List Nat) (h : isOpReturn s = true) :
    isProvablyUnspendable s = true := by
  rcases hh : s.head? with _ | b
  · rw [isOpReturn, hh] at h
    simp at h
  · rw [isOpReturn, hh] at h
    simp only [decide_eq_true_eq, Option.some.injEq] at h
    rw [isProvablyUnspendable, hh, h]
    simp

/-- A chain none of whose spent outputs is provably unspendable is in
particular a chain none of whose spent outputs is an OP_RETURN. -/
theorem chainValid_mono (txidFn : Transaction → List Nat)
    (chain : List Block)
    (hv : ChainValid isProvablyUnspendable txidFn chain) :
    ChainValid isOpReturn txidFn chain := by
  obtain ⟨h1, h2, h3, h4, h5⟩ := hv
  refine ⟨h1, h2, h3, ?_, h5⟩
  intro p hp hsp
  have hu := h4 p hp hsp
  cases hb : isOpReturn p.2.script_pubkey
  · rfl
  · rw [opreturn_unspendable _ hb] at hu
    cases hu

theorem truncRel_empty (hash64 : OutPoint → Nat) :
    TruncRel hash64 [] TruncMap.empty := by
  refine ⟨?_, ?_, ?_, ?_, ?_, ?_⟩
  · intro o t h
    cases h
  · intro o t h
    cases h
  · intro h v hv
    cases hv
  · intro o1 o2 t1 t2 h1
    cases h1
  · simp [KeysNodup, TruncMap.empty]
  · simp [KeysNodup, TruncMap.empty]

theorem amapInv_zero (uns : List Nat → Bool)
    (txidFn : Transaction → List Nat) (chain : List Block) :
    AmapInv uns txidFn chain 0 [] := by
  refine ⟨by simp [KeysNodup], ?_⟩
  intro o
  rfl

theorem dbRel_empty : DbRel [] ⟨[], -1, 0⟩ := by
  refine ⟨by simp [KeysNodup], rfl, ?_, ?_⟩
  · intro o _
    rfl
  · intro o t h
    cases h

theorem redbRel_empty : RedbRel [] ⟨[], [], none, -1, 0⟩ := by
  refine ⟨by simp [KeysNodup], rfl, ?_, ?_⟩
  · intro o _
    rfl
  · intro o t h
    cases h

/-- C1: along a consensus-valid chain (distinct created outpoints and
spends, spends of previously created spendable outputs only, nonempty
blocks with bounded well-formed outputs, 32-byte transaction ids), runs
of the fee stage over fresh in-memory, rocksdb and redb stores all
succeed, and for every emitted block every non-coinbase input is mapped
by the attached `outpoint_values` to exactly the output the chain
declared at that input's previous outpoint — for every fingerprint
function, so in particular under fingerprint collisions. -/
theorem prevout_completeness (hash64 : OutPoint → Nat)
    (txidFn : Transaction → List Nat) (chain : List Block)
    (start_at_height : Nat)
    (htxid : ∀ tx, (txidFn tx).length = 32)
    (hvalid : ChainValid isProvablyUnspendable txidFn chain) :
    ∃ outM outD outR,
      feeRun (MemUtxo.add_outputs_get_inputs hash64) txidFn start_at_height
        chain ⟨TruncMap.empty, 0⟩ 0 = some outM ∧
      feeRun DbUtxo.add_outputs_get_inputs txidFn start_at_height
        chain ⟨[], -1, 0⟩ 0 = some outD ∧
      feeRun RedbUtxo.add_outputs_get_inputs txidFn start_at_height
        chain ⟨[], [], none, -1, 0⟩ 0 = some outR ∧
      (∀ e ∈ outM, ∀ inp ∈ inputsAfterCoinbase e.1,
        ∃ t, alookup (outpointValuesMap e.2.1) inp.previous_output = some t ∧
          alookup (chainOutputs txidFn chain) inp.previous_output = some t) ∧
      (∀ e ∈ outD, ∀ inp ∈ inputsAfterCoinbase e.1,
        ∃ t, alookup (outpointValuesMap e.2.1) inp.previous_output = some t ∧
          alookup (chainOutputs txidFn chain) inp.previous_output = some t) ∧
      (∀ e ∈ outR, ∀ inp ∈ inputsAfterCoinbase e.1,
        ∃ t, alookup (outpointValuesMap e.2.1) inp.previous_output = some t ∧
          alookup (chainOutputs txidFn chain) inp.previous_output = some t) := by
  have hvop := chainValid_mono txidFn chain hvalid
  obtain ⟨outM, hrunM, hpropM⟩ := feeRunSim isOpReturn txidFn chain hvop
    htxid start_at_height (MemUtxo.add_outputs_get_inputs hash64)
    (fun s a => TruncRel hash64 a s.map)
    (fun k hk s a pv a2 hrel hinv habs =>
      mem_step_sim hash64 txidFn chain hvop htxid k hk s a pv a2
        hrel hinv habs)
    chain.length 0 rfl ⟨TruncMap.empty, 0⟩ []
    (truncRel_empty hash64) (amapInv_zero isOpReturn txidFn chain)
  obtain ⟨outD, hrunD, hpropD⟩ := feeRunSim isOpReturn txidFn chain hvop
    htxid start_at_height DbUtxo.add_outputs_get_inputs
    (fun d a => DbRel a d)
    (fun k hk d a pv a2 hrel hinv habs =>
      db_step_sim txidFn chain hvop htxid k hk d a pv a2 hrel hinv habs)
    chain.length 0 rfl ⟨[], -1, 0⟩ []
    dbRel_empty (amapInv_zero isOpReturn txidFn chain)
  obtain ⟨outR, hrunR, hpropR⟩ := feeRunSim isProvablyUnspendable txidFn
    chain hvalid htxid start_at_height RedbUtxo.add_outputs_get_inputs
    (fun r a => RedbRel a r)
    (fun k hk r a pv a2 hrel hinv habs =>
      redb_step_sim txidFn chain hvalid htxid k hk r a pv a2 hrel hinv habs)
    chain.length 0 rfl ⟨[], [], none, -1, 0⟩ []
    redbRel_empty (amapInv_zero isProvablyUnspendable txidFn chain)
  rw [List.drop_zero] at hrunM hrunD hrunR
  exact ⟨outM, outD, outR, hrunM, hrunD, hrunR, hpropM, hpropD, hpropR⟩

/-- Transactions of the two-block witness chain: two coinbases and a
transaction spending the first coinbase's output (lock times keep the
modelled txids distinct). -/
def exTx1 : Transaction := ⟨1, [⟨OutPoint.null, [], 0⟩], [⟨50, [0x51]⟩], 0⟩

def exTx2 : Transaction := ⟨1, [⟨OutPoint.null, [], 0⟩], [⟨25, [0x52]⟩], 1⟩

def exTx3 : Transaction := ⟨1, [⟨⟨natToLe 32 0, 0⟩, [], 0⟩], [⟨50, []⟩], 2⟩

def exChain1 : List Block :=
  [⟨⟨0, List.replicate 32 0, List.replicate 32 0, 0, 0, 0⟩, [exTx1]⟩,
   ⟨⟨0, List.replicate 32 0, List.replicate 32 0, 0, 0, 1⟩, [exTx2, exTx3]⟩]

/-- Closed witness for C1: a concrete two-block chain with a real spend,
run against all three fresh backends with a constantly-colliding
fingerprint function. -/
theorem prevout_completeness_witness :
    ∃ outM outD outR,
      feeRun (MemUtxo.add_outputs_get_inputs (fun _ => 0))
        (fun tx => natToLe 32 tx.lock_time) 0 exChain1 ⟨TruncMap.empty, 0⟩ 0 =
          some outM ∧
      feeRun DbUtxo.add_outputs_get_inputs (fun tx => natToLe 32 tx.lock_time)
        0 exChain1 ⟨[], -1, 0⟩ 0 = some outD ∧
      feeRun RedbUtxo.add_outputs_get_inputs
        (fun tx => natToLe 32 tx.lock_time) 0 exChain1
        ⟨[], [], none, -1, 0⟩ 0 = some outR ∧
      (∀ e ∈ outM, ∀ inp ∈ inputsAfterCoinbase e.1,
        ∃ t, alookup (outpointValuesMap e.2.1) inp.previous_output = some t ∧
          alookup (chainOutputs (fun tx => natToLe 32 tx.lock_time) exChain1)
            inp.previous_output = some t) ∧
      (∀ e ∈ outD, ∀ inp ∈ inputsAfterCoinbase e.1,
        ∃ t, alookup (outpointValuesMap e.2.1) inp.previous_output = some t ∧
          alookup (chainOutputs (fun tx => natToLe 32 tx.lock_time) exChain1)
            inp.previous_output = some t) ∧
      (∀ e ∈ outR, ∀ inp ∈ inputsAfterCoinbase e.1,
        ∃ t, alookup (outpointValuesMap e.2.1) inp.previous_output = some t ∧
          alookup (chainOutputs (fun tx => natToLe 32 tx.lock_time) exChain1)
            inp.previous_output = some t) :=
  prevout_completeness (fun _ => 0) (fun tx => natToLe 32 tx.lock_time)
    exChain1 0 (fun tx => natToLe_length 32 tx.lock_time)
    (by
      refine ⟨by decide, by decide, ?_, by decide, by decide⟩
      intro k hk
      have hk2 : k < 2 := hk
      interval_cases k
      · show ∀ inp ∈ inputsAfterCoinbase (exChain1.get ⟨0, by decide⟩),
          inp.previous_output ∈
            (chainOutputs (fun tx => natToLe 32 tx.lock_time)
              (exChain1.take (0 + 1))).map Prod.fst
        decide
      · show ∀ inp ∈ inputsAfterCoinbase (exChain1.get ⟨1, by decide⟩),
          inp.previous_output ∈
            (chainOutputs (fun tx => natToLe 32 tx.lock_time)
              (exChain1.take (1 + 1))).map Prod.fst
        decide)

end BlocksIterator